import Mathlib

/-!
Verification development for the rucksdb key-value store core.

Bytes are modelled as natural numbers (values < 256 where it matters),
byte strings as `List Nat`, machine integers as `Nat`/`Int` with explicit
reductions modulo `2^w` where the Rust code can overflow.
-/

namespace RucksDB

/-! ## Primitives: bytewise comparison, fixed/varint coding -/

/-- Modelled from the spec: `Slice::compare` (called by
`BytewiseComparator::compare` in `src/util/comparator.rs`) is absent from
`src/`; per §4.B the bytewise comparator performs unsigned lexicographic
order on the byte contents. -/
def compareBytes : List Nat → List Nat → Ordering
  | [], [] => .eq
  | [], _ :: _ => .lt
  | _ :: _, [] => .gt
  | a :: as, b :: bs =>
    if a < b then .lt else if b < a then .gt else compareBytes as bs

/-- Constant from `src/db/dbformat.rs`: `NUM_LEVELS = 7`. -/
def NUM_LEVELS : Int := 7

/-- Constant from `src/db/dbformat.rs`: `MAX_SEQUENCE_NUMBER = 2^56 - 1`. -/
def MAX_SEQUENCE_NUMBER : Nat := 2 ^ 56 - 1

/-- Value type `Deletion` (`ValueType::type_deletion`, value 0). -/
def type_deletion : Nat := 0

/-- Value type `Value` (`ValueType::type_value`, value 1). -/
def type_value : Nat := 1

/-- The value type used for seeks (`VALUE_TYPE_FOR_SEEK = type_value`). -/
def VALUE_TYPE_FOR_SEEK : Nat := type_value

/-- `pack_sequence_and_type` from `src/db/dbformat.rs`: `(seq << 8) | type`
on `u64` values (the shift wraps modulo `2^64`). -/
def pack_sequence_and_type (seq t : Nat) : Nat :=
  ((seq <<< 8) % 2 ^ 64) ||| t

/-- `encode_fixed64` from `src/util/coding.rs`: little-endian 8 bytes. -/
def encode_fixed64 (v : Nat) : List Nat :=
  [v % 256, v / 2 ^ 8 % 256, v / 2 ^ 16 % 256, v / 2 ^ 24 % 256,
   v / 2 ^ 32 % 256, v / 2 ^ 40 % 256, v / 2 ^ 48 % 256, v / 2 ^ 56 % 256]

/-- `encode_fixed32` from `src/util/coding.rs`: little-endian 4 bytes. -/
def encode_fixed32 (v : Nat) : List Nat :=
  [v % 256, v / 2 ^ 8 % 256, v / 2 ^ 16 % 256, v / 2 ^ 24 % 256]

/-- Modelled from the spec: `decode_fixed64_bytes` (used by
`InternalKeyComparator::compare` in `src/db/dbformat.rs`) is absent from
`src/util/coding.rs`; per §6 fixed integers are little-endian, so it reads
the first 8 bytes least-significant first. -/
def decode_fixed64_bytes (bs : List Nat) : Nat :=
  bs.getD 0 0 + 2 ^ 8 * bs.getD 1 0 + 2 ^ 16 * bs.getD 2 0 + 2 ^ 24 * bs.getD 3 0 +
  2 ^ 32 * bs.getD 4 0 + 2 ^ 40 * bs.getD 5 0 + 2 ^ 48 * bs.getD 6 0 +
  2 ^ 56 * bs.getD 7 0

/-- `extract_user_key` from `src/db/dbformat.rs`: the internal key without
its trailing 8 tag bytes. -/
def extract_user_key (internal_key : List Nat) : List Nat :=
  internal_key.take (internal_key.length - 8)

/-- `append_internal_key` from `src/db/dbformat.rs` applied to an empty
buffer: user key followed by the packed little-endian tag. -/
def mk_internal_key (user_key : List Nat) (seq t : Nat) : List Nat :=
  user_key ++ encode_fixed64 (pack_sequence_and_type seq t)

/-! ## Varint coding (src/util/coding.rs) -/

/-- Constant `B = 128` from `src/util/coding.rs` (continuation bit). -/
def B : Nat := 128

/-- `encode_varint32` from `src/util/coding.rs`: 1-5 bytes, 7 data bits
per byte, high bit = continuation; each pushed byte is a `u8` cast. -/
def encode_varint32 (v : Nat) : List Nat :=
  if v < 2 ^ 7 then [v % 256]
  else if v < 2 ^ 14 then [(v ||| B) % 256, (v >>> 7) % 256]
  else if v < 2 ^ 21 then
    [(v ||| B) % 256, ((v >>> 7) ||| B) % 256, (v >>> 14) % 256]
  else if v < 2 ^ 28 then
    [(v ||| B) % 256, ((v >>> 7) ||| B) % 256, ((v >>> 14) ||| B) % 256,
     (v >>> 21) % 256]
  else
    [(v ||| B) % 256, ((v >>> 7) ||| B) % 256, ((v >>> 14) ||| B) % 256,
     ((v >>> 21) ||| B) % 256, (v >>> 28) % 256]

/-- `encode_varint64` from `src/util/coding.rs`: push `(v | B) as u8`
while `v >= B`, shifting right by 7; then push the final byte. -/
def encode_varint64 (v : Nat) : List Nat :=
  if h : v ≥ B then ((v ||| B) % 256) :: encode_varint64 (v >>> 7) else [v % 256]
termination_by v
decreasing_by
  simp only [Nat.shiftRight_eq_div_pow]
  simp only [B] at h
  omega

/-- `varint_length` from `src/util/coding.rs`. -/
def varint_length (v : Nat) : Nat :=
  if h : v ≥ B then varint_length (v >>> 7) + 1 else 1
termination_by v
decreasing_by
  simp only [Nat.shiftRight_eq_div_pow]
  simp only [B] at h
  omega

/-- The fallback loop of `get_varint32_idx` from `src/util/coding.rs`.
A slice is its remaining byte list; success returns the value and the
rest.  `result |= byte << shift` runs on `u32`, hence the reduction
modulo `2^32`. -/
def get_varint32_loop (bytes : List Nat) (shift result : Nat) :
    Option (Nat × List Nat) :=
  match bytes with
  | [] => none
  | byte :: rest =>
    if shift ≤ 28 then
      if byte &&& B ≠ 0 then
        get_varint32_loop rest (shift + 7)
          (result ||| ((byte &&& (B - 1)) <<< shift) % 2 ^ 32)
      else
        some (result ||| (byte <<< shift) % 2 ^ 32, rest)
    else none

/-- `get_varint32` from `src/util/coding.rs`: single-byte fast path, then
the fallback loop. -/
def get_varint32 (input : List Nat) : Option (Nat × List Nat) :=
  match input with
  | byte :: rest =>
    if byte &&& B = 0 then some (byte, rest) else get_varint32_loop input 0 0
  | [] => none

/-- The loop of `get_varint64_idx` from `src/util/coding.rs`; the shift
bound is 63 and arithmetic is on `u64`. -/
def get_varint64_loop (bytes : List Nat) (shift result : Nat) :
    Option (Nat × List Nat) :=
  match bytes with
  | [] => none
  | byte :: rest =>
    if shift ≤ 63 then
      if byte &&& B ≠ 0 then
        get_varint64_loop rest (shift + 7)
          (result ||| ((byte &&& (B - 1)) <<< shift) % 2 ^ 64)
      else
        some (result ||| (byte <<< shift) % 2 ^ 64, rest)
    else none

/-- `get_varint64` from `src/util/coding.rs`. -/
def get_varint64 (input : List Nat) : Option (Nat × List Nat) :=
  get_varint64_loop input 0 0

/-- `put_length_prefixed_slice` from `src/util/coding.rs` (payload only):
varint64 length followed by the bytes. -/
def put_length_prefixed_slice (s : List Nat) : List Nat :=
  encode_varint64 s.length ++ s

/-- `get_length_prefixed_slice` from `src/util/coding.rs`: read a varint64
length, then that many bytes. -/
def get_length_prefixed_slice (input : List Nat) :
    Option (List Nat × List Nat) :=
  match get_varint64 input with
  | some (len, rest) =>
    if len ≤ rest.length then some (rest.take len, rest.drop len) else none
  | none => none

/-! ## InternalKeyComparator -/

/-- The trailing 8-byte tag of an internal key, decoded as the
little-endian integer compared by `InternalKeyComparator::compare`
(`decode_fixed64_bytes(&a.data()[(a.size() - 8)..])`). -/
def tag_of (k : List Nat) : Nat :=
  decode_fixed64_bytes (k.drop (k.length - 8))

/-- `InternalKeyComparator::compare` from `src/db/dbformat.rs`,
parameterized by the wrapped user comparator: compare user-key prefixes;
on equality compare the trailing 8-byte little-endian tags and reverse the
result. -/
def icmp_compare (ucmp : List Nat → List Nat → Ordering) (a b : List Nat) : Ordering :=
  match ucmp (extract_user_key a) (extract_user_key b) with
  | .eq =>
    if tag_of a > tag_of b then .lt
    else if tag_of a < tag_of b then .gt
    else .eq
  | r => r

/-- The internal-key comparator wrapping the default bytewise comparator. -/
def icmpBytes (a b : List Nat) : Ordering :=
  icmp_compare compareBytes a b

/-! ## Random (src/util/random.rs) -/

/-- Modulus of the Park-Miller generator, `2^31 - 1`. -/
def RandomM : Nat := 2 ^ 31 - 1

/-- Multiplier of the Park-Miller generator. -/
def RandomA : Nat := 16807

/-- `Random` from `src/util/random.rs`: state is the `u32` seed. -/
structure Random where
  seed_ : Nat

/-- `Random::new`: mask the seed to 31 bits and avoid the bad seeds
`0` and `2^31 - 1`. -/
def Random.new (s : Nat) : Random :=
  let seed := s &&& 0x7fffffff
  ⟨if seed = 0 ∨ seed = 2 ^ 31 - 1 then 1 else seed⟩

/-- `Random::next`: returns the new value and the updated generator.
`(product >> 31) + (product & M)` is computed in `u32` (hence the
reduction modulo `2^32`), with a final conditional subtraction of `M`. -/
def Random.next (r : Random) : Nat × Random :=
  let product := r.seed_ * RandomA
  let seed := ((product >>> 31) + (product &&& RandomM)) % 2 ^ 32
  let seed := if seed > RandomM then seed - RandomM else seed
  (seed, ⟨seed⟩)

/-- The seed invariant claimed for `Random`. -/
def Random.inv (r : Random) : Prop :=
  1 ≤ r.seed_ ∧ r.seed_ ≤ 2 ^ 31 - 2

/-! ## DB::recover decision logic (src/src/db.rs lines 136-148) -/

/-- Outcome of the CURRENT-file branch of `DB::recover`. -/
inductive RecoverDecision where
  /-- CURRENT was absent and a fresh DB is initialized via `new_db`;
  recovery then proceeds. -/
  | createNew : RecoverDecision
  /-- CURRENT was present; recovery proceeds without creating. -/
  | proceed : RecoverDecision
  /-- recover returns `Status::invalid_argument(dbname, msg)`. -/
  | invalidArgument (msg : String) : RecoverDecision
deriving DecidableEq

/-- The CURRENT-file branch of `DB::recover` (`src/src/db.rs` lines
136-148), as a function of whether CURRENT exists and of the two open
options.  The source consults only `create_if_missing`; the `else` branch
returns the "exists" error unconditionally. -/
def recoverDecision (currentExists createIfMissing errorIfExists : Bool) : RecoverDecision :=
  if !currentExists then
    if createIfMissing then
      .createNew
    else
      .invalidArgument "does not exist (create_if_missing is false)"
  else
    .invalidArgument "exists (error_if_exists is true)"

/-! ## FileMetaData and find_file (src/db/version_set.rs) -/

/-- `FileMetaData` from `src/db/version_edit.rs`.  Internal keys are byte
lists (`InternalKey::rep_`). -/
structure FileMetaData where
  refs : Int
  allowed_seeks : Int
  number : Nat
  file_size : Nat
  smallest : List Nat
  largest : List Nat
deriving DecidableEq

/-- `FileMetaData::new()` from `src/db/version_edit.rs` (`allowed_seeks`
is initialized to `1 << 30`). -/
def FileMetaData.new : FileMetaData :=
  { refs := 0, allowed_seeks := 1073741824, number := 0, file_size := 0,
    smallest := [], largest := [] }

/-- The binary-search loop of `find_file` from `src/db/version_set.rs`:
narrow `[left, right)` around the smallest index whose file's largest key
is not below the target key. -/
def find_file_loop (cmp : List Nat → List Nat → Ordering)
    (files : List FileMetaData) (key : List Nat) (left right : Nat) : Nat :=
  if left < right then
    if cmp (files.getD ((left + right) / 2) FileMetaData.new).largest key = .lt then
      find_file_loop cmp files key ((left + right) / 2 + 1) right
    else
      find_file_loop cmp files key left ((left + right) / 2)
  else
    right
termination_by right - left
decreasing_by all_goals omega

/-- `find_file` from `src/db/version_set.rs`. -/
def find_file (cmp : List Nat → List Nat → Ordering)
    (files : List FileMetaData) (key : List Nat) : Nat :=
  find_file_loop cmp files key 0 files.length

/-! ## Boundary-file expansion (src/db/version_set.rs) -/

/-- `find_largest_key` from `src/db/version_set.rs`: linear scan keeping
the internal-key-largest `largest`; `none` on empty input. -/
def find_largest_key (cmp : List Nat → List Nat → Ordering)
    (files : List FileMetaData) : Option (List Nat) :=
  match files with
  | [] => none
  | f :: rest =>
    some (rest.foldl
      (fun lk g => if cmp g.largest lk = .gt then g.largest else lk) f.largest)

/-- `find_smallest_boundary_file` from `src/db/version_set.rs`: scan
`level_files` for files whose `smallest` strictly exceeds `largest_key`
under the internal-key order while sharing its user key, keeping the one
with the internal-key-smallest `smallest`. -/
def find_smallest_boundary_file (ucmp : List Nat → List Nat → Ordering)
    (level_files : List FileMetaData) (largest_key : List Nat) :
    Option FileMetaData :=
  level_files.foldl
    (fun sbf f =>
      if icmp_compare ucmp f.smallest largest_key = .gt ∧
          ucmp (extract_user_key f.smallest) (extract_user_key largest_key) = .eq then
        match sbf with
        | none => some f
        | some g =>
          if icmp_compare ucmp f.smallest g.smallest = .lt then some f else some g
      else sbf)
    none

/-- The search loop of `add_boundary_inputs` from `src/db/version_set.rs`.
The Rust loop has no explicit bound; here it carries fuel, and
`level_files.length + 1` steps are proved sufficient for well-formed files
(each appended boundary file strictly shrinks the set of level files whose
`smallest` lies above the current largest key). -/
def add_boundary_inputs_loop (ucmp : List Nat → List Nat → Ordering)
    (level_files : List FileMetaData) :
    List FileMetaData → List Nat → Nat → List FileMetaData
  | compaction_files, _, 0 => compaction_files
  | compaction_files, largest_key, fuel + 1 =>
    match find_smallest_boundary_file ucmp level_files largest_key with
    | some f =>
      add_boundary_inputs_loop ucmp level_files
        (compaction_files ++ [f]) f.largest fuel
    | none => compaction_files

/-- `add_boundary_inputs` from `src/db/version_set.rs`. -/
def add_boundary_inputs (ucmp : List Nat → List Nat → Ordering)
    (level_files compaction_files : List FileMetaData) : List FileMetaData :=
  match find_largest_key (icmp_compare ucmp) compaction_files with
  | some largest_key =>
    add_boundary_inputs_loop ucmp level_files compaction_files largest_key
      (level_files.length + 1)
  | none => compaction_files

/-- Stated from the claim: `f` is a boundary file for the current largest
key `lk` — `f.smallest > lk` under the internal-key order with equal user
keys. -/
def IsBoundary (ucmp : List Nat → List Nat → Ordering)
    (lk : List Nat) (f : FileMetaData) : Prop :=
  icmp_compare ucmp f.smallest lk = .gt ∧
  ucmp (extract_user_key f.smallest) (extract_user_key lk) = .eq

/-- Stated from the claim: the greedy boundary-file sequence starting from
largest key `lk` — each element is an internal-key-minimal boundary file of
the current largest key, the search continues from its `largest`, and the
sequence stops only when no boundary file remains. -/
inductive IsBoundaryChain (ucmp : List Nat → List Nat → Ordering)
    (level : List FileMetaData) : List Nat → List FileMetaData → Prop where
  | nil (lk : List Nat) (hnone : ∀ f ∈ level, ¬ IsBoundary ucmp lk f) :
      IsBoundaryChain ucmp level lk []
  | cons (lk : List Nat) (f : FileMetaData) (rest : List FileMetaData)
      (hmem : f ∈ level) (hb : IsBoundary ucmp lk f)
      (hmin : ∀ g ∈ level, IsBoundary ucmp lk g →
        icmp_compare ucmp f.smallest g.smallest ≠ .gt)
      (hrest : IsBoundaryChain ucmp level f.largest rest) :
      IsBoundaryChain ucmp level lk (f :: rest)

/-! ## VersionEdit codec (src/db/version_edit.rs) -/

/-- Modelled from the spec: `Slice::to_utf8_string` defers to Rust's
`core::str::from_utf8`, which is outside the repository; this is the
standard RFC 3629 UTF-8 validity check it performs.  Decoded strings are
kept as their byte lists, so only validity matters. -/
def isValidUtf8 : List Nat → Bool
  | [] => true
  | b :: rest =>
    if b ≤ 0x7F then isValidUtf8 rest
    else if 0xC2 ≤ b ∧ b ≤ 0xDF then
      match rest with
      | c1 :: rest2 =>
        decide (0x80 ≤ c1 ∧ c1 ≤ 0xBF) && isValidUtf8 rest2
      | [] => false
    else if b = 0xE0 then
      match rest with
      | c1 :: c2 :: rest2 =>
        decide (0xA0 ≤ c1 ∧ c1 ≤ 0xBF) && decide (0x80 ≤ c2 ∧ c2 ≤ 0xBF) &&
          isValidUtf8 rest2
      | _ => false
    else if (0xE1 ≤ b ∧ b ≤ 0xEC) ∨ b = 0xEE ∨ b = 0xEF then
      match rest with
      | c1 :: c2 :: rest2 =>
        decide (0x80 ≤ c1 ∧ c1 ≤ 0xBF) && decide (0x80 ≤ c2 ∧ c2 ≤ 0xBF) &&
          isValidUtf8 rest2
      | _ => false
    else if b = 0xED then
      match rest with
      | c1 :: c2 :: rest2 =>
        decide (0x80 ≤ c1 ∧ c1 ≤ 0x9F) && decide (0x80 ≤ c2 ∧ c2 ≤ 0xBF) &&
          isValidUtf8 rest2
      | _ => false
    else if b = 0xF0 then
      match rest with
      | c1 :: c2 :: c3 :: rest2 =>
        decide (0x90 ≤ c1 ∧ c1 ≤ 0xBF) && decide (0x80 ≤ c2 ∧ c2 ≤ 0xBF) &&
          decide (0x80 ≤ c3 ∧ c3 ≤ 0xBF) && isValidUtf8 rest2
      | _ => false
    else if 0xF1 ≤ b ∧ b ≤ 0xF3 then
      match rest with
      | c1 :: c2 :: c3 :: rest2 =>
        decide (0x80 ≤ c1 ∧ c1 ≤ 0xBF) && decide (0x80 ≤ c2 ∧ c2 ≤ 0xBF) &&
          decide (0x80 ≤ c3 ∧ c3 ≤ 0xBF) && isValidUtf8 rest2
      | _ => false
    else if b = 0xF4 then
      match rest with
      | c1 :: c2 :: c3 :: rest2 =>
        decide (0x80 ≤ c1 ∧ c1 ≤ 0x8F) && decide (0x80 ≤ c2 ∧ c2 ≤ 0xBF) &&
          decide (0x80 ≤ c3 ∧ c3 ≤ 0xBF) && isValidUtf8 rest2
      | _ => false
    else false

/-- Reinterpret a `u32` bit pattern as an `i32` (Rust `as i32`). -/
def u32_as_i32 (v : Nat) : Int :=
  if v < 2 ^ 31 then (v : Int) else (v : Int) - 2 ^ 32

/-- Reinterpret an `i32` as a `u32` bit pattern (Rust `as u32`). -/
def i32_as_u32 (l : Int) : Nat :=
  (l % 2 ^ 32).toNat

/-- Insertion into the `BTreeSet<(i32, u64)>` model: a strictly sorted
list under the lexicographic pair order (Rust's `Ord` for tuples). -/
def deletedInsert (x : Int × Nat) : List (Int × Nat) → List (Int × Nat)
  | [] => [x]
  | y :: rest =>
    if x.1 < y.1 ∨ (x.1 = y.1 ∧ x.2 < y.2) then x :: y :: rest
    else if x = y then y :: rest
    else y :: deletedInsert x rest

/-- `VersionEdit` from `src/db/version_edit.rs`.  The comparator name is
kept as its UTF-8 bytes; the `BTreeSet` of deleted files is a strictly
sorted list. -/
structure VersionEdit where
  comparator_ : List Nat
  log_number_ : Nat
  prev_log_number_ : Nat
  next_file_number_ : Nat
  last_sequence_ : Nat
  has_comparator_ : Bool
  has_log_number_ : Bool
  has_prev_log_number_ : Bool
  has_next_file_number_ : Bool
  has_last_sequence_ : Bool
  compact_pointers_ : List (Int × List Nat)
  deleted_files_ : List (Int × Nat)
  new_files_ : List (Int × FileMetaData)
deriving DecidableEq

/-- `VersionEdit::new()` from `src/db/version_edit.rs`. -/
def VersionEdit.new : VersionEdit :=
  { comparator_ := [], log_number_ := 0, prev_log_number_ := 0,
    next_file_number_ := 0, last_sequence_ := 0,
    has_comparator_ := false, has_log_number_ := false,
    has_prev_log_number_ := false, has_next_file_number_ := false,
    has_last_sequence_ := false, compact_pointers_ := [],
    deleted_files_ := [], new_files_ := [] }

/-- `VersionEdit::encode_to` from `src/db/version_edit.rs` (tag constants
COMPARATOR=1, LOG_NUMBER=2, PREV_LOG_NUMBER=9, NEXT_FILE_NUMBER=3,
LAST_SEQUENCE=4, COMPACT_POINTER=5, DELETED_FILE=6, NEW_FILE=7; levels are
written as `level as u32`). -/
def VersionEdit.encode_to (e : VersionEdit) : List Nat :=
  (if e.has_comparator_ then
    encode_varint32 1 ++ put_length_prefixed_slice e.comparator_ else []) ++
  (if e.has_log_number_ then encode_varint32 2 ++ encode_varint64 e.log_number_ else []) ++
  (if e.has_prev_log_number_ then
    encode_varint32 9 ++ encode_varint64 e.prev_log_number_ else []) ++
  (if e.has_next_file_number_ then
    encode_varint32 3 ++ encode_varint64 e.next_file_number_ else []) ++
  (if e.has_last_sequence_ then
    encode_varint32 4 ++ encode_varint64 e.last_sequence_ else []) ++
  (e.compact_pointers_.map (fun p =>
    encode_varint32 5 ++ encode_varint32 (i32_as_u32 p.1) ++
      put_length_prefixed_slice p.2)).join ++
  (e.deleted_files_.map (fun d =>
    encode_varint32 6 ++ encode_varint32 (i32_as_u32 d.1) ++
      encode_varint64 d.2)).join ++
  (e.new_files_.map (fun nf =>
    encode_varint32 7 ++ encode_varint32 (i32_as_u32 nf.1) ++
      encode_varint64 nf.2.number ++ encode_varint64 nf.2.file_size ++
      put_length_prefixed_slice nf.2.smallest ++
      put_length_prefixed_slice nf.2.largest)).join

/-- `get_level` from `src/db/version_edit.rs`: a varint32 reinterpreted as
`i32`, accepted when below `NUM_LEVELS`. -/
def get_level (input : List Nat) : Option (Int × List Nat) :=
  match get_varint32 input with
  | some (v, rest) =>
    if u32_as_i32 v < NUM_LEVELS then some (u32_as_i32 v, rest) else none
  | none => none

/-- `get_internal_key` from `src/db/version_edit.rs`:
`InternalKey::decode_from` keeps the raw bytes. -/
def get_internal_key (input : List Nat) : Option (List Nat × List Nat) :=
  get_length_prefixed_slice input

/-- The tag-dispatch loop of `VersionEdit::decode_from`
(`src/db/version_edit.rs` lines 100-207), with the tag matched as
`tag as u8` (`tag % 256`).  Failed field parses yield
`Corruption("VersionEdit", <field>)`; an unparsable tag over a non-empty
remainder yields "invalid tag".  In the source, a failed `get_level`
still lets the sibling parser advance the slice, but the record is then
discarded with an error, so sequential matching returns the same value.
The loop carries fuel; each iteration consumes at least one byte, so
`input.length + 1` is always enough (`decode_loop_fuel` below), and the
fuel-exhaustion branch is unreachable from `decode_from`. -/
def decode_loop : Nat → List Nat → VersionEdit →
    Except (String × String) VersionEdit
  | 0, _, _ => .error ("VersionEdit", "invalid tag")
  | fuel + 1, input, acc =>
    match get_varint32 input with
    | none =>
      if input.isEmpty then .ok acc else .error ("VersionEdit", "invalid tag")
    | some (tag, rest) =>
      if tag % 256 = 1 then
        match get_length_prefixed_slice rest with
        | some (s, rest2) =>
          if isValidUtf8 s then
            decode_loop fuel rest2
              { acc with comparator_ := s, has_comparator_ := true }
          else .error ("VersionEdit", "comparator name")
        | none => .error ("VersionEdit", "comparator name")
      else if tag % 256 = 2 then
        match get_varint64 rest with
        | some (n, rest2) =>
          decode_loop fuel rest2
            { acc with log_number_ := n, has_log_number_ := true }
        | none => .error ("VersionEdit", "log number")
      else if tag % 256 = 9 then
        match get_varint64 rest with
        | some (n, rest2) =>
          decode_loop fuel rest2
            { acc with prev_log_number_ := n, has_prev_log_number_ := true }
        | none => .error ("VersionEdit", "previous log number")
      else if tag % 256 = 3 then
        match get_varint64 rest with
        | some (n, rest2) =>
          decode_loop fuel rest2
            { acc with next_file_number_ := n, has_next_file_number_ := true }
        | none => .error ("VersionEdit", "next file number")
      else if tag % 256 = 4 then
        match get_varint64 rest with
        | some (n, rest2) =>
          decode_loop fuel rest2
            { acc with last_sequence_ := n, has_last_sequence_ := true }
        | none => .error ("VersionEdit", "last sequence number")
      else if tag % 256 = 5 then
        match get_level rest with
        | some (l, rest2) =>
          match get_internal_key rest2 with
          | some (k, rest3) =>
            decode_loop fuel rest3
              { acc with compact_pointers_ := acc.compact_pointers_ ++ [(l, k)] }
          | none => .error ("VersionEdit", "compaction pointer")
        | none => .error ("VersionEdit", "compaction pointer")
      else if tag % 256 = 6 then
        match get_level rest with
        | some (l, rest2) =>
          match get_varint64 rest2 with
          | some (n, rest3) =>
            decode_loop fuel rest3
              { acc with deleted_files_ := deletedInsert (l, n) acc.deleted_files_ }
          | none => .error ("VersionEdit", "deleted file")
        | none => .error ("VersionEdit", "deleted file")
      else if tag % 256 = 7 then
        match get_level rest with
        | some (l, rest2) =>
          match get_varint64 rest2 with
          | some (number, rest3) =>
            match get_varint64 rest3 with
            | some (file_size, rest4) =>
              match get_internal_key rest4 with
              | some (smallest, rest5) =>
                match get_internal_key rest5 with
                | some (largest, rest6) =>
                  let meta : FileMetaData :=
                    { FileMetaData.new with
                      number := number, file_size := file_size,
                      smallest := smallest, largest := largest }
                  decode_loop fuel rest6
                    { acc with new_files_ := acc.new_files_ ++ [(l, meta)] }
                | none => .error ("VersionEdit", "new-file entry")
              | none => .error ("VersionEdit", "new-file entry")
            | none => .error ("VersionEdit", "new-file entry")
          | none => .error ("VersionEdit", "new-file entry")
        | none => .error ("VersionEdit", "new-file entry")
      else .error ("VersionEdit", "unknown tag")

/-- `VersionEdit::decode_from` from `src/db/version_edit.rs`. -/
def VersionEdit.decode_from (src : List Nat) :
    Except (String × String) VersionEdit :=
  decode_loop (src.length + 1) src VersionEdit.new

/-- Stated from the claim (C3): scan the tagged fields; `true` iff no
field payload is malformed, every stored level satisfies `levelOk`, and no
bytes remain after the recognized tags.  `tagView` is how a decoded tag
number is matched against the tag set ( the identity for the claim as
written, reduction mod 256 for the amended claim).  Fuel as in
`decode_loop`. -/
def specScan (tagView : Nat → Nat) (levelOk : Nat → Bool) :
    Nat → List Nat → Bool
  | 0, _ => false
  | fuel + 1, input =>
    match get_varint32 input with
    | none => input.isEmpty
    | some (tag, rest) =>
      if tagView tag = 1 then
        match get_length_prefixed_slice rest with
        | some (s, rest2) => isValidUtf8 s && specScan tagView levelOk fuel rest2
        | none => false
      else if tagView tag = 2 ∨ tagView tag = 9 ∨ tagView tag = 3 ∨
          tagView tag = 4 then
        match get_varint64 rest with
        | some (_, rest2) => specScan tagView levelOk fuel rest2
        | none => false
      else if tagView tag = 5 then
        match get_varint32 rest with
        | some (v, rest2) =>
          match get_length_prefixed_slice rest2 with
          | some (_, rest3) => levelOk v && specScan tagView levelOk fuel rest3
          | none => false
        | none => false
      else if tagView tag = 6 then
        match get_varint32 rest with
        | some (v, rest2) =>
          match get_varint64 rest2 with
          | some (_, rest3) => levelOk v && specScan tagView levelOk fuel rest3
          | none => false
        | none => false
      else if tagView tag = 7 then
        match get_varint32 rest with
        | some (v, rest2) =>
          match get_varint64 rest2 with
          | some (_, rest3) =>
            match get_varint64 rest3 with
            | some (_, rest4) =>
              match get_length_prefixed_slice rest4 with
              | some (_, rest5) =>
                match get_length_prefixed_slice rest5 with
                | some (_, rest6) => levelOk v && specScan tagView levelOk fuel rest6
                | none => false
              | none => false
            | none => false
          | none => false
        | none => false
      else false

/-- The lexicographic order on `(i32, u64)` pairs (Rust's derived `Ord`,
the order of `BTreeSet<(i32, u64)>`). -/
def pairLex (a b : Int × Nat) : Prop :=
  a.1 < b.1 ∨ (a.1 = b.1 ∧ a.2 < b.2)

/-- Validity of a `VersionEdit` value for the round-trip claim: all levels
in range `0..NUM_LEVELS`, all `u64` fields within range, the comparator
name the bytes of a Rust `String` (valid UTF-8), the deleted-file set in
its sorted-set representation, and new-file metadata built by `add_file`
(fresh `refs`/`allowed_seeks`). -/
def VersionEdit.Valid (e : VersionEdit) : Prop :=
  isValidUtf8 e.comparator_ = true ∧
  e.comparator_.length < 2 ^ 64 ∧
  e.log_number_ < 2 ^ 64 ∧ e.prev_log_number_ < 2 ^ 64 ∧
  e.next_file_number_ < 2 ^ 64 ∧ e.last_sequence_ < 2 ^ 64 ∧
  (∀ p ∈ e.compact_pointers_, 0 ≤ p.1 ∧ p.1 < 7 ∧ p.2.length < 2 ^ 64) ∧
  (∀ d ∈ e.deleted_files_, 0 ≤ d.1 ∧ d.1 < 7 ∧ d.2 < 2 ^ 64) ∧
  (∀ f ∈ e.new_files_, 0 ≤ f.1 ∧ f.1 < 7 ∧ f.2.number < 2 ^ 64 ∧
    f.2.file_size < 2 ^ 64 ∧ f.2.smallest.length < 2 ^ 64 ∧
    f.2.largest.length < 2 ^ 64 ∧ f.2.refs = 0 ∧
    f.2.allowed_seeks = 1073741824) ∧
  e.deleted_files_.Pairwise pairLex

/-- The comparator-name optional field as an option. -/
def VersionEdit.comparatorOpt (e : VersionEdit) : Option (List Nat) :=
  if e.has_comparator_ then some e.comparator_ else none

/-- The log-number optional field as an option. -/
def VersionEdit.logNumberOpt (e : VersionEdit) : Option Nat :=
  if e.has_log_number_ then some e.log_number_ else none

/-- The previous-log-number optional field as an option. -/
def VersionEdit.prevLogNumberOpt (e : VersionEdit) : Option Nat :=
  if e.has_prev_log_number_ then some e.prev_log_number_ else none

/-- The next-file-number optional field as an option. -/
def VersionEdit.nextFileNumberOpt (e : VersionEdit) : Option Nat :=
  if e.has_next_file_number_ then some e.next_file_number_ else none

/-- The last-sequence optional field as an option. -/
def VersionEdit.lastSequenceOpt (e : VersionEdit) : Option Nat :=
  if e.has_last_sequence_ then some e.last_sequence_ else none

/-- Number of decode-loop iterations the encoding of `e` takes: one per
present optional field plus one per list entry. -/
def VersionEdit.iterCount (e : VersionEdit) : Nat :=
  (cond e.has_comparator_ 1 0) + (cond e.has_log_number_ 1 0) +
  (cond e.has_prev_log_number_ 1 0) + (cond e.has_next_file_number_ 1 0) +
  (cond e.has_last_sequence_ 1 0) + e.compact_pointers_.length +
  e.deleted_files_.length + e.new_files_.length

/-- The claim C3's failure condition, as written: fields parse with tags
matched as numbers, and a level is in range iff it does not exceed
`NUM_LEVELS` (7). -/
def specWellFormedOrig (bytes : List Nat) : Bool :=
  specScan id (fun v => decide (v ≤ 7)) (bytes.length + 1) bytes

/-- The amended well-formedness: tags matched modulo 256 (`tag as u8`),
and a stored level is in range iff its `i32` reinterpretation is below
`NUM_LEVELS` (7). -/
def specWellFormedAmended (bytes : List Nat) : Bool :=
  specScan (fun t => t % 256) (fun v => decide (u32_as_i32 v < 7))
    (bytes.length + 1) bytes

instance pairLexDecidable : DecidableRel pairLex :=
  fun a b => inferInstanceAs (Decidable (a.1 < b.1 ∨ (a.1 = b.1 ∧ a.2 < b.2)))

/-- The edit produced by decoding `encode_to e`: present optional fields
keep their values, absent ones revert to the `VersionEdit::new` defaults,
and the three lists are reproduced. -/
def VersionEdit.canon (e : VersionEdit) : VersionEdit :=
  { comparator_ := cond e.has_comparator_ e.comparator_ [],
    log_number_ := cond e.has_log_number_ e.log_number_ 0,
    prev_log_number_ := cond e.has_prev_log_number_ e.prev_log_number_ 0,
    next_file_number_ := cond e.has_next_file_number_ e.next_file_number_ 0,
    last_sequence_ := cond e.has_last_sequence_ e.last_sequence_ 0,
    has_comparator_ := e.has_comparator_,
    has_log_number_ := e.has_log_number_,
    has_prev_log_number_ := e.has_prev_log_number_,
    has_next_file_number_ := e.has_next_file_number_,
    has_last_sequence_ := e.has_last_sequence_,
    compact_pointers_ := e.compact_pointers_,
    deleted_files_ := e.deleted_files_,
    new_files_ := e.new_files_ }

/-- Whether an `Except` value is `Ok` (Rust `Result::is_ok`). -/
def exceptOk : Except (String × String) VersionEdit → Bool
  | .ok _ => true
  | .error _ => false

/-- File metadata for the sample edit below. -/
def sampleMeta : FileMetaData :=
  { FileMetaData.new with
    number := 8, file_size := 123,
    smallest := [97], largest := [98] }

/-- A sample `VersionEdit` exercising every field kind. -/
def sampleEdit : VersionEdit :=
  { comparator_ := [108, 101, 118, 101, 108, 100, 98],
    log_number_ := 17, prev_log_number_ := 3,
    next_file_number_ := 25, last_sequence_ := 99,
    has_comparator_ := true, has_log_number_ := true,
    has_prev_log_number_ := false, has_next_file_number_ := true,
    has_last_sequence_ := true,
    compact_pointers_ := [(1, [100, 0, 200])],
    deleted_files_ := [(0, 4), (2, 9)],
    new_files_ := [(3, sampleMeta)] }

/-! ## Log writer (`src/db/log_writer.rs`, `src/db/log_format.rs`) -/

/-- `BLOCK_SIZE` from `src/db/log_format.rs`. -/
def BLOCK_SIZE : Nat := 32768

/-- `HEADER_SIZE` from `src/db/log_format.rs`: checksum (4), length (2),
type (1). -/
def HEADER_SIZE : Nat := 4 + 2 + 1

/-- Modelled from the spec: one step of the reflected CRC-32C shift
(polynomial `0x82F63B78`); the `crc32c` crate is external to the
repository. -/
def crc32c_bit (c : Nat) : Nat :=
  if c % 2 = 1 then (c >>> 1) ^^^ 0x82F63B78 else c >>> 1

/-- Modelled from the spec: absorb one byte into the CRC-32C state
(LSB-first, eight shift steps). -/
def crc32c_byte (crc byte : Nat) : Nat :=
  crc32c_bit (crc32c_bit (crc32c_bit (crc32c_bit (crc32c_bit (crc32c_bit
    (crc32c_bit (crc32c_bit (crc ^^^ byte % 256))))))))

/-- Modelled from the spec: run the CRC-32C state over a byte list. -/
def crc32c_run (state : Nat) (data : List Nat) : Nat :=
  data.foldl crc32c_byte state

/-- Modelled from the spec: `value(data)` of `src/util/crc32c.rs` (the
`crc32c` crate), initial and final xor `0xffffffff`. -/
def crc32c_value (data : List Nat) : Nat :=
  crc32c_run 0xffffffff data ^^^ 0xffffffff

/-- Modelled from the spec: `extend(init_crc, data)` of
`src/util/crc32c.rs` (`crc32c_append`): the crc of `concat(A, data)`
when `init_crc` is the crc of `A`. -/
def crc_extend (init_crc : Nat) (data : List Nat) : Nat :=
  crc32c_run (init_crc ^^^ 0xffffffff) data ^^^ 0xffffffff

/-- `mask` from `src/util/crc32c.rs`: rotate right by 15 bits and add
`MASK_DELTA`, on `u32`. -/
def mask (crc : Nat) : Nat :=
  (((crc >>> 15) ||| ((crc <<< 17) % 2 ^ 32)) + 0xa282ead8) % 2 ^ 32

/-- `Writer::init_type_crc` from `src/db/log_writer.rs`: the crc of the
one-byte record type. -/
def type_crc (t : Nat) : Nat := crc32c_value [t]

/-- One append made by the log writer: either a zero trailer closing a
block or a physical record. -/
inductive LogEmit where
  | pad (n : Nat)
  | emitted (t : Nat) (payload : List Nat)
deriving DecidableEq

/-- The bytes of a physical record as laid out by
`Writer::emit_physical_record`: little-endian masked crc of
`extend(type_crc[t], payload)`, two length bytes, the type byte, then the
payload. -/
def recordBytes (t : Nat) (payload : List Nat) : List Nat :=
  encode_fixed32 (mask (crc_extend (type_crc t) payload)) ++
    [payload.length % 256, (payload.length >>> 8) % 256, t] ++ payload

/-- The bytes appended to the destination file for one emission. -/
def emitBytes : LogEmit → List Nat
  | .pad n => List.replicate n 0
  | .emitted t p => recordBytes t p

/-- The payload carried by an emission (padding carries none). -/
def emitPayload : LogEmit → List Nat
  | .pad _ => []
  | .emitted _ p => p

/-- Whether an emission is a physical record. -/
def emitIsRec : LogEmit → Bool
  | .pad _ => false
  | .emitted _ _ => true

/-- The record type of an emission. -/
def emitType : LogEmit → Nat
  | .pad _ => 0
  | .emitted t _ => t

/-- The record types of the physical records among the emissions. -/
def emitTypes (ems : List LogEmit) : List Nat :=
  (ems.filter emitIsRec).map emitType

/-- The fragment length chosen by `Writer::add_record`:
`min(left, avail)` with `avail = BLOCK_SIZE - block_offset_ - HEADER_SIZE`. -/
def fragLen (offset : Nat) (data : List Nat) : Nat :=
  if data.length < BLOCK_SIZE - offset - HEADER_SIZE then data.length
  else BLOCK_SIZE - offset - HEADER_SIZE

/-- The record type chosen by `Writer::add_record` (`full = 1`,
`first = 2`, `middle = 3`, `last = 4`). -/
def recType (b isEnd : Bool) : Nat :=
  if b && isEnd then 1 else if b then 2 else if isEnd then 4 else 3

/-- The loop of `Writer::add_record` from `src/db/log_writer.rs`: when
fewer than `HEADER_SIZE` bytes remain in the block, zero-pad the tail and
restart the block; otherwise emit one fragment of length
`min(left, avail)` and continue with the rest until none is left.  The
result is the emission list and the final block offset; appends to the
destination always succeed (the `WritableFile` is external). -/
def add_record_loop (offset : Nat) (data : List Nat) (b : Bool) :
    List LogEmit × Nat :=
  if hres : BLOCK_SIZE - offset < HEADER_SIZE then
    ((if 0 < BLOCK_SIZE - offset then [LogEmit.pad (BLOCK_SIZE - offset)]
        else []) ++ (add_record_loop 0 data b).1,
      (add_record_loop 0 data b).2)
  else
    if hrest : (data.drop (fragLen offset data)).isEmpty then
      ([LogEmit.emitted (recType b (data.length = fragLen offset data))
          (data.take (fragLen offset data))],
        offset + HEADER_SIZE + fragLen offset data)
    else
      (LogEmit.emitted (recType b (data.length = fragLen offset data))
          (data.take (fragLen offset data)) ::
        (add_record_loop (offset + HEADER_SIZE + fragLen offset data)
          (data.drop (fragLen offset data)) false).1,
       (add_record_loop (offset + HEADER_SIZE + fragLen offset data)
          (data.drop (fragLen offset data)) false).2)
termination_by 2 * data.length +
  (if offset = BLOCK_SIZE - HEADER_SIZE then 2
   else if BLOCK_SIZE - offset < HEADER_SIZE then 1 else 0)
decreasing_by
  all_goals
    simp only [BLOCK_SIZE, HEADER_SIZE, fragLen, List.length_drop] at *
  all_goals
    first
    | (split_ifs at * <;> omega)
    | (simp only [List.isEmpty_iff, List.drop_eq_nil_iff] at hrest;
       split_ifs at * <;> omega)

/-- `Writer::add_record` (the writer starts each logical record with
`begin = true`). -/
def Writer.add_record (offset : Nat) (data : List Nat) :
    List LogEmit × Nat :=
  add_record_loop offset data true

/-- The room left for a payload in the block the record's first fragment
lands in: the current block's remainder after the header, or a fresh
block's if the remainder cannot hold a header. -/
def availAfter (offset : Nat) : Nat :=
  BLOCK_SIZE - (if BLOCK_SIZE - offset < HEADER_SIZE then 0 else offset) -
    HEADER_SIZE

/-! ## MemTable (`src/db/memtable.rs`) -/

/-- The entry written by `MemTable::add`: varint32 of the internal-key
size, the user key, the fixed64 tag `(seq << 8) | type`, then the
length-prefixed (varint32) value. -/
def memEntry (seq t : Nat) (key value : List Nat) : List Nat :=
  encode_varint32 (key.length + 8) ++ key ++
    encode_fixed64 (pack_sequence_and_type seq t) ++
    encode_varint32 value.length ++ value

/-- The internal key of a memtable entry, as read by the memtable's
`KeyComparator` (`get_length_prefixed_slice` on a varint32 length). -/
def entryInternalKey (e : List Nat) : List Nat :=
  match get_varint32 e with
  | some (n, rest) => rest.take n
  | none => []

/-- The memtable entry order: `KeyComparator::compare` applies the
internal-key comparator to the length-prefixed internal keys. -/
def entryLt (a b : List Nat) : Prop :=
  icmpBytes (entryInternalKey a) (entryInternalKey b) = .lt

instance entryLtDecidable : DecidableRel entryLt :=
  fun a b => inferInstanceAs
    (Decidable (icmpBytes (entryInternalKey a) (entryInternalKey b) = .lt))

/-- Modelled from the spec: the comparator-parameterized skip list backing
the memtable (`SkipList<Vec<u8, Arena>, KeyComparator>`) is absent from
`src/db/skiplist.rs`, which only ships the `PartialOrd` variant; per §5
the table is an ordered set of entries under `KeyComparator`, modelled as
a strictly sorted list with ordered insertion. -/
def tableInsert (e : List Nat) : List (List Nat) → List (List Nat)
  | [] => [e]
  | x :: rest =>
    if icmpBytes (entryInternalKey e) (entryInternalKey x) = .lt then
      e :: x :: rest
    else x :: tableInsert e rest

/-- `MemTable::add` on the table model. -/
def MemTable.add (table : List (List Nat)) (seq t : Nat)
    (key value : List Nat) : List (List Nat) :=
  tableInsert (memEntry seq t key value) table

/-- `Iter::seek` on the table model: the earliest entry at or after the
target in the entry order. -/
def tableSeek (table : List (List Nat)) (target : List Nat) :
    Option (List Nat) :=
  table.find? (fun e =>
    decide (¬(icmpBytes (entryInternalKey e) (entryInternalKey target) = .lt)))

/-- `LookupKey::new(user_key, seq).memtable_key()` from
`src/db/dbformat.rs`: varint32 of `len + 8`, the user key, then the tag
packed with `VALUE_TYPE_FOR_SEEK`. -/
def LookupKey.memtable_key (user_key : List Nat) (seq : Nat) : List Nat :=
  encode_varint32 (user_key.length + 8) ++ user_key ++
    encode_fixed64 (pack_sequence_and_type seq VALUE_TYPE_FOR_SEEK)

/-- The three outcomes of `MemTable::get`:
`(Some(v), None, true)`, `(None, Some(NotFound), true)`,
`(None, None, false)`. -/
inductive MemGet where
  | found (value : List Nat)
  | deleted
  | missing
deriving DecidableEq

/-- `MemTable::get` from `src/db/memtable.rs`: seek to the memtable key;
if the hit's user key equals the lookup's under the user comparator,
dispatch on the tag's value-type byte (`Value` returns the
length-prefixed value, `Deletion` reports the deletion, anything else
falls through); the unreachable parse-failure defaults are benign. -/
def MemTable.get (table : List (List Nat)) (user_key : List Nat)
    (seq : Nat) : MemGet :=
  match tableSeek table (LookupKey.memtable_key user_key seq) with
  | some entry =>
    match get_varint32 entry with
    | some (n, rest) =>
      if compareBytes (rest.take (n - 8)) user_key = .eq then
        if decode_fixed64_bytes (rest.drop (n - 8)) % 256 = type_value then
          match get_varint32 (rest.drop n) with
          | some (vlen, vrest) => .found (vrest.take vlen)
          | none => .found []
        else if decode_fixed64_bytes (rest.drop (n - 8)) % 256 =
            type_deletion then .deleted
        else .missing
      else .missing
    | none => .missing
  | none => .missing

/-- One `MemTable::add` call. -/
structure MemOp where
  seq : Nat
  vtype : Nat
  ukey : List Nat
  val : List Nat
deriving DecidableEq

/-- Distinct `(user key, sequence)` pairs. -/
def opDistinct (a b : MemOp) : Prop :=
  ¬(a.ukey = b.ukey ∧ a.seq = b.seq)

instance opDistinctDecidable : DecidableRel opDistinct :=
  fun a b => inferInstanceAs (Decidable ¬(a.ukey = b.ukey ∧ a.seq = b.seq))

/-- Well-formed add: a real value type, an in-range sequence, and sizes
within the varint32 encodings used by the entry format. -/
def MemOp.WF (op : MemOp) : Prop :=
  (op.vtype = type_deletion ∨ op.vtype = type_value) ∧
  op.seq ≤ MAX_SEQUENCE_NUMBER ∧ op.ukey.length + 8 < 2 ^ 32 ∧
  op.val.length < 2 ^ 32

instance memOpWFDecidable (op : MemOp) : Decidable op.WF :=
  inferInstanceAs (Decidable (_ ∧ _ ∧ _ ∧ _))

/-- The memtable built by a sequence of adds. -/
def buildTable (ops : List MemOp) : List (List Nat) :=
  ops.foldl (fun t op => MemTable.add t op.seq op.vtype op.ukey op.val) []

/-! ## SkipList (`src/db/skiplist.rs`) -/

/-- `MAX_HEIGHT` from `src/db/skiplist.rs`. -/
def MAX_HEIGHT : Nat := 12

/-- A skip-list node: its key and its forward pointers (one per level of
its height); `none` is the null pointer. -/
structure SLNode (K : Type) where
  key : K
  next_ : List (Option Nat)

/-- A pointer to a linked node: the list head or the arena index of a
node. -/
inductive NodePtr where
  | head
  | node (i : Nat)
deriving DecidableEq

/-- The skip-list state: the arena of allocated nodes (never freed, so
indices are stable), the head node's forward pointers (its key is never
compared), the current `max_height_` and the random generator. -/
structure SkipListState (K : Type) where
  nodes : List (SLNode K)
  headNext : List (Option Nat)
  max_height_ : Nat
  rnd_ : Random

/-- `SkipList::new_in`: an empty list of height 1 with the generator
seeded `0xdeadbeef`; the head key passed by the caller is irrelevant
because `find_greater_or_equal` never compares it. -/
def SkipList.new (K : Type) : SkipListState K :=
  { nodes := [], headNext := List.replicate MAX_HEIGHT none,
    max_height_ := 1, rnd_ := Random.new 0xdeadbeef }

/-- `Node::next(level)` through a pointer: the head's array or the
node's. -/
def ptrNext {K : Type} (s : SkipListState K) (x : NodePtr) (level : Nat) :
    Option Nat :=
  match x with
  | .head => s.headNext.getD level none
  | .node i =>
    match s.nodes.get? i with
    | some nd => nd.next_.getD level none
    | none => none

/-- `SkipList::key_is_after_node`: null sorts after every key. -/
def key_is_after_node {K : Type} [LinearOrder K] (s : SkipListState K)
    (key : K) (n : Option Nat) : Bool :=
  match n with
  | some i =>
    match s.nodes.get? i with
    | some nd => decide (nd.key < key)
    | none => false
  | none => false

/-- The loop of `SkipList::find_greater_or_equal`: advance along the
current level while the key is after the next node, otherwise record the
previous node for the level and descend; at level 0 return the next
node.  The fuel only bounds the iteration count; `nodes.length + 13` is
always enough because every advance strictly increases the current key
and at most `MAX_HEIGHT` descents occur. -/
def find_greater_or_equal_loop {K : Type} [LinearOrder K]
    (s : SkipListState K) (key : K) :
    Nat → NodePtr → Nat → List NodePtr →
      Option (Option Nat × List NodePtr)
  | 0, _, _, _ => none
  | fuel + 1, x, level, prev =>
    if key_is_after_node s key (ptrNext s x level) then
      match ptrNext s x level with
      | some i => find_greater_or_equal_loop s key fuel (.node i) level prev
      | none => none
    else
      if level = 0 then some (ptrNext s x level, prev.set 0 x)
      else find_greater_or_equal_loop s key fuel x (level - 1)
        (prev.set level x)

/-- `SkipList::find_greater_or_equal` (also filling `prev`). -/
def find_greater_or_equal {K : Type} [LinearOrder K] (s : SkipListState K)
    (key : K) : Option (Option Nat × List NodePtr) :=
  find_greater_or_equal_loop s key (s.nodes.length + 13) .head
    (s.max_height_ - 1) (List.replicate MAX_HEIGHT .head)

/-- `SkipList::contains`: the found node compares equal to the key. -/
def SkipList.contains {K : Type} [LinearOrder K] (s : SkipListState K)
    (key : K) : Bool :=
  match find_greater_or_equal s key with
  | some (some i, _) =>
    match s.nodes.get? i with
    | some nd => decide (nd.key = key)
    | _ => false
  | _ => false

/-- The loop of `SkipList::random_height`: increase the height with
probability 1 in `BRANCHING = 4` while below `MAX_HEIGHT` (`one_in(n)`
is `next() % n == 0`; `&&` short-circuits, so no draw happens at the
cap). -/
def random_height_loop (r : Random) (height : Nat) : Nat × Random :=
  if h : height < MAX_HEIGHT then
    let d := r.next
    if d.1 % 4 = 0 then random_height_loop d.2 (height + 1) else (height, d.2)
  else (height, r)
termination_by MAX_HEIGHT - height
decreasing_by
  simp only [MAX_HEIGHT] at *
  omega

/-- `SkipList::random_height`. -/
def random_height (r : Random) : Nat × Random := random_height_loop r 1

/-- Store a forward pointer through a node pointer (`set_next`). -/
def setPtr {K : Type} (s : SkipListState K) (x : NodePtr) (level : Nat)
    (tgt : Option Nat) : SkipListState K :=
  match x with
  | .head => { s with headNext := s.headNext.set level tgt }
  | .node i =>
    match s.nodes.get? i with
    | some nd =>
      { s with nodes := s.nodes.set i { nd with next_ := nd.next_.set level tgt } }
    | none => s

/-- `SkipList::insert` from `src/db/skiplist.rs`: find the splice point,
draw a height (extending `prev` with the head and raising `max_height_`
when it grows), allocate the node with the successors read from `prev`,
and link it at every level of its height.  The fuel-exhaustion arm of the
search is unreachable and leaves the list unchanged. -/
def SkipList.insert {K : Type} [LinearOrder K] (s : SkipListState K)
    (key : K) : SkipListState K :=
  match find_greater_or_equal s key with
  | none => s
  | some (_, prev) =>
    let hr := random_height s.rnd_
    let height := hr.1
    let prev2 := (List.range MAX_HEIGHT).foldl
      (fun p i => if s.max_height_ ≤ i ∧ i < height then p.set i .head else p)
      prev
    let maxh2 := if s.max_height_ < height then height else s.max_height_
    let newIdx := s.nodes.length
    let newNode : SLNode K :=
      { key := key,
        next_ := (List.range height).map
          (fun i => ptrNext s (prev2.getD i .head) i) }
    let s1 : SkipListState K :=
      { s with nodes := s.nodes ++ [newNode], max_height_ := maxh2,
               rnd_ := hr.2 }
    (List.range height).foldl
      (fun acc i => setPtr acc (prev2.getD i .head) i (some newIdx)) s1

/-- A sequence of inserts starting from the fresh list. -/
def insertAll {K : Type} [LinearOrder K] (ks : List K) : SkipListState K :=
  ks.foldl SkipList.insert (SkipList.new K)

/-- The height drawn by `insert` from the list's generator. -/
def insH {K : Type} (s : SkipListState K) : Nat := (random_height s.rnd_).1

/-- The `prev` array after extension with the head for the levels newly
covered by the drawn height (`prev[i] = head_` for `i` in
`[max_height_, height)`). -/
def insPrev2 {K : Type} (s : SkipListState K) (prevF : List NodePtr) :
    List NodePtr :=
  (List.range MAX_HEIGHT).foldl
    (fun p i => if s.max_height_ ≤ i ∧ i < insH s then p.set i .head else p)
    prevF

/-- The state after allocating the new node (appended to the arena) and
raising `max_height_`, before linking. -/
def insS1 {K : Type} (s : SkipListState K) (key : K)
    (prevF : List NodePtr) : SkipListState K :=
  { s with
    nodes := s.nodes ++
      [{ key := key,
         next_ := (List.range (insH s)).map
           (fun i => ptrNext s ((insPrev2 s prevF).getD i .head) i) }],
    max_height_ := if s.max_height_ < insH s then insH s else s.max_height_,
    rnd_ := (random_height s.rnd_).2 }

/-- The fully linked state of `SkipList.insert`, in terms of the
search's `prev` output. -/
def insResult {K : Type} (s : SkipListState K) (key : K)
    (prevF : List NodePtr) : SkipListState K :=
  (List.range (insH s)).foldl
    (fun acc i =>
      setPtr acc ((insPrev2 s prevF).getD i .head) i (some s.nodes.length))
    (insS1 s key prevF)

/-- A traversal position: the head, or a linked node whose key is below
the search key and whose height exceeds the current level. -/
def XOK {K : Type} [LinearOrder K] (s : SkipListState K) (key : K) :
    NodePtr → Nat → Prop
  | .head, _ => True
  | .node i, level => ∃ nd, s.nodes.get? i = some nd ∧ nd.key < key ∧
      level < nd.next_.length

/-- A filled `prev` entry for a level: a valid splice position whose
successor at that level is not below the search key. -/
def PrevOK {K : Type} [LinearOrder K] (s : SkipListState K) (key : K)
    (x : NodePtr) (l : Nat) : Prop :=
  XOK s key x l ∧ key_is_after_node s key (ptrNext s x l) = false

/-- The number of allocated nodes with keys above the pointed-to key
(all of them, for the head): the potential that bounds the remaining
advances of the search. -/
def gtCount {K : Type} [LinearOrder K] (s : SkipListState K)
    (x : NodePtr) : Nat :=
  match x with
  | .head => s.nodes.length
  | .node i =>
    match s.nodes.get? i with
    | some nd => s.nodes.countP (fun nd2 => decide (nd.key < nd2.key))
    | none => 0

/-- A pointer whose level-`l` slot physically exists, so a store to it
through `setPtr` lands. -/
def SlotOK {K : Type} (s : SkipListState K) : NodePtr → Nat → Prop
  | .head, l => l < s.headNext.length
  | .node i, l => ∃ nd, s.nodes.get? i = some nd ∧ l < nd.next_.length

/-- The skip-list structural invariant: head height `MAX_HEIGHT`,
`max_height_` in range with all higher head levels empty, node heights in
`[1, max_height_]`, pointers valid, key-increasing and landing on nodes
tall enough for their level, distinct keys, and level-0 pointers
realizing the successor function of the key set. -/
structure SLInv {K : Type} [LinearOrder K] (s : SkipListState K) : Prop where
  hlen : s.headNext.length = MAX_HEIGHT
  hmax1 : 1 ≤ s.max_height_
  hmax12 : s.max_height_ ≤ MAX_HEIGHT
  hhigh : ∀ j, s.max_height_ ≤ j → ptrNext s .head j = none
  hheight : ∀ i nd, s.nodes.get? i = some nd →
    1 ≤ nd.next_.length ∧ nd.next_.length ≤ s.max_height_
  hvalid : ∀ x j t, ptrNext s x j = some t → t < s.nodes.length
  hgrow : ∀ i nd j t ndt, s.nodes.get? i = some nd →
    ptrNext s (.node i) j = some t → s.nodes.get? t = some ndt →
    nd.key < ndt.key
  hlink : ∀ x j t ndt, ptrNext s x j = some t →
    s.nodes.get? t = some ndt → j < ndt.next_.length
  hnodup : (s.nodes.map SLNode.key).Nodup
  hsh0 : ptrNext s .head 0 = none → s.nodes = []
  hsh1 : ∀ t ndt, ptrNext s .head 0 = some t → s.nodes.get? t = some ndt →
    ∀ nd2 ∈ s.nodes, ¬(nd2.key < ndt.key)
  hsn0 : ∀ i nd, s.nodes.get? i = some nd → ptrNext s (.node i) 0 = none →
    ∀ nd2 ∈ s.nodes, ¬(nd.key < nd2.key)
  hsn1 : ∀ i nd t ndt, s.nodes.get? i = some nd →
    ptrNext s (.node i) 0 = some t → s.nodes.get? t = some ndt →
    ∀ nd2 ∈ s.nodes, nd.key < nd2.key → ¬(nd2.key < ndt.key)

end RucksDB

namespace RucksDB

/-! # Theorems -/

/-! ## Helper lemmas on fixed64 coding and tags -/

theorem decode_encode_fixed64 (v : Nat) (hv : v < 2 ^ 64) :
    decode_fixed64_bytes (encode_fixed64 v) = v := by
  simp [decode_fixed64_bytes, encode_fixed64]
  omega

theorem pack_sequence_and_type_eq (seq t : Nat) (hs : seq ≤ MAX_SEQUENCE_NUMBER)
    (ht : t < 256) : pack_sequence_and_type seq t = 256 * seq + t := by
  have hseq : seq <<< 8 = 2 ^ 8 * seq := by
    rw [Nat.shiftLeft_eq, Nat.mul_comm]
  have hlt : 2 ^ 8 * seq < 2 ^ 64 := by
    simp only [MAX_SEQUENCE_NUMBER] at hs; omega
  have hmod : (seq <<< 8) % 2 ^ 64 = 2 ^ 8 * seq := by
    rw [hseq, Nat.mod_eq_of_lt hlt]
  have hor : 2 ^ 8 * seq ||| t = 2 ^ 8 * seq + t :=
    (Nat.mul_add_lt_is_or ht seq).symm
  rw [pack_sequence_and_type, hmod, hor]
  norm_num

theorem pack_lt (seq t : Nat) (hs : seq ≤ MAX_SEQUENCE_NUMBER) (ht : t < 256) :
    256 * seq + t < 2 ^ 64 := by
  simp only [MAX_SEQUENCE_NUMBER] at hs; omega

theorem encode_fixed64_length (v : Nat) : (encode_fixed64 v).length = 8 := rfl

theorem mk_internal_key_user (u : List Nat) (seq t : Nat) :
    extract_user_key (mk_internal_key u seq t) = u := by
  simp only [extract_user_key, mk_internal_key, List.length_append,
    encode_fixed64_length, Nat.add_sub_cancel]
  exact List.take_left u _

theorem mk_internal_key_tag (u : List Nat) (seq t : Nat)
    (hs : seq ≤ MAX_SEQUENCE_NUMBER) (ht : t < 256) :
    tag_of (mk_internal_key u seq t) = 256 * seq + t := by
  simp only [tag_of, mk_internal_key, List.length_append, encode_fixed64_length,
    Nat.add_sub_cancel]
  rw [List.drop_left, pack_sequence_and_type_eq seq t hs ht,
    decode_encode_fixed64 _ (pack_lt seq t hs ht)]

/-! ## Claim C10: Random seed invariant -/

theorem Random_new_inv (s : Nat) : (Random.new s).inv := by
  have hand : s &&& 0x7fffffff < 2 ^ 31 := Nat.and_lt_two_pow s (by norm_num)
  simp only [Random.new, Random.inv]
  split
  · exact ⟨le_refl 1, by norm_num⟩
  · next h =>
    push_neg at h
    omega

theorem RandomM_not_dvd (s : Nat) (h1 : 1 ≤ s) (h2 : s ≤ 2 ^ 31 - 2) :
    ¬ (2 ^ 31 - 1 ∣ s * 16807) := by
  intro hdvd
  have h3 : (2 ^ 31 - 1 : Nat) ∣ s * 16807 * 1407677000 := hdvd.mul_right _
  have h5 : s * 16807 * 1407677000 = (2 ^ 31 - 1) * (11017 * s) + s := by
    norm_num; ring
  rw [h5] at h3
  have h6 : (2 ^ 31 - 1 : Nat) ∣ s :=
    (Nat.dvd_add_right (Dvd.intro _ rfl)).mp h3
  have h7 := Nat.le_of_dvd (by omega) h6
  omega

set_option maxHeartbeats 1000000 in
theorem Random_next_spec (r : Random) (h : r.inv) :
    (r.next).1 = r.seed_ * RandomA % RandomM ∧
    (r.next).2.seed_ = (r.next).1 ∧
    (r.next).1 ≠ 0 ∧ (r.next).1 ≠ 2 ^ 31 - 1 ∧ (r.next).2.inv := by
  obtain ⟨h1, h2⟩ := h
  have hprod_lt : r.seed_ * 16807 < 2 ^ 46 := by omega
  have hhi := Nat.shiftRight_eq_div_pow (r.seed_ * 16807) 31
  have hlo : r.seed_ * 16807 &&& 2 ^ 31 - 1 = r.seed_ * 16807 % 2 ^ 31 :=
    Nat.and_pow_two_sub_one_eq_mod _ 31
  have hdm := Nat.div_add_mod (r.seed_ * 16807) (2 ^ 31)
  have hhi_lt : r.seed_ * 16807 / 2 ^ 31 < 2 ^ 15 := by omega
  have hlo_lt : r.seed_ * 16807 % 2 ^ 31 < 2 ^ 31 := Nat.mod_lt _ (by norm_num)
  have hmodM : r.seed_ * 16807 % (2 ^ 31 - 1) =
      (r.seed_ * 16807 / 2 ^ 31 + r.seed_ * 16807 % 2 ^ 31) % (2 ^ 31 - 1) := by
    omega
  have hne : r.seed_ * 16807 % (2 ^ 31 - 1) ≠ 0 := by
    intro h0
    exact RandomM_not_dvd r.seed_ h1 h2 (Nat.dvd_of_mod_eq_zero h0)
  have hXlt : r.seed_ * 16807 % (2 ^ 31 - 1) < 2 ^ 31 - 1 :=
    Nat.mod_lt _ (by norm_num)
  have hnext : r.next = (r.seed_ * 16807 % (2 ^ 31 - 1),
      ⟨r.seed_ * 16807 % (2 ^ 31 - 1)⟩) := by
    simp only [Random.next, RandomA, RandomM, hhi, hlo]
    have hstep : (r.seed_ * 16807 / 2 ^ 31 + r.seed_ * 16807 % 2 ^ 31) % 2 ^ 32 =
        r.seed_ * 16807 / 2 ^ 31 + r.seed_ * 16807 % 2 ^ 31 := by omega
    rw [hstep]
    split_ifs with hgt
    · have : r.seed_ * 16807 / 2 ^ 31 + r.seed_ * 16807 % 2 ^ 31 - (2 ^ 31 - 1) =
          r.seed_ * 16807 % (2 ^ 31 - 1) := by omega
      rw [this]
    · have : r.seed_ * 16807 / 2 ^ 31 + r.seed_ * 16807 % 2 ^ 31 =
          r.seed_ * 16807 % (2 ^ 31 - 1) := by omega
      rw [this]
  rw [hnext]
  refine ⟨rfl, rfl, hne, ?_, ?_, ?_⟩
  · show r.seed_ * 16807 % (2 ^ 31 - 1) ≠ 2 ^ 31 - 1
    omega
  · show 1 ≤ r.seed_ * 16807 % (2 ^ 31 - 1)
    omega
  · show r.seed_ * 16807 % (2 ^ 31 - 1) ≤ 2 ^ 31 - 2
    omega

/-- Claim C10: for every initial seed value `s`, `Random::new(s)` establishes,
and every call to `Random::next` preserves, the invariant that the seed lies
in `[1, 2^31 - 2]`; `next` never returns `0` or `2^31 - 1`, and each call
returns exactly `(previous_seed * 16807) mod (2^31 - 1)`. -/
theorem C10_random_invariant :
    (∀ s : Nat, (Random.new s).inv) ∧
    (∀ r : Random, r.inv →
      (r.next).1 = r.seed_ * 16807 % (2 ^ 31 - 1) ∧
      (r.next).2.seed_ = (r.next).1 ∧
      (r.next).1 ≠ 0 ∧ (r.next).1 ≠ 2 ^ 31 - 1 ∧ (r.next).2.inv) :=
  ⟨Random_new_inv, fun r h => Random_next_spec r h⟩

/-- Witness for C10: concrete evaluation at seed 12345. -/
theorem C10_random_invariant_witness :
    (Random.new 12345).inv ∧
    (((⟨12345⟩ : Random).next).1 = 12345 * 16807 % (2 ^ 31 - 1) ∧
      ((⟨12345⟩ : Random).next).2.seed_ = ((⟨12345⟩ : Random).next).1 ∧
      ((⟨12345⟩ : Random).next).1 ≠ 0 ∧
      ((⟨12345⟩ : Random).next).1 ≠ 2 ^ 31 - 1 ∧
      ((⟨12345⟩ : Random).next).2.inv) :=
  ⟨C10_random_invariant.1 12345,
   C10_random_invariant.2 ⟨12345⟩ ⟨by norm_num, by norm_num⟩⟩

/-! ## Claim C5: internal key ordering -/

/-- Claim C5: `InternalKeyComparator::compare` orders well-formed internal
keys by user key ascending under the wrapped user comparator, and on equal
user keys by the trailing 8-byte little-endian tag descending; on packed
keys that means sequence descending, then value type descending. -/
theorem C5_internal_key_order (ucmp : List Nat → List Nat → Ordering) :
    (∀ a b : List Nat, 8 ≤ a.length → 8 ≤ b.length →
      icmp_compare ucmp a b =
        match ucmp (a.take (a.length - 8)) (b.take (b.length - 8)) with
        | .eq =>
          if decode_fixed64_bytes (b.drop (b.length - 8)) <
              decode_fixed64_bytes (a.drop (a.length - 8)) then .lt
          else if decode_fixed64_bytes (a.drop (a.length - 8)) <
              decode_fixed64_bytes (b.drop (b.length - 8)) then .gt
          else .eq
        | r => r) ∧
    (∀ u1 u2 : List Nat, ∀ s1 s2 t1 t2 : Nat,
      s1 ≤ MAX_SEQUENCE_NUMBER → s2 ≤ MAX_SEQUENCE_NUMBER →
      t1 < 256 → t2 < 256 →
      icmp_compare ucmp (mk_internal_key u1 s1 t1) (mk_internal_key u2 s2 t2) =
        match ucmp u1 u2 with
        | .eq =>
          if s2 < s1 ∨ (s1 = s2 ∧ t2 < t1) then .lt
          else if s1 < s2 ∨ (s1 = s2 ∧ t1 < t2) then .gt
          else .eq
        | r => r) := by
  constructor
  · intro a b _ _
    rfl
  · intro u1 u2 s1 s2 t1 t2 hs1 hs2 ht1 ht2
    simp only [icmp_compare, mk_internal_key_user,
      mk_internal_key_tag u1 s1 t1 hs1 ht1, mk_internal_key_tag u2 s2 t2 hs2 ht2]
    rcases hcmp : ucmp u1 u2 <;> simp only [hcmp] <;>
      first
      | rfl
      | (split_ifs <;> first | rfl | omega)

/-- Witness for C5: concrete keys `("a", 5, Value)` vs `("a", 7, Value)`. -/
theorem C5_internal_key_order_witness :
    icmp_compare compareBytes (mk_internal_key [97] 5 1) (mk_internal_key [97] 7 1) =
      match compareBytes [97] [97] with
      | .eq => if (7 : Nat) < 5 ∨ ((5 : Nat) = 7 ∧ (1 : Nat) < 1) then .lt
               else if (5 : Nat) < 7 ∨ ((5 : Nat) = 7 ∧ (1 : Nat) < 1) then .gt
               else .eq
      | r => r :=
  (C5_internal_key_order compareBytes).2 [97] [97] 5 7 1 1
    (by norm_num [MAX_SEQUENCE_NUMBER]) (by norm_num [MAX_SEQUENCE_NUMBER])
    (by norm_num) (by norm_num)

/-! ## Claim C1: open/recover CURRENT-file handling -/

/-! ## Varint lemmas -/

theorem small_and_B {v : Nat} (h : v < 128) : v &&& B = 0 := by
  have h7 : v.testBit 7 = false := Nat.testBit_eq_false_of_lt h
  show v &&& 128 = 0
  rw [show (128 : Nat) = 2 ^ 7 from rfl, Nat.and_two_pow, h7]
  rfl

theorem byte_or_B_and_B (v : Nat) : ((v ||| B) % 256) &&& B ≠ 0 := by
  show ((v ||| 128) % 256) &&& 128 ≠ 0
  have h1 : ((v ||| 128) % 256) &&& 128 =
      (((v ||| 128) % 256).testBit 7).toNat * 2 ^ 7 := by
    rw [show (128 : Nat) = 2 ^ 7 from rfl, Nat.and_two_pow]
  have h2 : ((v ||| 128) % 256).testBit 7 = true := by
    rw [show (256 : Nat) = 2 ^ 8 from rfl, Nat.testBit_mod_two_pow,
      Nat.testBit_lor]
    simp [show Nat.testBit 128 7 = true from rfl]
  rw [h1, h2]
  simp

theorem byte_or_B_and_low (v : Nat) : ((v ||| B) % 256) &&& (B - 1) = v % B := by
  show ((v ||| 128) % 256) &&& 127 = v % 128
  have h1 : (v ||| 128) % 256 = (v ||| 128) &&& (2 ^ 8 - 1) :=
    (Nat.and_pow_two_sub_one_eq_mod _ 8).symm
  rw [h1, Nat.and_assoc]
  have h2 : ((2 ^ 8 - 1 : Nat) &&& 127) = 127 := by decide
  rw [h2, Nat.and_distrib_right]
  have h3 : ((128 : Nat) &&& 127) = 0 := by decide
  rw [h3]
  have h4 : v &&& 127 = v % 128 := Nat.and_pow_two_sub_one_eq_mod v 7
  simp [h4]

theorem lor_shift_add (res x s : Nat) (hres : res < 2 ^ s) :
    res ||| x <<< s = res + x * 2 ^ s := by
  calc res ||| x <<< s = x * 2 ^ s ||| res := by rw [Nat.shiftLeft_eq, Nat.lor_comm]
  _ = 2 ^ s * x ||| res := by rw [Nat.mul_comm]
  _ = 2 ^ s * x + res := (Nat.mul_add_lt_is_or hres x).symm
  _ = res + x * 2 ^ s := by ring

theorem get_varint64_loop_encode :
    ∀ v shift res rest, v * 2 ^ shift < 2 ^ 64 → shift ≤ 63 → res < 2 ^ shift →
    get_varint64_loop (encode_varint64 v ++ rest) shift res =
      some (res + v * 2 ^ shift, rest) := by
  intro v
  induction v using Nat.strong_induction_on with
  | _ v ih =>
    intro shift res rest hv hs hres
    rw [encode_varint64]
    by_cases hB : v ≥ B
    · rw [dif_pos hB]
      have hB' : (128 : Nat) ≤ v := hB
      rw [List.cons_append, get_varint64_loop]
      rw [if_pos hs, if_pos (byte_or_B_and_B v)]
      have h128 : 2 ^ (shift + 7) ≤ v * 2 ^ shift := by
        rw [pow_add]
        calc 2 ^ shift * 2 ^ 7 = 128 * 2 ^ shift := by ring
        _ ≤ v * 2 ^ shift := Nat.mul_le_mul_right _ hB'
      have hs7 : shift + 7 ≤ 63 := by
        have : 2 ^ (shift + 7) < 2 ^ 64 := lt_of_le_of_lt h128 hv
        by_contra hcon
        push_neg at hcon
        have : (2 : Nat) ^ 64 ≤ 2 ^ (shift + 7) :=
          Nat.pow_le_pow_right (by norm_num) (by omega)
        omega
      have hlow := byte_or_B_and_low v
      rw [hlow]
      have hmodB : v % B < 128 := by
        simp only [B]
        exact Nat.mod_lt v (by norm_num)
      have hmod_lt : (v % B) * 2 ^ shift < 2 ^ (shift + 7) := by
        rw [pow_add]
        calc (v % B) * 2 ^ shift < 128 * 2 ^ shift :=
          (Nat.mul_lt_mul_right (Nat.two_pow_pos shift)).mpr hmodB
        _ = 2 ^ shift * 2 ^ 7 := by ring
      have hshift_lt : (v % B) <<< shift < 2 ^ 64 := by
        rw [Nat.shiftLeft_eq]
        exact lt_of_lt_of_le hmod_lt (le_of_lt (lt_of_le_of_lt h128 hv))
      rw [Nat.mod_eq_of_lt hshift_lt]
      rw [lor_shift_add res (v % B) shift hres]
      have hres' : res + (v % B) * 2 ^ shift < 2 ^ (shift + 7) := by
        have h2 : (v % B) * 2 ^ shift ≤ 127 * 2 ^ shift :=
          Nat.mul_le_mul_right _ (by omega)
        rw [pow_add]
        have h3 : (2 : Nat) ^ shift * 2 ^ 7 = 128 * 2 ^ shift := by ring
        omega
      have hdiv : v >>> 7 = v / 128 := Nat.shiftRight_eq_div_pow v 7
      have hdiv_lt : v / 128 * 2 ^ (shift + 7) ≤ v * 2 ^ shift := by
        rw [pow_add]
        calc v / 128 * (2 ^ shift * 2 ^ 7) = v / 128 * 128 * 2 ^ shift := by ring
        _ ≤ v * 2 ^ shift := Nat.mul_le_mul_right _ (Nat.div_mul_le_self v 128)
      have := ih (v >>> 7) (by
          rw [hdiv]
          exact Nat.div_lt_self (by omega) (by norm_num))
        (shift + 7) (res + (v % B) * 2 ^ shift) rest
        (by rw [hdiv]; exact lt_of_le_of_lt hdiv_lt hv) hs7 hres'
      rw [this, hdiv]
      congr 2
      have hv128 : v % 128 + 128 * (v / 128) = v := Nat.mod_add_div v 128
      calc res + (v % B) * 2 ^ shift + v / 128 * 2 ^ (shift + 7) =
          res + (v % 128 + 128 * (v / 128)) * 2 ^ shift := by
            simp only [B, pow_add]
            ring
      _ = res + v * 2 ^ shift := by rw [hv128]
    · rw [dif_neg hB]
      push_neg at hB
      have hB' : v < 128 := hB
      have hv256 : v % 256 = v := Nat.mod_eq_of_lt (by omega)
      rw [hv256, List.cons_append, get_varint64_loop]
      rw [if_pos hs, if_neg (by simp [small_and_B hB'])]
      have hshift_lt : v <<< shift < 2 ^ 64 := by
        rw [Nat.shiftLeft_eq]
        exact hv
      rw [Nat.mod_eq_of_lt hshift_lt, lor_shift_add res v shift hres]
      rfl

theorem get_varint32_loop_encode :
    ∀ v shift res rest, v * 2 ^ shift < 2 ^ 32 → shift ≤ 28 → shift % 7 = 0 →
    res < 2 ^ shift →
    get_varint32_loop (encode_varint64 v ++ rest) shift res =
      some (res + v * 2 ^ shift, rest) := by
  intro v
  induction v using Nat.strong_induction_on with
  | _ v ih =>
    intro shift res rest hv hs hs7mod hres
    rw [encode_varint64]
    by_cases hB : v ≥ B
    · rw [dif_pos hB]
      have hB' : (128 : Nat) ≤ v := hB
      rw [List.cons_append, get_varint32_loop]
      rw [if_pos hs, if_pos (byte_or_B_and_B v)]
      have h128 : 2 ^ (shift + 7) ≤ v * 2 ^ shift := by
        rw [pow_add]
        calc 2 ^ shift * 2 ^ 7 = 128 * 2 ^ shift := by ring
        _ ≤ v * 2 ^ shift := Nat.mul_le_mul_right _ hB'
      have hs7 : shift + 7 ≤ 28 := by
        have hlt : 2 ^ (shift + 7) < 2 ^ 32 := lt_of_le_of_lt h128 hv
        have : shift + 7 < 32 := by
          by_contra hcon
          push_neg at hcon
          have : (2 : Nat) ^ 32 ≤ 2 ^ (shift + 7) :=
            Nat.pow_le_pow_right (by norm_num) hcon
          omega
        omega
      have hlow := byte_or_B_and_low v
      rw [hlow]
      have hmodB : v % B < 128 := by
        simp only [B]
        exact Nat.mod_lt v (by norm_num)
      have hmod_lt : (v % B) * 2 ^ shift < 2 ^ (shift + 7) := by
        rw [pow_add]
        calc (v % B) * 2 ^ shift < 128 * 2 ^ shift :=
          (Nat.mul_lt_mul_right (Nat.two_pow_pos shift)).mpr hmodB
        _ = 2 ^ shift * 2 ^ 7 := by ring
      have hshift_lt : (v % B) <<< shift < 2 ^ 32 := by
        rw [Nat.shiftLeft_eq]
        exact lt_of_lt_of_le hmod_lt (le_of_lt (lt_of_le_of_lt h128 hv))
      rw [Nat.mod_eq_of_lt hshift_lt]
      rw [lor_shift_add res (v % B) shift hres]
      have hres' : res + (v % B) * 2 ^ shift < 2 ^ (shift + 7) := by
        have h2 : (v % B) * 2 ^ shift ≤ 127 * 2 ^ shift :=
          Nat.mul_le_mul_right _ (by omega)
        rw [pow_add]
        have h3 : (2 : Nat) ^ shift * 2 ^ 7 = 128 * 2 ^ shift := by ring
        omega
      have hdiv : v >>> 7 = v / 128 := Nat.shiftRight_eq_div_pow v 7
      have hdiv_lt : v / 128 * 2 ^ (shift + 7) ≤ v * 2 ^ shift := by
        rw [pow_add]
        calc v / 128 * (2 ^ shift * 2 ^ 7) = v / 128 * 128 * 2 ^ shift := by ring
        _ ≤ v * 2 ^ shift := Nat.mul_le_mul_right _ (Nat.div_mul_le_self v 128)
      have := ih (v >>> 7) (by
          rw [hdiv]
          exact Nat.div_lt_self (by omega) (by norm_num))
        (shift + 7) (res + (v % B) * 2 ^ shift) rest
        (by rw [hdiv]; exact lt_of_le_of_lt hdiv_lt hv) hs7 (by omega) hres'
      rw [this, hdiv]
      congr 2
      have hv128 : v % 128 + 128 * (v / 128) = v := Nat.mod_add_div v 128
      calc res + (v % B) * 2 ^ shift + v / 128 * 2 ^ (shift + 7) =
          res + (v % 128 + 128 * (v / 128)) * 2 ^ shift := by
            simp only [B, pow_add]
            ring
      _ = res + v * 2 ^ shift := by rw [hv128]
    · rw [dif_neg hB]
      push_neg at hB
      have hB' : v < 128 := hB
      have hv256 : v % 256 = v := Nat.mod_eq_of_lt (by omega)
      rw [hv256, List.cons_append, get_varint32_loop]
      rw [if_pos hs, if_neg (by simp [small_and_B hB'])]
      have hshift_lt : v <<< shift < 2 ^ 32 := by
        rw [Nat.shiftLeft_eq]
        exact hv
      rw [Nat.mod_eq_of_lt hshift_lt, lor_shift_add res v shift hres]
      rfl

theorem encode_varint32_eq (v : Nat) (hv : v < 2 ^ 32) :
    encode_varint32 v = encode_varint64 v := by
  have hsr : ∀ x k : Nat, x >>> k = x / 2 ^ k := fun x k =>
    Nat.shiftRight_eq_div_pow x k
  have hsr2 : ∀ x : Nat, (x >>> 7) >>> 7 = x >>> 14 := fun x => by
    rw [← Nat.shiftRight_add]
  have hsr3 : ∀ x : Nat, (x >>> 14) >>> 7 = x >>> 21 := fun x => by
    rw [← Nat.shiftRight_add]
  have hsr4 : ∀ x : Nat, (x >>> 21) >>> 7 = x >>> 28 := fun x => by
    rw [← Nat.shiftRight_add]
  rw [encode_varint32]
  by_cases h1 : v < 2 ^ 7
  · rw [if_pos h1, encode_varint64, dif_neg (by simp only [B]; omega)]
  rw [if_neg h1]
  push_neg at h1
  by_cases h2 : v < 2 ^ 14
  · rw [if_pos h2, encode_varint64, dif_pos (by simp only [B]; omega)]
    congr 1
    rw [encode_varint64, dif_neg (by simp only [B]; rw [hsr]; omega)]
  rw [if_neg h2]
  push_neg at h2
  by_cases h3 : v < 2 ^ 21
  · rw [if_pos h3, encode_varint64, dif_pos (by simp only [B]; omega)]
    congr 1
    rw [encode_varint64, dif_pos (by simp only [B]; rw [hsr]; omega)]
    congr 1
    rw [encode_varint64, dif_neg (by simp only [B]; rw [hsr2, hsr]; omega)]
    rw [hsr2]
  rw [if_neg h3]
  push_neg at h3
  by_cases h4 : v < 2 ^ 28
  · rw [if_pos h4, encode_varint64, dif_pos (by simp only [B]; omega)]
    congr 1
    rw [encode_varint64, dif_pos (by simp only [B]; rw [hsr]; omega)]
    congr 1
    rw [encode_varint64, dif_pos (by simp only [B]; rw [hsr2, hsr]; omega)]
    rw [hsr2]
    congr 1
    rw [encode_varint64, dif_neg (by simp only [B]; rw [hsr3, hsr]; omega)]
    rw [hsr3]
  rw [if_neg h4]
  push_neg at h4
  rw [encode_varint64, dif_pos (by simp only [B]; omega)]
  congr 1
  rw [encode_varint64, dif_pos (by simp only [B]; rw [hsr]; omega)]
  congr 1
  rw [encode_varint64, dif_pos (by simp only [B]; rw [hsr2, hsr]; omega)]
  rw [hsr2]
  congr 1
  rw [encode_varint64, dif_pos (by simp only [B]; rw [hsr3, hsr]; omega)]
  rw [hsr3]
  congr 1
  rw [encode_varint64, dif_neg (by simp only [B]; rw [hsr4, hsr]; omega)]
  rw [hsr4]

theorem get_varint32_encode (v : Nat) (hv : v < 2 ^ 32) (rest : List Nat) :
    get_varint32 (encode_varint32 v ++ rest) = some (v, rest) := by
  rw [encode_varint32_eq v hv]
  by_cases hB : v ≥ B
  · have hshape : encode_varint64 v ++ rest =
        (v ||| B) % 256 :: (encode_varint64 (v >>> 7) ++ rest) := by
      rw [encode_varint64, dif_pos hB, List.cons_append]
    rw [hshape]
    simp only [get_varint32]
    rw [if_neg (byte_or_B_and_B v)]
    rw [← hshape]
    have hloop := get_varint32_loop_encode v 0 0 rest (by simpa using hv)
      (by omega) (by omega) (by norm_num)
    rw [hloop]
    norm_num
  · push_neg at hB
    have hB' : v < 128 := by simpa [B] using hB
    have hshape : encode_varint64 v ++ rest = v :: rest := by
      rw [encode_varint64, dif_neg (by simp only [B]; omega)]
      rw [Nat.mod_eq_of_lt (show v < 256 by omega)]
      rfl
    rw [hshape]
    simp only [get_varint32]
    rw [if_pos (small_and_B hB')]

theorem get_varint64_encode (v : Nat) (hv : v < 2 ^ 64) (rest : List Nat) :
    get_varint64 (encode_varint64 v ++ rest) = some (v, rest) := by
  have := get_varint64_loop_encode v 0 0 rest (by simpa using hv)
    (by omega) (by norm_num)
  simpa [get_varint64] using this

theorem get_varint32_small (b : Nat) (hb : b < 128) (rest : List Nat) :
    get_varint32 (b :: rest) = some (b, rest) := by
  simp only [get_varint32]
  rw [if_pos (small_and_B hb)]

theorem get_length_prefixed_encode (s : List Nat) (hs : s.length < 2 ^ 64)
    (rest : List Nat) :
    get_length_prefixed_slice (put_length_prefixed_slice s ++ rest) =
      some (s, rest) := by
  rw [put_length_prefixed_slice, List.append_assoc]
  simp only [get_length_prefixed_slice, get_varint64_encode s.length hs (s ++ rest)]
  rw [if_pos (by simp)]
  rw [List.take_left, List.drop_left]

/-! ## Parser length bounds -/

theorem get_varint32_loop_length :
    ∀ (bytes : List Nat) (shift res v rest),
      get_varint32_loop bytes shift res = some (v, rest) →
      rest.length < bytes.length := by
  intro bytes
  induction bytes with
  | nil => intro shift res v rest h; simp [get_varint32_loop] at h
  | cons b t ih =>
    intro shift res v rest h
    simp only [get_varint32_loop] at h
    by_cases h1 : shift ≤ 28
    · rw [if_pos h1] at h
      by_cases h2 : b &&& B ≠ 0
      · rw [if_pos h2] at h
        have := ih _ _ _ _ h
        simp only [List.length_cons]
        omega
      · rw [if_neg h2] at h
        simp only [Option.some.injEq, Prod.mk.injEq] at h
        simp only [List.length_cons, ← h.2]
        omega
    · rw [if_neg h1] at h
      simp at h

theorem get_varint32_length {input : List Nat} {v : Nat} {rest : List Nat}
    (h : get_varint32 input = some (v, rest)) : rest.length < input.length := by
  cases input with
  | nil => simp [get_varint32] at h
  | cons b t =>
    simp only [get_varint32] at h
    split_ifs at h with h1
    · simp only [Option.some.injEq, Prod.mk.injEq] at h
      simp only [List.length_cons, ← h.2]
      omega
    · exact get_varint32_loop_length _ _ _ _ _ h

theorem get_varint64_loop_length :
    ∀ (bytes : List Nat) (shift res v rest),
      get_varint64_loop bytes shift res = some (v, rest) →
      rest.length < bytes.length := by
  intro bytes
  induction bytes with
  | nil => intro shift res v rest h; simp [get_varint64_loop] at h
  | cons b t ih =>
    intro shift res v rest h
    simp only [get_varint64_loop] at h
    by_cases h1 : shift ≤ 63
    · rw [if_pos h1] at h
      by_cases h2 : b &&& B ≠ 0
      · rw [if_pos h2] at h
        have := ih _ _ _ _ h
        simp only [List.length_cons]
        omega
      · rw [if_neg h2] at h
        simp only [Option.some.injEq, Prod.mk.injEq] at h
        simp only [List.length_cons, ← h.2]
        omega
    · rw [if_neg h1] at h
      simp at h

theorem get_varint64_length {input : List Nat} {v : Nat} {rest : List Nat}
    (h : get_varint64 input = some (v, rest)) : rest.length < input.length :=
  get_varint64_loop_length _ _ _ _ _ h

theorem get_length_prefixed_length {input s rest}
    (h : get_length_prefixed_slice input = some (s, rest)) :
    rest.length < input.length := by
  unfold get_length_prefixed_slice at h
  rcases hv : get_varint64 input with _ | ⟨len, r1⟩
  · rw [hv] at h; cases h
  · rw [hv] at h
    simp only [] at h
    split_ifs at h with hle
    · simp only [Option.some.injEq, Prod.mk.injEq] at h
      have h1 := get_varint64_length hv
      rw [← h.2]
      simp only [List.length_drop]
      omega

theorem get_level_length {input : List Nat} {l : Int} {rest : List Nat}
    (h : get_level input = some (l, rest)) : rest.length < input.length := by
  unfold get_level at h
  rcases hv : get_varint32 input with _ | ⟨v, r1⟩
  · rw [hv] at h; cases h
  · rw [hv] at h
    simp only [] at h
    split_ifs at h with hlt
    · simp only [Option.some.injEq, Prod.mk.injEq] at h
      rw [← h.2]
      exact get_varint32_length hv

/-! ## Level encoding round trip -/

theorem i32_as_u32_lt (l : Int) : i32_as_u32 l < 2 ^ 32 := by
  unfold i32_as_u32
  have h1 : l % 2 ^ 32 < 2 ^ 32 := Int.emod_lt_of_pos l (by norm_num)
  omega

theorem get_level_encode (l : Int) (h0 : 0 ≤ l) (h7 : l < 7) (rest : List Nat) :
    get_level (encode_varint32 (i32_as_u32 l) ++ rest) = some (l, rest) := by
  have hlt := i32_as_u32_lt l
  unfold get_level
  rw [get_varint32_encode _ hlt rest]
  simp only []
  have hval : i32_as_u32 l = l.toNat := by
    unfold i32_as_u32
    rw [Int.emod_eq_of_lt h0 (by omega)]
  have hback : u32_as_i32 (i32_as_u32 l) = l := by
    rw [hval]
    unfold u32_as_i32
    rw [if_pos (by omega)]
    omega
  rw [hback]
  rw [if_pos (by rw [show NUM_LEVELS = (7 : Int) from rfl]; omega)]

/-! ## decode_loop single-block steps -/

theorem decode_step_comparator (c tail : List Nat) (acc : VersionEdit) (fuel : Nat)
    (hval : isValidUtf8 c = true) (hlen : c.length < 2 ^ 64) :
    decode_loop (fuel + 1)
      ((encode_varint32 1 ++ put_length_prefixed_slice c) ++ tail) acc =
    decode_loop fuel tail
      { acc with comparator_ := c, has_comparator_ := true } := by
  have hshape : (encode_varint32 1 ++ put_length_prefixed_slice c) ++ tail =
      1 :: (put_length_prefixed_slice c ++ tail) := by
    rw [show encode_varint32 1 = [1] from rfl]
    simp
  rw [hshape]
  simp only [decode_loop]
  rw [get_varint32_small 1 (by norm_num)]
  simp only []
  rw [if_pos trivial]
  rw [get_length_prefixed_encode c hlen tail]
  simp only []
  rw [if_pos hval]

theorem decode_step_log_number (n : Nat) (hn : n < 2 ^ 64) (tail : List Nat)
    (acc : VersionEdit) (fuel : Nat) :
    decode_loop (fuel + 1) ((encode_varint32 2 ++ encode_varint64 n) ++ tail) acc =
    decode_loop fuel tail
      { acc with log_number_ := n, has_log_number_ := true } := by
  have hshape : (encode_varint32 2 ++ encode_varint64 n) ++ tail =
      2 :: (encode_varint64 n ++ tail) := by
    rw [show encode_varint32 2 = [2] from rfl]
    simp
  rw [hshape]
  simp only [decode_loop]
  rw [get_varint32_small 2 (by norm_num)]
  simp only []
  rw [if_neg (by norm_num), if_pos trivial]
  rw [get_varint64_encode n hn tail]

theorem decode_step_prev_log_number (n : Nat) (hn : n < 2 ^ 64) (tail : List Nat)
    (acc : VersionEdit) (fuel : Nat) :
    decode_loop (fuel + 1) ((encode_varint32 9 ++ encode_varint64 n) ++ tail) acc =
    decode_loop fuel tail
      { acc with prev_log_number_ := n, has_prev_log_number_ := true } := by
  have hshape : (encode_varint32 9 ++ encode_varint64 n) ++ tail =
      9 :: (encode_varint64 n ++ tail) := by
    rw [show encode_varint32 9 = [9] from rfl]
    simp
  rw [hshape]
  simp only [decode_loop]
  rw [get_varint32_small 9 (by norm_num)]
  simp only []
  rw [if_neg (by norm_num), if_neg (by norm_num),
    if_pos trivial]
  rw [get_varint64_encode n hn tail]

theorem decode_step_next_file_number (n : Nat) (hn : n < 2 ^ 64) (tail : List Nat)
    (acc : VersionEdit) (fuel : Nat) :
    decode_loop (fuel + 1) ((encode_varint32 3 ++ encode_varint64 n) ++ tail) acc =
    decode_loop fuel tail
      { acc with next_file_number_ := n, has_next_file_number_ := true } := by
  have hshape : (encode_varint32 3 ++ encode_varint64 n) ++ tail =
      3 :: (encode_varint64 n ++ tail) := by
    rw [show encode_varint32 3 = [3] from rfl]
    simp
  rw [hshape]
  simp only [decode_loop]
  rw [get_varint32_small 3 (by norm_num)]
  simp only []
  rw [if_neg (by norm_num), if_neg (by norm_num), if_neg (by norm_num),
    if_pos trivial]
  rw [get_varint64_encode n hn tail]

theorem decode_step_last_sequence (n : Nat) (hn : n < 2 ^ 64) (tail : List Nat)
    (acc : VersionEdit) (fuel : Nat) :
    decode_loop (fuel + 1) ((encode_varint32 4 ++ encode_varint64 n) ++ tail) acc =
    decode_loop fuel tail
      { acc with last_sequence_ := n, has_last_sequence_ := true } := by
  have hshape : (encode_varint32 4 ++ encode_varint64 n) ++ tail =
      4 :: (encode_varint64 n ++ tail) := by
    rw [show encode_varint32 4 = [4] from rfl]
    simp
  rw [hshape]
  simp only [decode_loop]
  rw [get_varint32_small 4 (by norm_num)]
  simp only []
  rw [if_neg (by norm_num), if_neg (by norm_num), if_neg (by norm_num),
    if_neg (by norm_num), if_pos trivial]
  rw [get_varint64_encode n hn tail]

theorem decode_step_compact_pointer (l : Int) (h0 : 0 ≤ l) (h7 : l < 7)
    (k tail : List Nat) (hk : k.length < 2 ^ 64) (acc : VersionEdit) (fuel : Nat) :
    decode_loop (fuel + 1)
      ((encode_varint32 5 ++ encode_varint32 (i32_as_u32 l) ++
        put_length_prefixed_slice k) ++ tail) acc =
    decode_loop fuel tail
      { acc with compact_pointers_ := acc.compact_pointers_ ++ [(l, k)] } := by
  have hshape : (encode_varint32 5 ++ encode_varint32 (i32_as_u32 l) ++
      put_length_prefixed_slice k) ++ tail =
      5 :: (encode_varint32 (i32_as_u32 l) ++
        (put_length_prefixed_slice k ++ tail)) := by
    rw [show encode_varint32 5 = [5] from rfl]
    simp
  rw [hshape]
  simp only [decode_loop]
  rw [get_varint32_small 5 (by norm_num)]
  simp only []
  rw [if_neg (by norm_num), if_neg (by norm_num), if_neg (by norm_num),
    if_neg (by norm_num), if_neg (by norm_num), if_pos trivial]
  rw [get_level_encode l h0 h7 (put_length_prefixed_slice k ++ tail)]
  simp only [get_internal_key]
  rw [get_length_prefixed_encode k hk tail]

theorem decode_step_deleted_file (l : Int) (h0 : 0 ≤ l) (h7 : l < 7)
    (n : Nat) (hn : n < 2 ^ 64) (tail : List Nat) (acc : VersionEdit) (fuel : Nat) :
    decode_loop (fuel + 1)
      ((encode_varint32 6 ++ encode_varint32 (i32_as_u32 l) ++
        encode_varint64 n) ++ tail) acc =
    decode_loop fuel tail
      { acc with deleted_files_ := deletedInsert (l, n) acc.deleted_files_ } := by
  have hshape : (encode_varint32 6 ++ encode_varint32 (i32_as_u32 l) ++
      encode_varint64 n) ++ tail =
      6 :: (encode_varint32 (i32_as_u32 l) ++ (encode_varint64 n ++ tail)) := by
    rw [show encode_varint32 6 = [6] from rfl]
    simp
  rw [hshape]
  simp only [decode_loop]
  rw [get_varint32_small 6 (by norm_num)]
  simp only []
  rw [if_neg (by norm_num), if_neg (by norm_num), if_neg (by norm_num),
    if_neg (by norm_num), if_neg (by norm_num), if_neg (by norm_num),
    if_pos trivial]
  rw [get_level_encode l h0 h7 (encode_varint64 n ++ tail)]
  simp only []
  rw [get_varint64_encode n hn tail]

theorem decode_step_new_file (l : Int) (h0 : 0 ≤ l) (h7 : l < 7)
    (meta : FileMetaData) (hnum : meta.number < 2 ^ 64)
    (hsize : meta.file_size < 2 ^ 64) (hsm : meta.smallest.length < 2 ^ 64)
    (hla : meta.largest.length < 2 ^ 64) (hrefs : meta.refs = 0)
    (hseeks : meta.allowed_seeks = 1073741824)
    (tail : List Nat) (acc : VersionEdit) (fuel : Nat) :
    decode_loop (fuel + 1)
      ((encode_varint32 7 ++ encode_varint32 (i32_as_u32 l) ++
        encode_varint64 meta.number ++ encode_varint64 meta.file_size ++
        put_length_prefixed_slice meta.smallest ++
        put_length_prefixed_slice meta.largest) ++ tail) acc =
    decode_loop fuel tail
      { acc with new_files_ := acc.new_files_ ++ [(l, meta)] } := by
  have hshape : (encode_varint32 7 ++ encode_varint32 (i32_as_u32 l) ++
      encode_varint64 meta.number ++ encode_varint64 meta.file_size ++
      put_length_prefixed_slice meta.smallest ++
      put_length_prefixed_slice meta.largest) ++ tail =
      7 :: (encode_varint32 (i32_as_u32 l) ++ (encode_varint64 meta.number ++
        (encode_varint64 meta.file_size ++ (put_length_prefixed_slice meta.smallest ++
          (put_length_prefixed_slice meta.largest ++ tail))))) := by
    rw [show encode_varint32 7 = [7] from rfl]
    simp
  rw [hshape]
  simp only [decode_loop]
  rw [get_varint32_small 7 (by norm_num)]
  simp only []
  rw [if_neg (by norm_num), if_neg (by norm_num), if_neg (by norm_num),
    if_neg (by norm_num), if_neg (by norm_num), if_neg (by norm_num),
    if_pos trivial]
  rw [get_level_encode l h0 h7 _]
  simp only []
  rw [get_varint64_encode meta.number hnum _]
  simp only []
  rw [get_varint64_encode meta.file_size hsize _]
  simp only [get_internal_key]
  rw [get_length_prefixed_encode meta.smallest hsm _]
  simp only []
  rw [get_length_prefixed_encode meta.largest hla tail]
  simp only []
  congr 2
  cases meta
  simp only [FileMetaData.new] at *
  simp_all

/-! ## decode_loop over whole encoded sections -/

theorem decode_blk_comparator (b : Bool) (c tail : List Nat) (acc : VersionEdit)
    (fuel : Nat) (hval : b = true → isValidUtf8 c = true)
    (hlen : b = true → c.length < 2 ^ 64) :
    decode_loop ((cond b 1 0) + fuel)
      ((if b then encode_varint32 1 ++ put_length_prefixed_slice c else []) ++
        tail) acc =
    decode_loop fuel tail
      { acc with comparator_ := cond b c acc.comparator_,
                 has_comparator_ := acc.has_comparator_ || b } := by
  cases b
  · simp
  · rw [show cond true 1 0 + fuel = fuel + 1 from by simp only [cond_true]; omega]
    simpa using decode_step_comparator c tail acc fuel (hval rfl) (hlen rfl)

theorem decode_blk_log_number (b : Bool) (n : Nat) (tail : List Nat)
    (acc : VersionEdit) (fuel : Nat) (hn : b = true → n < 2 ^ 64) :
    decode_loop ((cond b 1 0) + fuel)
      ((if b then encode_varint32 2 ++ encode_varint64 n else []) ++ tail) acc =
    decode_loop fuel tail
      { acc with log_number_ := cond b n acc.log_number_,
                 has_log_number_ := acc.has_log_number_ || b } := by
  cases b
  · simp
  · rw [show cond true 1 0 + fuel = fuel + 1 from by simp only [cond_true]; omega]
    simpa using decode_step_log_number n (hn rfl) tail acc fuel

theorem decode_blk_prev_log_number (b : Bool) (n : Nat) (tail : List Nat)
    (acc : VersionEdit) (fuel : Nat) (hn : b = true → n < 2 ^ 64) :
    decode_loop ((cond b 1 0) + fuel)
      ((if b then encode_varint32 9 ++ encode_varint64 n else []) ++ tail) acc =
    decode_loop fuel tail
      { acc with prev_log_number_ := cond b n acc.prev_log_number_,
                 has_prev_log_number_ := acc.has_prev_log_number_ || b } := by
  cases b
  · simp
  · rw [show cond true 1 0 + fuel = fuel + 1 from by simp only [cond_true]; omega]
    simpa using decode_step_prev_log_number n (hn rfl) tail acc fuel

theorem decode_blk_next_file_number (b : Bool) (n : Nat) (tail : List Nat)
    (acc : VersionEdit) (fuel : Nat) (hn : b = true → n < 2 ^ 64) :
    decode_loop ((cond b 1 0) + fuel)
      ((if b then encode_varint32 3 ++ encode_varint64 n else []) ++ tail) acc =
    decode_loop fuel tail
      { acc with next_file_number_ := cond b n acc.next_file_number_,
                 has_next_file_number_ := acc.has_next_file_number_ || b } := by
  cases b
  · simp
  · rw [show cond true 1 0 + fuel = fuel + 1 from by simp only [cond_true]; omega]
    simpa using decode_step_next_file_number n (hn rfl) tail acc fuel

theorem decode_blk_last_sequence (b : Bool) (n : Nat) (tail : List Nat)
    (acc : VersionEdit) (fuel : Nat) (hn : b = true → n < 2 ^ 64) :
    decode_loop ((cond b 1 0) + fuel)
      ((if b then encode_varint32 4 ++ encode_varint64 n else []) ++ tail) acc =
    decode_loop fuel tail
      { acc with last_sequence_ := cond b n acc.last_sequence_,
                 has_last_sequence_ := acc.has_last_sequence_ || b } := by
  cases b
  · simp
  · rw [show cond true 1 0 + fuel = fuel + 1 from by simp only [cond_true]; omega]
    simpa using decode_step_last_sequence n (hn rfl) tail acc fuel

theorem decode_chain_compact (ps : List (Int × List Nat))
    (hps : ∀ p ∈ ps, 0 ≤ p.1 ∧ p.1 < 7 ∧ p.2.length < 2 ^ 64)
    (tail : List Nat) (acc : VersionEdit) (fuel : Nat) :
    decode_loop (ps.length + fuel)
      ((ps.map (fun p => encode_varint32 5 ++
        (encode_varint32 (i32_as_u32 p.1) ++
          put_length_prefixed_slice p.2))).join ++ tail) acc =
    decode_loop fuel tail
      { acc with compact_pointers_ := acc.compact_pointers_ ++ ps } := by
  induction ps generalizing acc with
  | nil => simp
  | cons p ps ih =>
    have hp := hps p (List.mem_cons_self _ _)
    have hrest : ∀ q ∈ ps, 0 ≤ q.1 ∧ q.1 < 7 ∧ q.2.length < 2 ^ 64 :=
      fun q hq => hps q (List.mem_cons_of_mem _ hq)
    simp only [List.map_cons, List.join_cons, List.length_cons,
      List.append_assoc]
    rw [show ps.length + 1 + fuel = ps.length + fuel + 1 from by omega]
    have hstep := decode_step_compact_pointer p.1 hp.1 hp.2.1 p.2
      ((ps.map (fun p => encode_varint32 5 ++
        (encode_varint32 (i32_as_u32 p.1) ++
          put_length_prefixed_slice p.2))).join ++ tail)
      hp.2.2 acc (ps.length + fuel)
    simp only [List.append_assoc] at hstep
    rw [hstep, ih hrest]
    simp

theorem decode_chain_deleted (ds : List (Int × Nat))
    (hds : ∀ d ∈ ds, 0 ≤ d.1 ∧ d.1 < 7 ∧ d.2 < 2 ^ 64)
    (tail : List Nat) (acc : VersionEdit) (fuel : Nat) :
    decode_loop (ds.length + fuel)
      ((ds.map (fun d => encode_varint32 6 ++
        (encode_varint32 (i32_as_u32 d.1) ++ encode_varint64 d.2))).join ++
        tail) acc =
    decode_loop fuel tail
      { acc with deleted_files_ :=
          ds.foldl (fun t d => deletedInsert d t) acc.deleted_files_ } := by
  induction ds generalizing acc with
  | nil => simp
  | cons d ds ih =>
    have hd := hds d (List.mem_cons_self _ _)
    have hrest : ∀ q ∈ ds, 0 ≤ q.1 ∧ q.1 < 7 ∧ q.2 < 2 ^ 64 :=
      fun q hq => hds q (List.mem_cons_of_mem _ hq)
    simp only [List.map_cons, List.join_cons, List.length_cons,
      List.append_assoc]
    rw [show ds.length + 1 + fuel = ds.length + fuel + 1 from by omega]
    have hstep := decode_step_deleted_file d.1 hd.1 hd.2.1 d.2 hd.2.2
      ((ds.map (fun d => encode_varint32 6 ++
        (encode_varint32 (i32_as_u32 d.1) ++ encode_varint64 d.2))).join ++
        tail) acc (ds.length + fuel)
    simp only [List.append_assoc] at hstep
    rw [hstep, ih hrest]
    simp

theorem decode_chain_new (nfs : List (Int × FileMetaData))
    (hnfs : ∀ nf ∈ nfs, 0 ≤ nf.1 ∧ nf.1 < 7 ∧ nf.2.number < 2 ^ 64 ∧
      nf.2.file_size < 2 ^ 64 ∧ nf.2.smallest.length < 2 ^ 64 ∧
      nf.2.largest.length < 2 ^ 64 ∧ nf.2.refs = 0 ∧
      nf.2.allowed_seeks = 1073741824)
    (tail : List Nat) (acc : VersionEdit) (fuel : Nat) :
    decode_loop (nfs.length + fuel)
      ((nfs.map (fun nf => encode_varint32 7 ++
        (encode_varint32 (i32_as_u32 nf.1) ++
          (encode_varint64 nf.2.number ++
            (encode_varint64 nf.2.file_size ++
              (put_length_prefixed_slice nf.2.smallest ++
                put_length_prefixed_slice nf.2.largest)))))).join ++ tail) acc =
    decode_loop fuel tail
      { acc with new_files_ := acc.new_files_ ++ nfs } := by
  induction nfs generalizing acc with
  | nil => simp
  | cons nf nfs ih =>
    have hf := hnfs nf (List.mem_cons_self _ _)
    have hrest : ∀ q ∈ nfs, 0 ≤ q.1 ∧ q.1 < 7 ∧ q.2.number < 2 ^ 64 ∧
        q.2.file_size < 2 ^ 64 ∧ q.2.smallest.length < 2 ^ 64 ∧
        q.2.largest.length < 2 ^ 64 ∧ q.2.refs = 0 ∧
        q.2.allowed_seeks = 1073741824 :=
      fun q hq => hnfs q (List.mem_cons_of_mem _ hq)
    simp only [List.map_cons, List.join_cons, List.length_cons,
      List.append_assoc]
    rw [show nfs.length + 1 + fuel = nfs.length + fuel + 1 from by omega]
    have hstep := decode_step_new_file nf.1 hf.1 hf.2.1 nf.2 hf.2.2.1
      hf.2.2.2.1 hf.2.2.2.2.1 hf.2.2.2.2.2.1 hf.2.2.2.2.2.2.1
      hf.2.2.2.2.2.2.2
      ((nfs.map (fun nf => encode_varint32 7 ++
        (encode_varint32 (i32_as_u32 nf.1) ++
          (encode_varint64 nf.2.number ++
            (encode_varint64 nf.2.file_size ++
              (put_length_prefixed_slice nf.2.smallest ++
                put_length_prefixed_slice nf.2.largest)))))).join ++ tail)
      acc (nfs.length + fuel)
    simp only [List.append_assoc] at hstep
    rw [hstep, ih hrest]
    simp

theorem decode_loop_nil (fuel : Nat) (acc : VersionEdit) :
    decode_loop (fuel + 1) [] acc = .ok acc := rfl

/-! ## The BTreeSet insertion of already-sorted elements appends -/

theorem deletedInsert_of_gt (x : Int × Nat) (s : List (Int × Nat))
    (h : ∀ y ∈ s, pairLex y x) : deletedInsert x s = s ++ [x] := by
  induction s with
  | nil => rfl
  | cons y rest ih =>
    have hy := h y (List.mem_cons_self _ _)
    simp only [pairLex] at hy
    have h1 : ¬(x.1 < y.1 ∨ (x.1 = y.1 ∧ x.2 < y.2)) := by omega
    have h2 : ¬(x = y) := by
      intro he
      rw [he] at hy
      omega
    simp only [deletedInsert]
    rw [if_neg h1, if_neg h2, ih (fun z hz => h z (List.mem_cons_of_mem _ hz))]
    rfl

theorem foldl_deletedInsert_sorted (ds : List (Int × Nat)) :
    ∀ s : List (Int × Nat), (s ++ ds).Pairwise pairLex →
      ds.foldl (fun t d => deletedInsert d t) s = s ++ ds := by
  induction ds with
  | nil => intro s _; simp
  | cons d rest ih =>
    intro s h
    have hall : ∀ y ∈ s, pairLex y d := by
      intro y hy
      exact (List.pairwise_append.mp h).2.2 y hy d (List.mem_cons_self _ _)
    have h' : ((s ++ [d]) ++ rest).Pairwise pairLex := by
      have hsplit : s ++ d :: rest = (s ++ [d]) ++ rest := by simp
      rw [← hsplit]
      exact h
    simp only [List.foldl_cons]
    rw [deletedInsert_of_gt d s hall, ih (s ++ [d]) h']
    simp

/-! ## Fuel accounting: each encoded block is at least one byte -/

theorem one_le_join_length {α : Type} (l : List α) (g : α → List Nat)
    (h : ∀ x ∈ l, 1 ≤ (g x).length) :
    l.length ≤ ((l.map g).join).length := by
  induction l with
  | nil => simp
  | cons x rest ih =>
    have hjoin : ((x :: rest).map g).join = g x ++ (rest.map g).join := rfl
    rw [hjoin]
    simp only [List.length_append, List.length_cons]
    have h1 := h x (List.mem_cons_self _ _)
    have h2 := ih (fun y hy => h y (List.mem_cons_of_mem _ hy))
    omega

theorem iterCount_le_encode_length (e : VersionEdit) :
    e.iterCount ≤ (VersionEdit.encode_to e).length := by
  have hopt : ∀ (b : Bool) (blk : List Nat), 1 ≤ blk.length →
      cond b 1 0 ≤ (if b then blk else []).length := by
    intro b blk hb
    cases b
    · simp
    · simpa using hb
  have h1 := hopt e.has_comparator_
    (encode_varint32 1 ++ put_length_prefixed_slice e.comparator_)
    (by simp only [show encode_varint32 1 = [1] from rfl, List.length_append,
      List.length_cons, List.length_nil]; omega)
  have h2 := hopt e.has_log_number_
    (encode_varint32 2 ++ encode_varint64 e.log_number_)
    (by simp only [show encode_varint32 2 = [2] from rfl, List.length_append,
      List.length_cons, List.length_nil]; omega)
  have h3 := hopt e.has_prev_log_number_
    (encode_varint32 9 ++ encode_varint64 e.prev_log_number_)
    (by simp only [show encode_varint32 9 = [9] from rfl, List.length_append,
      List.length_cons, List.length_nil]; omega)
  have h4 := hopt e.has_next_file_number_
    (encode_varint32 3 ++ encode_varint64 e.next_file_number_)
    (by simp only [show encode_varint32 3 = [3] from rfl, List.length_append,
      List.length_cons, List.length_nil]; omega)
  have h5 := hopt e.has_last_sequence_
    (encode_varint32 4 ++ encode_varint64 e.last_sequence_)
    (by simp only [show encode_varint32 4 = [4] from rfl, List.length_append,
      List.length_cons, List.length_nil]; omega)
  have h6 := one_le_join_length e.compact_pointers_
    (fun p => encode_varint32 5 ++ encode_varint32 (i32_as_u32 p.1) ++
      put_length_prefixed_slice p.2)
    (fun p _ => by simp only [show encode_varint32 5 = [5] from rfl,
      List.length_append, List.length_cons, List.length_nil]; omega)
  have h7 := one_le_join_length e.deleted_files_
    (fun d => encode_varint32 6 ++ encode_varint32 (i32_as_u32 d.1) ++
      encode_varint64 d.2)
    (fun d _ => by simp only [show encode_varint32 6 = [6] from rfl,
      List.length_append, List.length_cons, List.length_nil]; omega)
  have h8 := one_le_join_length e.new_files_
    (fun nf => encode_varint32 7 ++ encode_varint32 (i32_as_u32 nf.1) ++
      encode_varint64 nf.2.number ++ encode_varint64 nf.2.file_size ++
      put_length_prefixed_slice nf.2.smallest ++
      put_length_prefixed_slice nf.2.largest)
    (fun nf _ => by simp only [show encode_varint32 7 = [7] from rfl,
      List.length_append, List.length_cons, List.length_nil]; omega)
  simp only [VersionEdit.iterCount, VersionEdit.encode_to, List.length_append]
  omega

/-! ## Decoding a full encoding -/

theorem decode_encode_master (e : VersionEdit) (hv : e.Valid) (f : Nat) :
    decode_loop (e.iterCount + (f + 1)) (VersionEdit.encode_to e)
      VersionEdit.new = .ok (VersionEdit.canon e) := by
  obtain ⟨hval, hclen, hlog, hprev, hnext, hlast, hcp, hdf, hnf, hsorted⟩ := hv
  have hdel : List.foldl (fun t d => deletedInsert d t)
      ([] : List (Int × Nat)) e.deleted_files_ = e.deleted_files_ := by
    have h := foldl_deletedInsert_sorted e.deleted_files_ []
      (by simpa using hsorted)
    simpa using h
  rw [← List.append_nil (VersionEdit.encode_to e)]
  simp only [VersionEdit.encode_to, VersionEdit.iterCount, List.append_assoc,
    Nat.add_assoc]
  rw [decode_blk_comparator e.has_comparator_ e.comparator_ _ _ _
    (fun _ => hval) (fun _ => hclen)]
  rw [decode_blk_log_number e.has_log_number_ e.log_number_ _ _ _
    (fun _ => hlog)]
  rw [decode_blk_prev_log_number e.has_prev_log_number_ e.prev_log_number_
    _ _ _ (fun _ => hprev)]
  rw [decode_blk_next_file_number e.has_next_file_number_ e.next_file_number_
    _ _ _ (fun _ => hnext)]
  rw [decode_blk_last_sequence e.has_last_sequence_ e.last_sequence_ _ _ _
    (fun _ => hlast)]
  rw [decode_chain_compact e.compact_pointers_ hcp]
  rw [decode_chain_deleted e.deleted_files_ hdf]
  rw [decode_chain_new e.new_files_ hnf]
  rw [decode_loop_nil]
  simp [VersionEdit.canon, VersionEdit.new, hdel]

/-- **C2.** For every valid `VersionEdit` `e`, decoding `encode_to e`
succeeds and yields an edit agreeing with `e` on every optional field, the
compaction pointers, the deleted-file set and the new files, and
re-encoding the decoded edit reproduces `encode_to e` byte for byte. -/
theorem C2_version_edit_roundtrip (e : VersionEdit) (hv : e.Valid) :
    ∃ e2, VersionEdit.decode_from (VersionEdit.encode_to e) = .ok e2 ∧
      e2.comparatorOpt = e.comparatorOpt ∧
      e2.logNumberOpt = e.logNumberOpt ∧
      e2.prevLogNumberOpt = e.prevLogNumberOpt ∧
      e2.nextFileNumberOpt = e.nextFileNumberOpt ∧
      e2.lastSequenceOpt = e.lastSequenceOpt ∧
      e2.compact_pointers_ = e.compact_pointers_ ∧
      e2.deleted_files_ = e.deleted_files_ ∧
      e2.new_files_ = e.new_files_ ∧
      VersionEdit.encode_to e2 = VersionEdit.encode_to e := by
  refine ⟨VersionEdit.canon e, ?_, ?_, ?_, ?_, ?_, ?_, rfl, rfl, rfl, ?_⟩
  · have hle := iterCount_le_encode_length e
    have hm := decode_encode_master e hv
      ((VersionEdit.encode_to e).length - e.iterCount)
    rw [VersionEdit.decode_from,
      show (VersionEdit.encode_to e).length + 1 =
        e.iterCount + (((VersionEdit.encode_to e).length - e.iterCount) + 1)
        from by omega]
    exact hm
  · cases h : e.has_comparator_ <;>
      simp [VersionEdit.comparatorOpt, VersionEdit.canon, h]
  · cases h : e.has_log_number_ <;>
      simp [VersionEdit.logNumberOpt, VersionEdit.canon, h]
  · cases h : e.has_prev_log_number_ <;>
      simp [VersionEdit.prevLogNumberOpt, VersionEdit.canon, h]
  · cases h : e.has_next_file_number_ <;>
      simp [VersionEdit.nextFileNumberOpt, VersionEdit.canon, h]
  · cases h : e.has_last_sequence_ <;>
      simp [VersionEdit.lastSequenceOpt, VersionEdit.canon, h]
  · cases h1 : e.has_comparator_ <;> cases h2 : e.has_log_number_ <;>
      cases h3 : e.has_prev_log_number_ <;>
      cases h4 : e.has_next_file_number_ <;>
      cases h5 : e.has_last_sequence_ <;>
      simp [VersionEdit.encode_to, VersionEdit.canon, h1, h2, h3, h4, h5]

/-- Witness for C2: the round trip at a concrete edit with every field
kind populated. -/
theorem C2_version_edit_roundtrip_witness :
    ∃ e2, VersionEdit.decode_from (VersionEdit.encode_to sampleEdit) =
        .ok e2 ∧
      e2.comparatorOpt = sampleEdit.comparatorOpt ∧
      e2.logNumberOpt = sampleEdit.logNumberOpt ∧
      e2.prevLogNumberOpt = sampleEdit.prevLogNumberOpt ∧
      e2.nextFileNumberOpt = sampleEdit.nextFileNumberOpt ∧
      e2.lastSequenceOpt = sampleEdit.lastSequenceOpt ∧
      e2.compact_pointers_ = sampleEdit.compact_pointers_ ∧
      e2.deleted_files_ = sampleEdit.deleted_files_ ∧
      e2.new_files_ = sampleEdit.new_files_ ∧
      VersionEdit.encode_to e2 = VersionEdit.encode_to sampleEdit :=
  C2_version_edit_roundtrip sampleEdit
    ⟨by decide, by decide, by decide, by decide, by decide, by decide,
      by decide, by decide, by decide, by decide⟩

/-! ## Decode failure analysis (C3) -/

theorem decode_loop_error_fst : ∀ (fuel : Nat) (input : List Nat)
    (acc : VersionEdit) (r : String × String),
    decode_loop fuel input acc = .error r → r.1 = "VersionEdit" := by
  intro fuel
  induction fuel with
  | zero =>
    intro input acc r h
    simp only [decode_loop] at h
    cases h
    rfl
  | succ fuel ih =>
    intro input acc r h
    simp only [decode_loop] at h
    repeat' split at h
    all_goals
      first
      | (cases h; rfl)
      | (exact ih _ _ _ h)
      | simp at h

theorem decode_loop_ok_spec : ∀ (fuel : Nat) (input : List Nat)
    (acc : VersionEdit),
    exceptOk (decode_loop fuel input acc) =
      specScan (fun t => t % 256) (fun v => decide (u32_as_i32 v < 7))
        fuel input := by
  intro fuel
  induction fuel with
  | zero => intro input acc; rfl
  | succ fuel ih =>
    intro input acc
    simp only [decode_loop, specScan]
    rcases hv : get_varint32 input with _ | ⟨tag, rest⟩
    · skip
      simp only []
      cases hE : input.isEmpty <;> simp [hE, exceptOk]
    · skip
      simp only []
      by_cases h1 : tag % 256 = 1
      · simp only [if_pos h1]
        rcases hs : get_length_prefixed_slice rest with _ | ⟨s, rest2⟩
        · skip
          simp [exceptOk]
        · skip
          simp only []
          cases hval : isValidUtf8 s
          · simp [hval, exceptOk]
          · simp only [hval, if_pos rfl, Bool.true_and]
            exact ih _ _
      by_cases h2 : tag % 256 = 2
      · have ho : tag % 256 = 2 ∨ tag % 256 = 9 ∨ tag % 256 = 3 ∨
            tag % 256 = 4 := Or.inl h2
        simp only [if_neg h1, if_pos h2, if_pos ho]
        rcases hn : get_varint64 rest with _ | ⟨n, rest2⟩
        · skip
          simp [exceptOk]
        · skip
          simp only []
          exact ih _ _
      by_cases h9 : tag % 256 = 9
      · have ho : tag % 256 = 2 ∨ tag % 256 = 9 ∨ tag % 256 = 3 ∨
            tag % 256 = 4 := Or.inr (Or.inl h9)
        simp only [if_neg h1, if_neg h2, if_pos h9, if_pos ho]
        rcases hn : get_varint64 rest with _ | ⟨n, rest2⟩
        · skip
          simp [exceptOk]
        · skip
          simp only []
          exact ih _ _
      by_cases h3 : tag % 256 = 3
      · have ho : tag % 256 = 2 ∨ tag % 256 = 9 ∨ tag % 256 = 3 ∨
            tag % 256 = 4 := Or.inr (Or.inr (Or.inl h3))
        simp only [if_neg h1, if_neg h2, if_neg h9, if_pos h3, if_pos ho]
        rcases hn : get_varint64 rest with _ | ⟨n, rest2⟩
        · skip
          simp [exceptOk]
        · skip
          simp only []
          exact ih _ _
      by_cases h4 : tag % 256 = 4
      · have ho : tag % 256 = 2 ∨ tag % 256 = 9 ∨ tag % 256 = 3 ∨
            tag % 256 = 4 := Or.inr (Or.inr (Or.inr h4))
        simp only [if_neg h1, if_neg h2, if_neg h9, if_neg h3, if_pos h4,
          if_pos ho]
        rcases hn : get_varint64 rest with _ | ⟨n, rest2⟩
        · skip
          simp [exceptOk]
        · skip
          simp only []
          exact ih _ _
      have ho : ¬(tag % 256 = 2 ∨ tag % 256 = 9 ∨ tag % 256 = 3 ∨
          tag % 256 = 4) := by omega
      by_cases h5 : tag % 256 = 5
      · simp only [if_neg h1, if_neg h2, if_neg h9, if_neg h3, if_neg h4,
          if_neg ho, if_pos h5]
        simp only [get_level, NUM_LEVELS]
        rcases hgv : get_varint32 rest with _ | ⟨v, r2⟩
        · skip
          simp [exceptOk]
        · skip
          simp only []
          by_cases hlv : u32_as_i32 v < 7
          · rw [if_pos hlv]
            simp only [get_internal_key]
            rcases hk : get_length_prefixed_slice r2 with _ | ⟨k, r3⟩
            · skip
              simp [exceptOk]
            · skip
              simp only []
              simp only [hlv, decide_True, Bool.true_and]
              exact ih _ _
          · rw [if_neg hlv]
            simp only []
            rcases hk : get_length_prefixed_slice r2 with _ | ⟨k, r3⟩
            · skip
              simp [exceptOk]
            · skip
              simp [exceptOk, hlv]
      by_cases h6 : tag % 256 = 6
      · simp only [if_neg h1, if_neg h2, if_neg h9, if_neg h3, if_neg h4,
          if_neg ho, if_neg h5, if_pos h6]
        simp only [get_level, NUM_LEVELS]
        rcases hgv : get_varint32 rest with _ | ⟨v, r2⟩
        · skip
          simp [exceptOk]
        · skip
          simp only []
          by_cases hlv : u32_as_i32 v < 7
          · rw [if_pos hlv]
            simp only []
            rcases hn : get_varint64 r2 with _ | ⟨n, r3⟩
            · skip
              simp [exceptOk]
            · skip
              simp only []
              simp only [hlv, decide_True, Bool.true_and]
              exact ih _ _
          · rw [if_neg hlv]
            simp only []
            rcases hn : get_varint64 r2 with _ | ⟨n, r3⟩
            · skip
              simp [exceptOk]
            · skip
              simp [exceptOk, hlv]
      by_cases h7 : tag % 256 = 7
      · simp only [if_neg h1, if_neg h2, if_neg h9, if_neg h3, if_neg h4,
          if_neg ho, if_neg h5, if_neg h6, if_pos h7]
        simp only [get_level, NUM_LEVELS, get_internal_key]
        rcases hgv : get_varint32 rest with _ | ⟨v, r2⟩
        · skip
          simp [exceptOk]
        · skip
          simp only []
          by_cases hlv : u32_as_i32 v < 7
          · rw [if_pos hlv]
            simp only []
            rcases hn1 : get_varint64 r2 with _ | ⟨n1, r3⟩
            · skip
              simp [exceptOk]
            · skip
              simp only []
              rcases hn2 : get_varint64 r3 with _ | ⟨n2, r4⟩
              · skip
                simp [exceptOk]
              · skip
                simp only []
                rcases hs1 : get_length_prefixed_slice r4 with _ | ⟨s1, r5⟩
                · skip
                  simp [exceptOk]
                · skip
                  simp only []
                  rcases hs2 : get_length_prefixed_slice r5 with _ | ⟨s2, r6⟩
                  · skip
                    simp [exceptOk]
                  · skip
                    simp only []
                    simp only [hlv, decide_True, Bool.true_and]
                    exact ih _ _
          · rw [if_neg hlv]
            simp only []
            rcases hn1 : get_varint64 r2 with _ | ⟨n1, r3⟩
            · skip
              simp [exceptOk]
            · skip
              simp only []
              rcases hn2 : get_varint64 r3 with _ | ⟨n2, r4⟩
              · skip
                simp [exceptOk]
              · skip
                simp only []
                rcases hs1 : get_length_prefixed_slice r4 with _ | ⟨s1, r5⟩
                · skip
                  simp [exceptOk]
                · skip
                  simp only []
                  rcases hs2 : get_length_prefixed_slice r5 with _ | ⟨s2, r6⟩
                  · skip
                    simp [exceptOk]
                  · skip
                    simp [exceptOk, hlv]
      simp only [if_neg h1, if_neg h2, if_neg h9, if_neg h3, if_neg h4,
        if_neg ho, if_neg h5, if_neg h6, if_neg h7]
      simp [exceptOk]

/-- **C3 (amended).** `decode_from` fails — always with a
`Corruption("VersionEdit", <field>)` error — if and only if some field
payload is malformed, a stored level is, as a signed 32-bit value, at
least `NUM_LEVELS` (7), or an unknown tag (matched on its low 8 bits)
appears; on every other input it returns `Ok`. -/
theorem C3_decode_error_iff_amended (bytes : List Nat) :
    (∃ msg, VersionEdit.decode_from bytes = .error ("VersionEdit", msg)) ↔
      specWellFormedAmended bytes = false := by
  constructor
  · rintro ⟨msg, h⟩
    have hs := decode_loop_ok_spec (bytes.length + 1) bytes VersionEdit.new
    simp only [VersionEdit.decode_from] at h
    rw [h] at hs
    simp only [exceptOk] at hs
    simp only [specWellFormedAmended]
    exact hs.symm
  · intro h
    have hs := decode_loop_ok_spec (bytes.length + 1) bytes VersionEdit.new
    simp only [specWellFormedAmended] at h
    rw [h] at hs
    cases hd : decode_loop (bytes.length + 1) bytes VersionEdit.new with
    | error r =>
      have hfst := decode_loop_error_fst _ _ _ _ hd
      refine ⟨r.2, ?_⟩
      simp only [VersionEdit.decode_from]
      rw [hd]
      rw [show r = ("VersionEdit", r.2) from by rw [← hfst]]
    | ok v =>
      rw [hd] at hs
      simp [exceptOk] at hs

/-- **C3 (counterexample to the original).** On input `[5, 7, 0]` — a
compaction-pointer record with stored level 7 and an empty key — the
decoder fails with `Corruption("VersionEdit", "compaction pointer")`
because `get_level` rejects level 7, although the claim as written
(level must exceed `NUM_LEVELS` = 7 to fail) predicts success. -/
theorem C3_decode_error_counterexample :
    VersionEdit.decode_from [5, 7, 0] =
        .error ("VersionEdit", "compaction pointer") ∧
      specWellFormedOrig [5, 7, 0] = true ∧
      specWellFormedAmended [5, 7, 0] = false := by
  refine ⟨by rfl, by decide, by decide⟩

/-! ## Log writer: CRC composition and record structure (C7) -/

theorem crc32c_run_append (s : Nat) (a b : List Nat) :
    crc32c_run (crc32c_run s a) b = crc32c_run s (a ++ b) := by
  simp [crc32c_run, List.foldl_append]

theorem xor_xor_cancel (x y : Nat) : x ^^^ y ^^^ y = x := by
  simp [Nat.xor_assoc]

theorem crc_extend_value (t : Nat) (p : List Nat) :
    crc_extend (type_crc t) p = crc32c_value (t :: p) := by
  simp only [crc_extend, type_crc, crc32c_value]
  rw [xor_xor_cancel, crc32c_run_append]
  rfl

theorem emitTypes_nil : emitTypes [] = [] := rfl

theorem emitTypes_pad_cons (n : Nat) (l : List LogEmit) :
    emitTypes (LogEmit.pad n :: l) = emitTypes l := by
  simp [emitTypes, emitIsRec]

theorem emitTypes_rec_cons (t : Nat) (p : List Nat) (l : List LogEmit) :
    emitTypes (LogEmit.emitted t p :: l) = t :: emitTypes l := by
  simp [emitTypes, emitIsRec, emitType]

theorem add_record_loop_payloads (offset : Nat) (data : List Nat)
    (b : Bool) :
    ((add_record_loop offset data b).1.map emitPayload).join = data := by
  induction offset, data, b using add_record_loop.induct with
  | case1 offset data b hres ih =>
    rw [add_record_loop, dif_pos hres]
    split_ifs with hp
    · simpa [emitPayload] using ih
    · simpa using ih
  | case2 offset data b hres hrest =>
    rw [add_record_loop, dif_neg hres, dif_pos hrest]
    simp only [List.isEmpty_iff, List.drop_eq_nil_iff] at hrest
    simp [emitPayload, List.take_of_length_le hrest]
  | case3 offset data b hres hrest ih =>
    rw [add_record_loop, dif_neg hres, dif_neg hrest]
    simpa [emitPayload, ih] using List.take_append_drop _ data

theorem add_record_loop_types (offset : Nat) (data : List Nat) (b : Bool) :
    (b = true → (emitTypes (add_record_loop offset data b).1 = [1] ∨
      ∃ k, emitTypes (add_record_loop offset data b).1 =
        2 :: (List.replicate k 3 ++ [4]))) ∧
    (b = false → ∃ k, emitTypes (add_record_loop offset data b).1 =
      List.replicate k 3 ++ [4]) := by
  induction offset, data, b using add_record_loop.induct with
  | case1 offset data b hres ih =>
    rw [add_record_loop, dif_pos hres]
    split_ifs with hp
    · simpa [List.singleton_append, emitTypes_pad_cons] using ih
    · simpa using ih
  | case2 offset data b hres hrest =>
    rw [add_record_loop, dif_neg hres, dif_pos hrest]
    simp only [List.isEmpty_iff, List.drop_eq_nil_iff] at hrest
    have hle : fragLen offset data ≤ data.length := by
      simp only [fragLen]
      split_ifs <;> omega
    have hEnd : data.length = fragLen offset data := by omega
    constructor <;> intro hb <;> subst hb
    · left
      simp [emitTypes, emitIsRec, emitType, recType, hEnd]
    · exact ⟨0, by simp [emitTypes, emitIsRec, emitType, recType, hEnd]⟩
  | case3 offset data b hres hrest ih =>
    rw [add_record_loop, dif_neg hres, dif_neg hrest]
    simp only [List.isEmpty_iff, List.drop_eq_nil_iff] at hrest
    have hNE : ¬(data.length = fragLen offset data) := by
      simp only [fragLen] at *
      split_ifs at * <;> omega
    obtain ⟨k, hk⟩ := ih.2 rfl
    constructor <;> intro hb <;> subst hb
    · right
      refine ⟨k, ?_⟩
      rw [emitTypes_rec_cons, hk]
      simp [recType, hNE]
    · refine ⟨k + 1, ?_⟩
      rw [emitTypes_rec_cons, hk]
      simp [recType, hNE, List.replicate_succ]

theorem add_record_loop_emits (offset : Nat) (data : List Nat) (b : Bool) :
    ∀ em ∈ (add_record_loop offset data b).1,
      (∀ n, em = .pad n → 0 < n ∧ n < HEADER_SIZE ∧
        emitBytes em = List.replicate n 0) ∧
      (∀ t p, em = .emitted t p → p.length < 2 ^ 16 ∧
        emitBytes em = encode_fixed32 (mask (crc32c_value (t :: p))) ++
          [p.length % 256, (p.length >>> 8) % 256, t] ++ p) := by
  induction offset, data, b using add_record_loop.induct with
  | case1 offset data b hres ih =>
    rw [add_record_loop, dif_pos hres]
    intro em hem
    split_ifs at hem with hp
    · rcases List.mem_append.mp hem with h | h
      · have hpad : em = .pad (BLOCK_SIZE - offset) := by simpa using h
        subst hpad
        constructor
        · intro n hn
          injection hn with hn'
          subst hn'
          exact ⟨hp, hres, rfl⟩
        · intro t p ht
          simp at ht
      · exact ih em h
    · exact ih em (by simpa using hem)
  | case2 offset data b hres hrest =>
    rw [add_record_loop, dif_neg hres, dif_pos hrest]
    intro em hem
    have hrec : em = .emitted
        (recType b (data.length = fragLen offset data))
        (data.take (fragLen offset data)) := by simpa using hem
    subst hrec
    constructor
    · intro n hn
      simp at hn
    · intro t p ht
      injection ht with h1 h2
      subst h1
      subst h2
      refine ⟨?_, ?_⟩
      · simp only [List.length_take, fragLen, BLOCK_SIZE, HEADER_SIZE]
        split_ifs <;> omega
      · simp [emitBytes, recordBytes, crc_extend_value]
  | case3 offset data b hres hrest ih =>
    rw [add_record_loop, dif_neg hres, dif_neg hrest]
    intro em hem
    rcases List.mem_cons.mp hem with h | h
    · subst h
      constructor
      · intro n hn
        simp at hn
      · intro t p ht
        injection ht with h1 h2
        subst h1
        subst h2
        refine ⟨?_, ?_⟩
        · simp only [List.length_take, fragLen, BLOCK_SIZE, HEADER_SIZE]
          split_ifs <;> omega
        · simp [emitBytes, recordBytes, crc_extend_value]
    · exact ih em h

theorem add_record_loop_full_iff (offset : Nat) (data : List Nat)
    (hoff : ¬(BLOCK_SIZE - offset < HEADER_SIZE)) :
    emitTypes (add_record_loop offset data true).1 = [1] ↔
      data.length ≤ BLOCK_SIZE - offset - HEADER_SIZE := by
  constructor
  · intro h
    by_contra hgt
    push_neg at hgt
    have hrest : ¬((data.drop (fragLen offset data)).isEmpty = true) := by
      simp only [List.isEmpty_iff, List.drop_eq_nil_iff, fragLen]
      split_ifs <;> omega
    rw [add_record_loop, dif_neg hoff, dif_neg hrest] at h
    rw [emitTypes_rec_cons] at h
    have hNE : ¬(data.length = fragLen offset data) := by
      simp only [fragLen]
      split_ifs <;> omega
    simp [recType, hNE] at h
  · intro h
    have hrest : (data.drop (fragLen offset data)).isEmpty = true := by
      simp only [List.isEmpty_iff, List.drop_eq_nil_iff, fragLen]
      split_ifs <;> omega
    rw [add_record_loop, dif_neg hoff, dif_pos hrest]
    have hEnd : data.length = fragLen offset data := by
      simp only [fragLen]
      split_ifs <;> omega
    simp [emitTypes, emitIsRec, emitType, recType, hEnd]

/-- **C7.** Every logical record appended by `Writer::add_record` at any
block offset is emitted as one `Full` physical record exactly when the
payload fits in its block's remainder after the 7-byte header, and
otherwise as `First`, zero or more `Middle`s and a `Last`; the fragment
payloads concatenate back to the record; block tails shorter than a
header are zero-padded; each record header carries the masked
`crc32c(type ‖ payload)`, the two little-endian length bytes and the type
byte; and an empty record still yields exactly one physical record. -/
theorem C7_add_record_spec (offset : Nat) (data : List Nat)
    (hoff : offset ≤ BLOCK_SIZE) :
    ((Writer.add_record offset data).1.map emitPayload).join = data ∧
    (emitTypes (Writer.add_record offset data).1 = [1] ∨
      ∃ k, emitTypes (Writer.add_record offset data).1 =
        2 :: (List.replicate k 3 ++ [4])) ∧
    (emitTypes (Writer.add_record offset data).1 = [1] ↔
      data.length ≤ availAfter offset) ∧
    (∀ em ∈ (Writer.add_record offset data).1, ∀ n, em = .pad n →
      0 < n ∧ n < HEADER_SIZE ∧ emitBytes em = List.replicate n 0) ∧
    (∀ em ∈ (Writer.add_record offset data).1, ∀ t p, em = .emitted t p →
      p.length < 2 ^ 16 ∧
      emitBytes em = encode_fixed32 (mask (crc32c_value (t :: p))) ++
        [p.length % 256, (p.length >>> 8) % 256, t] ++ p) ∧
    (data = [] → ((Writer.add_record offset data).1.filter emitIsRec).length = 1) := by
  have hiff : emitTypes (Writer.add_record offset data).1 = [1] ↔
      data.length ≤ availAfter offset := by
    by_cases hres : BLOCK_SIZE - offset < HEADER_SIZE
    · have h0 : ¬(BLOCK_SIZE - 0 < HEADER_SIZE) := by decide
      have hi := add_record_loop_full_iff 0 data h0
      simp only [Writer.add_record]
      rw [add_record_loop, dif_pos hres]
      simp only [availAfter, if_pos hres]
      split_ifs with hp
      · rw [List.singleton_append, emitTypes_pad_cons]
        exact hi
      · rw [List.nil_append]
        exact hi
    · have hi := add_record_loop_full_iff offset data hres
      simp only [Writer.add_record, availAfter, if_neg hres]
      exact hi
  refine ⟨add_record_loop_payloads offset data true,
    (add_record_loop_types offset data true).1 rfl, hiff, ?_, ?_, ?_⟩
  · intro em hem n hn
    exact (add_record_loop_emits offset data true em hem).1 n hn
  · intro em hem t p ht
    exact (add_record_loop_emits offset data true em hem).2 t p ht
  · intro hd
    subst hd
    have h1 : emitTypes (Writer.add_record offset []).1 = [1] :=
      hiff.mpr (by simp)
    have h2 : ((Writer.add_record offset []).1.filter emitIsRec).length =
        (emitTypes (Writer.add_record offset []).1).length :=
      (List.length_map _ _).symm
    rw [h2, h1]
    rfl

/-- Witness for C7: a record written near the end of a block, forcing a
zero-padded trailer and a fresh block. -/
theorem C7_add_record_spec_witness :
    ((Writer.add_record 32766 [10, 20, 30]).1.map emitPayload).join =
        [10, 20, 30] ∧
    (emitTypes (Writer.add_record 32766 [10, 20, 30]).1 = [1] ∨
      ∃ k, emitTypes (Writer.add_record 32766 [10, 20, 30]).1 =
        2 :: (List.replicate k 3 ++ [4])) ∧
    (emitTypes (Writer.add_record 32766 [10, 20, 30]).1 = [1] ↔
      [10, 20, 30].length ≤ availAfter 32766) ∧
    (∀ em ∈ (Writer.add_record 32766 [10, 20, 30]).1, ∀ n, em = .pad n →
      0 < n ∧ n < HEADER_SIZE ∧ emitBytes em = List.replicate n 0) ∧
    (∀ em ∈ (Writer.add_record 32766 [10, 20, 30]).1, ∀ t p,
      em = .emitted t p → p.length < 2 ^ 16 ∧
      emitBytes em = encode_fixed32 (mask (crc32c_value (t :: p))) ++
        [p.length % 256, (p.length >>> 8) % 256, t] ++ p) ∧
    ([10, 20, 30] = ([] : List Nat) →
      ((Writer.add_record 32766 [10, 20, 30]).1.filter emitIsRec).length = 1) :=
  C7_add_record_spec 32766 [10, 20, 30] (by decide)

/-! ## Bytewise and internal-key order toolkit -/

theorem compareBytes_self (a : List Nat) : compareBytes a a = .eq := by
  induction a with
  | nil => rfl
  | cons x xs ih => simp [compareBytes, ih]

theorem compareBytes_eq_iff {a b : List Nat} : compareBytes a b = .eq ↔ a = b := by
  induction a generalizing b with
  | nil => cases b <;> simp [compareBytes]
  | cons x xs ih =>
    cases b with
    | nil => simp [compareBytes]
    | cons y ys =>
      simp only [compareBytes, List.cons.injEq]
      split_ifs with h1 h2
      · constructor
        · intro h; exact absurd h (by decide)
        · rintro ⟨h, -⟩; exact absurd h (by omega)
      · constructor
        · intro h; exact absurd h (by decide)
        · rintro ⟨h, -⟩; exact absurd h (by omega)
      · have hxy : x = y := by omega
        subst hxy
        simp [ih]

theorem compareBytes_lt_trans {a b c : List Nat} (h1 : compareBytes a b = .lt)
    (h2 : compareBytes b c = .lt) : compareBytes a c = .lt := by
  induction a generalizing b c with
  | nil =>
    cases b with
    | nil => exact absurd h1 (by simp [compareBytes])
    | cons y ys =>
      cases c with
      | nil => exact absurd h2 (by simp [compareBytes])
      | cons z zs => simp [compareBytes]
  | cons x xs ih =>
    cases b with
    | nil => exact absurd h1 (by simp [compareBytes])
    | cons y ys =>
      cases c with
      | nil => exact absurd h2 (by simp [compareBytes])
      | cons z zs =>
        simp only [compareBytes] at h1 h2 ⊢
        by_cases hxy : x < y
        · by_cases hyz : y < z
          · rw [if_pos (by omega : x < z)]
          · by_cases hzy : z < y
            · rw [if_neg hyz, if_pos hzy] at h2; exact absurd h2 (by decide)
            · rw [if_pos (by omega : x < z)]
        · by_cases hyx : y < x
          · rw [if_neg hxy, if_pos hyx] at h1; exact absurd h1 (by decide)
          · have hxy2 : x = y := by omega
            subst hxy2
            rw [if_neg hxy, if_neg hyx] at h1
            by_cases hxz : x < z
            · rw [if_pos hxz]
            · by_cases hzx : z < x
              · rw [if_neg hxz, if_pos hzx] at h2; exact absurd h2 (by decide)
              · rw [if_neg hxz, if_neg hzx] at h2 ⊢
                exact ih h1 h2

theorem icmpBytes_self (a : List Nat) : icmpBytes a a = .eq := by
  simp [icmpBytes, icmp_compare, compareBytes_self]

theorem icmpBytes_le_lt_trans {a b c : List Nat} (h1 : icmpBytes a b ≠ .gt)
    (h2 : icmpBytes b c = .lt) : icmpBytes a c = .lt := by
  unfold icmpBytes icmp_compare at h1 h2 ⊢
  rcases hab : compareBytes (extract_user_key a) (extract_user_key b) with _ | _ | _ <;>
    rw [hab] at h1 <;>
    rcases hbc : compareBytes (extract_user_key b) (extract_user_key c) with _ | _ | _ <;>
    rw [hbc] at h2
  · rw [compareBytes_lt_trans hab hbc]
  · rw [compareBytes_eq_iff.mp hbc] at hab
    rw [hab]
  · simp at h2
  · rw [compareBytes_eq_iff.mp hab] at *
    rw [hbc]
  · rw [compareBytes_eq_iff.mp hab, compareBytes_eq_iff.mp hbc] at *
    rw [compareBytes_self]
    have hba : ¬ tag_of a < tag_of b := by
      intro hlt
      rw [if_neg (by omega), if_pos hlt] at h1
      exact h1 rfl
    have hcb : tag_of b > tag_of c := by
      by_cases hbc2 : tag_of b > tag_of c
      · exact hbc2
      · rw [if_neg hbc2] at h2
        split_ifs at h2 <;> exact absurd h2 (by decide)
    rw [if_pos (by omega : tag_of a > tag_of c)]
  · simp at h2
  · exact absurd h1 (fun h => h rfl)
  · exact absurd h1 (fun h => h rfl)
  · exact absurd h1 (fun h => h rfl)

/-! ## Claim C6: find_file binary search -/

theorem find_file_loop_spec (files : List FileMetaData) (key : List Nat)
    (hsorted : ∀ i j, (hi : i < files.length) → (hj : j < files.length) → i ≤ j →
      icmpBytes (files.get ⟨i, hi⟩).largest (files.get ⟨j, hj⟩).largest ≠ .gt) :
    ∀ d left right, right - left = d → left ≤ right → right ≤ files.length →
    (∀ j, (hj : j < files.length) → j < left →
      icmpBytes (files.get ⟨j, hj⟩).largest key = .lt) →
    (∀ j, (hj : j < files.length) → right ≤ j →
      icmpBytes (files.get ⟨j, hj⟩).largest key ≠ .lt) →
    left ≤ find_file_loop icmpBytes files key left right ∧
    find_file_loop icmpBytes files key left right ≤ right ∧
    (∀ j, (hj : j < files.length) → j < find_file_loop icmpBytes files key left right →
      icmpBytes (files.get ⟨j, hj⟩).largest key = .lt) ∧
    (∀ j, (hj : j < files.length) → find_file_loop icmpBytes files key left right ≤ j →
      icmpBytes (files.get ⟨j, hj⟩).largest key ≠ .lt) := by
  intro d
  induction d using Nat.strong_induction_on with
  | _ d ih =>
    intro left right hd hlr hrlen hA hB
    rw [find_file_loop]
    by_cases hlt : left < right
    · rw [if_pos hlt]
      have hmidlt : (left + right) / 2 < files.length := by omega
      have hgetD : files.getD ((left + right) / 2) FileMetaData.new =
          files.get ⟨(left + right) / 2, hmidlt⟩ := by
        rw [List.getD_eq_getElem _ _ hmidlt]
        rfl
      by_cases hcmp :
          icmpBytes (files.getD ((left + right) / 2) FileMetaData.new).largest key = .lt
      · rw [if_pos hcmp]
        have hA2 : ∀ j, (hj : j < files.length) → j < (left + right) / 2 + 1 →
            icmpBytes (files.get ⟨j, hj⟩).largest key = .lt := by
          intro j hj hjm
          by_cases hjl : j < left
          · exact hA j hj hjl
          · have hle : j ≤ (left + right) / 2 := by omega
            refine icmpBytes_le_lt_trans (hsorted j ((left + right) / 2) hj hmidlt hle) ?_
            rw [hgetD] at hcmp
            exact hcmp
        have := ih (right - ((left + right) / 2 + 1)) (by omega)
          ((left + right) / 2 + 1) right rfl (by omega) hrlen hA2 hB
        exact ⟨by omega, this.2.1, this.2.2.1, this.2.2.2⟩
      · rw [if_neg hcmp]
        have hB2 : ∀ j, (hj : j < files.length) → (left + right) / 2 ≤ j →
            icmpBytes (files.get ⟨j, hj⟩).largest key ≠ .lt := by
          intro j hj hjm habs
          rw [hgetD] at hcmp
          exact hcmp (icmpBytes_le_lt_trans
            (hsorted ((left + right) / 2) j hmidlt hj hjm) habs)
        have := ih ((left + right) / 2 - left) (by omega)
          left ((left + right) / 2) rfl (by omega) (by omega) hA hB2
        exact ⟨this.1, by omega, this.2.2.1, this.2.2.2⟩
    · rw [if_neg hlt]
      have hleq : left = right := by omega
      subst hleq
      exact ⟨le_refl _, le_refl _, hA, hB⟩

/-- Claim C6: for every file list sorted ascending by largest key under the
internal-key comparator and every internal key `K`, `find_file` returns the
unique index `i` such that every file before `i` has largest key strictly
below `K` and every file at or after `i` has largest key at or above `K`
(`files.length` when no file's largest key reaches `K`). -/
theorem C6_find_file_spec (files : List FileMetaData) (key : List Nat)
    (hsorted : files.Pairwise (fun f g => icmpBytes f.largest g.largest ≠ .gt)) :
    find_file icmpBytes files key ≤ files.length ∧
    (∀ j, (hj : j < files.length) → j < find_file icmpBytes files key →
      icmpBytes (files.get ⟨j, hj⟩).largest key = .lt) ∧
    (∀ j, (hj : j < files.length) → find_file icmpBytes files key ≤ j →
      icmpBytes (files.get ⟨j, hj⟩).largest key ≠ .lt) ∧
    (∀ i, i ≤ files.length →
      (∀ j, (hj : j < files.length) → j < i →
        icmpBytes (files.get ⟨j, hj⟩).largest key = .lt) →
      (∀ j, (hj : j < files.length) → i ≤ j →
        icmpBytes (files.get ⟨j, hj⟩).largest key ≠ .lt) →
      i = find_file icmpBytes files key) := by
  have hsorted2 : ∀ i j, (hi : i < files.length) → (hj : j < files.length) → i ≤ j →
      icmpBytes (files.get ⟨i, hi⟩).largest (files.get ⟨j, hj⟩).largest ≠ .gt := by
    intro i j hi hj hij
    rcases Nat.lt_or_ge i j with hlt | hge
    · exact List.pairwise_iff_get.mp hsorted ⟨i, hi⟩ ⟨j, hj⟩ hlt
    · have : i = j := by omega
      subst this
      rw [icmpBytes_self]
      exact fun h => absurd h (by decide)
  have hspec := find_file_loop_spec files key hsorted2 files.length 0 files.length
    rfl (Nat.zero_le _) (le_refl _)
    (fun j hj hj0 => absurd hj0 (by omega))
    (fun j hj hge => absurd hj (by omega))
  have hfeq : find_file_loop icmpBytes files key 0 files.length =
      find_file icmpBytes files key := rfl
  rw [hfeq] at hspec
  refine ⟨hspec.2.1, hspec.2.2.1, hspec.2.2.2, ?_⟩
  intro i hile hiA hiB
  by_contra hne
  rcases Nat.lt_or_ge i (find_file icmpBytes files key) with hlt | hge
  · have hi_lt : i < files.length := by
      have := hspec.2.1
      omega
    exact (hiB i hi_lt (le_refl _)) (hspec.2.2.1 i hi_lt hlt)
  · have hflt : find_file icmpBytes files key < i := by omega
    have hf_lt : find_file icmpBytes files key < files.length := by omega
    exact (hspec.2.2.2 _ hf_lt (le_refl _)) (hiA _ hf_lt hflt)

/-- Witness for C6: four disjoint files with user keys 150-450, seeking
key 300. -/
theorem C6_find_file_spec_witness :
    (let files : List FileMetaData :=
      [{ refs := 0, allowed_seeks := 0, number := 1, file_size := 0,
         smallest := mk_internal_key [49, 53, 48] 100 1,
         largest := mk_internal_key [50, 48, 48] 100 1 },
       { refs := 0, allowed_seeks := 0, number := 2, file_size := 0,
         smallest := mk_internal_key [51, 48, 48] 100 1,
         largest := mk_internal_key [51, 53, 48] 100 1 }]
     let key := mk_internal_key [51, 48, 48] 100 1
     find_file icmpBytes files key ≤ files.length ∧
     (∀ j, (hj : j < files.length) → j < find_file icmpBytes files key →
       icmpBytes (files.get ⟨j, hj⟩).largest key = .lt) ∧
     (∀ j, (hj : j < files.length) → find_file icmpBytes files key ≤ j →
       icmpBytes (files.get ⟨j, hj⟩).largest key ≠ .lt) ∧
     (∀ i, i ≤ files.length →
       (∀ j, (hj : j < files.length) → j < i →
         icmpBytes (files.get ⟨j, hj⟩).largest key = .lt) →
       (∀ j, (hj : j < files.length) → i ≤ j →
         icmpBytes (files.get ⟨j, hj⟩).largest key ≠ .lt) →
       i = find_file icmpBytes files key)) :=
  C6_find_file_spec _ _ (by decide)

/-! ## More order toolkit: swap and transitivity variants -/

theorem compareBytes_swap (a b : List Nat) :
    compareBytes b a = (compareBytes a b).swap := by
  induction a generalizing b with
  | nil => cases b <;> rfl
  | cons x xs ih =>
    cases b with
    | nil => rfl
    | cons y ys =>
      simp only [compareBytes]
      by_cases h1 : x < y
      · rw [if_neg (by omega : ¬ y < x), if_pos h1, if_pos h1]
        rfl
      · by_cases h2 : y < x
        · rw [if_pos h2, if_neg h1, if_pos h2]
          rfl
        · rw [if_neg h2, if_neg h1, if_neg h1, if_neg h2]
          exact ih ys

theorem icmpBytes_swap (a b : List Nat) :
    icmpBytes b a = (icmpBytes a b).swap := by
  unfold icmpBytes icmp_compare
  rw [compareBytes_swap (extract_user_key a) (extract_user_key b)]
  rcases hab : compareBytes (extract_user_key a) (extract_user_key b) with _ | _ | _
  · rfl
  · show (if tag_of b > tag_of a then Ordering.lt
      else if tag_of b < tag_of a then Ordering.gt else Ordering.eq) =
      (if tag_of a > tag_of b then Ordering.lt
        else if tag_of a < tag_of b then Ordering.gt else Ordering.eq).swap
    by_cases h1 : tag_of a > tag_of b
    · rw [if_neg (by omega : ¬ tag_of b > tag_of a),
        if_pos (by omega : tag_of b < tag_of a), if_pos h1]
      rfl
    · by_cases h2 : tag_of a < tag_of b
      · rw [if_pos (by omega : tag_of b > tag_of a), if_neg h1, if_pos h2]
        rfl
      · rw [if_neg (by omega : ¬ tag_of b > tag_of a),
          if_neg (by omega : ¬ tag_of b < tag_of a), if_neg h1, if_neg h2]
        rfl
  · rfl

theorem icmpBytes_gt_iff {a b : List Nat} :
    icmpBytes a b = .gt ↔ icmpBytes b a = .lt := by
  rw [icmpBytes_swap a b]
  rcases icmpBytes a b <;> simp [Ordering.swap]

theorem icmpBytes_ne_lt_of_ne_gt {a b : List Nat} (h : icmpBytes a b ≠ .gt) :
    icmpBytes b a ≠ .lt := by
  rw [icmpBytes_swap a b]
  rcases hab : icmpBytes a b <;> simp [Ordering.swap]
  exact absurd hab h

theorem icmpBytes_lt_le_trans {a b c : List Nat} (h1 : icmpBytes a b = .lt)
    (h2 : icmpBytes b c ≠ .gt) : icmpBytes a c = .lt := by
  rcases h : icmpBytes a c with _ | _ | _
  · rfl
  · exfalso
    have hca : icmpBytes c a ≠ .gt := by
      rw [icmpBytes_swap a c, h]
      decide
    have hcb : icmpBytes c b = .lt := icmpBytes_le_lt_trans hca h1
    exact h2 (icmpBytes_gt_iff.mpr hcb)
  · exfalso
    have hca : icmpBytes c a ≠ .gt := by
      rw [icmpBytes_swap a c, h]
      decide
    have hcb : icmpBytes c b = .lt := icmpBytes_le_lt_trans hca h1
    exact h2 (icmpBytes_gt_iff.mpr hcb)

theorem icmpBytes_lt_trans {a b c : List Nat} (h1 : icmpBytes a b = .lt)
    (h2 : icmpBytes b c = .lt) : icmpBytes a c = .lt :=
  icmpBytes_lt_le_trans h1 (by rw [h2]; decide)

theorem icmpBytes_le_trans {a b c : List Nat} (h1 : icmpBytes a b ≠ .gt)
    (h2 : icmpBytes b c ≠ .gt) : icmpBytes a c ≠ .gt := by
  intro h
  have hca : icmpBytes c a = .lt := icmpBytes_gt_iff.mp h
  have hcb : icmpBytes c b = .lt := icmpBytes_lt_le_trans hca h1
  exact h2 (icmpBytes_gt_iff.mpr hcb)

/-! ## countP lemmas for the boundary-loop measure -/

theorem countP_mono_of_imp {α : Type} {p q : α → Bool} :
    ∀ l : List α, (∀ a ∈ l, p a = true → q a = true) →
      l.countP p ≤ l.countP q := by
  intro l
  induction l with
  | nil => intro _; simp
  | cons h t ih =>
    intro himp
    rw [List.countP_cons, List.countP_cons]
    have ht := ih (fun a ha => himp a (List.mem_cons_of_mem h ha))
    by_cases hp : p h = true
    · rw [if_pos hp, if_pos (himp h (List.mem_cons_self _ _) hp)]
      omega
    · rw [if_neg hp]
      split_ifs <;> omega

theorem countP_lt_of_witness {α : Type} {p q : α → Bool} :
    ∀ l : List α, (∀ a ∈ l, p a = true → q a = true) →
      ∀ x ∈ l, q x = true → p x = false → l.countP p < l.countP q := by
  intro l
  induction l with
  | nil => intro _ x hx; cases hx
  | cons h t ih =>
    intro himp x hx hqx hpx
    rw [List.countP_cons, List.countP_cons]
    have htmono := countP_mono_of_imp t (fun a ha => himp a (List.mem_cons_of_mem h ha))
    rcases List.mem_cons.mp hx with hx | hx
    · subst hx
      rw [if_neg (by simp [hpx]), if_pos hqx]
      omega
    · have ht := ih (fun a ha => himp a (List.mem_cons_of_mem h ha)) x hx hqx hpx
      by_cases hp : p h = true
      · rw [if_pos hp, if_pos (himp h (List.mem_cons_self _ _) hp)]
        omega
      · rw [if_neg hp]
        split_ifs <;> omega

/-! ## Claim C4: add_boundary_inputs -/

theorem find_largest_key_spec (cf : List FileMetaData) (hcf : cf ≠ []) :
    ∃ lk, find_largest_key icmpBytes cf = some lk ∧
      (∃ f ∈ cf, f.largest = lk) ∧
      (∀ f ∈ cf, icmpBytes f.largest lk ≠ .gt) := by
  have hfold : ∀ (rest : List FileMetaData) (lk0 : List Nat),
      let r := rest.foldl (fun lk g => if icmpBytes g.largest lk = .gt then g.largest else lk) lk0
      (r = lk0 ∨ ∃ f ∈ rest, f.largest = r) ∧
      icmpBytes lk0 r ≠ .gt ∧
      (∀ f ∈ rest, icmpBytes f.largest r ≠ .gt) := by
    intro rest
    induction rest with
    | nil =>
      intro lk0
      simp only [List.foldl_nil]
      refine ⟨by simp, ?_, by simp⟩
      rw [icmpBytes_self]
      decide
    | cons g gs ih =>
      intro lk0
      simp only [List.foldl_cons]
      by_cases hg : icmpBytes g.largest lk0 = .gt
      · rw [if_pos hg]
        obtain ⟨hmem, hle, hall⟩ := ih g.largest
        refine ⟨?_, ?_, ?_⟩
        · rcases hmem with hmem | ⟨f, hf, hfl⟩
          · exact Or.inr ⟨g, List.mem_cons_self _ _, hmem.symm ▸ rfl⟩
          · exact Or.inr ⟨f, List.mem_cons_of_mem g hf, hfl⟩
        · have h1 : icmpBytes lk0 g.largest = .lt := icmpBytes_gt_iff.mp hg
          have h2 := icmpBytes_lt_le_trans h1 hle
          rw [h2]
          decide
        · intro f hf
          rcases List.mem_cons.mp hf with hf | hf
          · subst hf
            exact hle
          · exact hall f hf
      · rw [if_neg hg]
        obtain ⟨hmem, hle, hall⟩ := ih lk0
        refine ⟨?_, hle, ?_⟩
        · rcases hmem with hmem | ⟨f, hf, hfl⟩
          · exact Or.inl hmem
          · exact Or.inr ⟨f, List.mem_cons_of_mem g hf, hfl⟩
        · intro f hf
          rcases List.mem_cons.mp hf with hf | hf
          · subst hf
            exact icmpBytes_le_trans hg hle
          · exact hall f hf
  cases cf with
  | nil => exact absurd rfl hcf
  | cons f rest =>
    refine ⟨_, rfl, ?_, ?_⟩
    · obtain ⟨hmem, -, -⟩ := hfold rest f.largest
      rcases hmem with hmem | ⟨g, hg, hgl⟩
      · exact ⟨f, List.mem_cons_self _ _, hmem.symm ▸ rfl⟩
      · exact ⟨g, List.mem_cons_of_mem f hg, hgl⟩
    · intro g hg
      obtain ⟨-, hle, hall⟩ := hfold rest f.largest
      rcases List.mem_cons.mp hg with hg | hg
      · subst hg
        exact hle
      · exact hall g hg

theorem find_smallest_boundary_file_spec (level : List FileMetaData) (lk : List Nat) :
    (find_smallest_boundary_file compareBytes level lk = none →
      ∀ f ∈ level, ¬ IsBoundary compareBytes lk f) ∧
    (∀ f, find_smallest_boundary_file compareBytes level lk = some f →
      f ∈ level ∧ IsBoundary compareBytes lk f ∧
        ∀ g ∈ level, IsBoundary compareBytes lk g →
          icmpBytes f.smallest g.smallest ≠ .gt) := by
  have hfold : ∀ (l : List FileMetaData) (acc : Option FileMetaData),
      let r := l.foldl
        (fun sbf f =>
          if icmp_compare compareBytes f.smallest lk = .gt ∧
              compareBytes (extract_user_key f.smallest) (extract_user_key lk) = .eq then
            match sbf with
            | none => some f
            | some g =>
              if icmp_compare compareBytes f.smallest g.smallest = .lt then some f
              else some g
          else sbf) acc
      (r = none → acc = none ∧ ∀ f ∈ l, ¬ IsBoundary compareBytes lk f) ∧
      (∀ f, r = some f →
        ((f ∈ l ∧ IsBoundary compareBytes lk f) ∨ acc = some f) ∧
        (∀ g ∈ l, IsBoundary compareBytes lk g →
          icmpBytes f.smallest g.smallest ≠ .gt) ∧
        (∀ a, acc = some a → icmpBytes f.smallest a.smallest ≠ .gt)) := by
    intro l
    induction l with
    | nil =>
      intro acc
      refine ⟨fun h => ⟨by simpa using h, by simp⟩, fun f hf => ?_⟩
      have hacc : acc = some f := by simpa using hf
      refine ⟨Or.inr hacc, by simp, fun a ha => ?_⟩
      rw [hacc] at ha
      injection ha with ha2
      subst ha2
      rw [icmpBytes_self]
      decide
    | cons h t ih =>
      intro acc
      simp only [List.foldl_cons]
      set acc2 := if icmp_compare compareBytes h.smallest lk = .gt ∧
          compareBytes (extract_user_key h.smallest) (extract_user_key lk) = .eq then
        match acc with
        | none => some h
        | some g =>
          if icmp_compare compareBytes h.smallest g.smallest = .lt then some h
          else some g
        else acc with hacc2
      obtain ⟨ihnone, ihsome⟩ := ih acc2
      have hacc2_none : acc2 = none → acc = none ∧ ¬ IsBoundary compareBytes lk h := by
        intro h2
        rw [hacc2] at h2
        split_ifs at h2 with hb
        · rcases hacc : acc with _ | g
          · rw [hacc] at h2
            exact absurd h2 (by simp)
          · rw [hacc] at h2
            simp only [] at h2
            split_ifs at h2 <;> exact absurd h2 (by simp)
        · exact ⟨h2, fun hbb => hb ⟨hbb.1, hbb.2⟩⟩
      have hacc2_some : ∀ m, acc2 = some m →
          ((m = h ∧ IsBoundary compareBytes lk h) ∨ acc = some m) ∧
          (IsBoundary compareBytes lk h → icmpBytes m.smallest h.smallest ≠ .gt) ∧
          (∀ a, acc = some a → icmpBytes m.smallest a.smallest ≠ .gt) := by
        intro m h2
        rw [hacc2] at h2
        split_ifs at h2 with hb
        · have hbh : IsBoundary compareBytes lk h := ⟨hb.1, hb.2⟩
          rcases hacc : acc with _ | g
          · rw [hacc] at h2
            simp only [Option.some.injEq] at h2
            subst h2
            refine ⟨Or.inl ⟨rfl, hbh⟩, fun _ => ?_, fun a ha => by cases ha⟩
            rw [icmpBytes_self]
            decide
          · rw [hacc] at h2
            simp only [] at h2
            split_ifs at h2 with hlt <;> simp only [Option.some.injEq] at h2 <;> subst h2
            · refine ⟨Or.inl ⟨rfl, hbh⟩, fun _ => ?_, fun a ha => ?_⟩
              · rw [icmpBytes_self]
                decide
              · cases ha
                have h1 : icmpBytes h.smallest g.smallest = .lt := hlt
                rw [h1]
                decide
            · refine ⟨Or.inr rfl, fun _ => ?_, fun a ha => ?_⟩
              · exact fun habs => hlt (icmpBytes_gt_iff.mp habs)
              · cases ha
                rw [icmpBytes_self]
                decide
        · refine ⟨Or.inr h2, fun hbb => absurd ⟨hbb.1, hbb.2⟩ hb, fun a ha => ?_⟩
          rw [ha] at h2
          cases h2
          rw [icmpBytes_self]
          decide
      constructor
      · intro hr
        obtain ⟨h2none, htnone⟩ := ihnone hr
        obtain ⟨haccnone, hhb⟩ := hacc2_none h2none
        refine ⟨haccnone, ?_⟩
        intro f hf
        rcases List.mem_cons.mp hf with hf | hf
        · subst hf
          exact hhb
        · exact htnone f hf
      · intro f hr
        obtain ⟨hmem, hminT, hminAcc2⟩ := ihsome f hr
        refine ⟨?_, ?_, ?_⟩
        · rcases hmem with ⟨hft, hfb⟩ | hfacc2
          · exact Or.inl ⟨List.mem_cons_of_mem h hft, hfb⟩
          · obtain ⟨hm, -, -⟩ := hacc2_some f hfacc2
            rcases hm with ⟨hfh, hbh⟩ | hfacc
            · subst hfh
              exact Or.inl ⟨List.mem_cons_self _ _, hbh⟩
            · exact Or.inr hfacc
        · intro g hg hbg
          rcases List.mem_cons.mp hg with hg | hg
          · subst hg
            rcases hacc2v : acc2 with _ | m
            · rcases hacc2_none hacc2v with ⟨-, hnb⟩
              exact absurd hbg hnb
            · obtain ⟨-, hmh, -⟩ := hacc2_some m hacc2v
              exact icmpBytes_le_trans (hminAcc2 m hacc2v) (hmh hbg)
          · exact hminT g hg hbg
        · intro a hacca
          rcases hacc2v : acc2 with _ | m
          · rcases hacc2_none hacc2v with ⟨hn, -⟩
            rw [hn] at hacca
            cases hacca
          · obtain ⟨-, -, hma⟩ := hacc2_some m hacc2v
            exact icmpBytes_le_trans (hminAcc2 m hacc2v) (hma a hacca)
  obtain ⟨hnone, hsome⟩ := hfold level none
  constructor
  · intro hr
    exact (hnone hr).2
  · intro f hr
    obtain ⟨hmem, hmin, -⟩ := hsome f hr
    rcases hmem with ⟨hfl, hfb⟩ | habs
    · exact ⟨hfl, hfb, hmin⟩
    · cases habs

theorem add_boundary_inputs_loop_spec (level : List FileMetaData)
    (hwf : ∀ f ∈ level, icmpBytes f.smallest f.largest ≠ .gt) :
    ∀ fuel (lk : List Nat) (cf : List FileMetaData),
      level.countP (fun g => decide (icmpBytes lk g.smallest = .lt)) < fuel →
      ∃ chain, add_boundary_inputs_loop compareBytes level cf lk fuel = cf ++ chain ∧
        IsBoundaryChain compareBytes level lk chain := by
  intro fuel
  induction fuel with
  | zero => intro lk cf h; omega
  | succ fuel ih =>
    intro lk cf hfuel
    rw [add_boundary_inputs_loop]
    rcases hres : find_smallest_boundary_file compareBytes level lk with _ | f
    · refine ⟨[], by simp, ?_⟩
      exact IsBoundaryChain.nil lk ((find_smallest_boundary_file_spec level lk).1 hres)
    · obtain ⟨hmem, hb, hmin⟩ := (find_smallest_boundary_file_spec level lk).2 f hres
      have hlkf : icmpBytes lk f.smallest = .lt := icmpBytes_gt_iff.mp hb.1
      have hwff : icmpBytes f.smallest f.largest ≠ .gt := hwf f hmem
      have hlkfl : icmpBytes lk f.largest = .lt := icmpBytes_lt_le_trans hlkf hwff
      have himp : ∀ g ∈ level,
          decide (icmpBytes f.largest g.smallest = .lt) = true →
          decide (icmpBytes lk g.smallest = .lt) = true := by
        intro g _ hg
        rw [decide_eq_true_eq] at hg
        rw [decide_eq_true_eq]
        exact icmpBytes_lt_trans hlkfl hg
      have hwit : decide (icmpBytes lk f.smallest = .lt) = true := by
        rw [decide_eq_true_eq]
        exact hlkf
      have hnwit : decide (icmpBytes f.largest f.smallest = .lt) = false := by
        rw [decide_eq_false_iff_not]
        exact icmpBytes_ne_lt_of_ne_gt hwff
      have hlt := countP_lt_of_witness level himp f hmem hwit hnwit
      obtain ⟨chain, hres2, hchain⟩ := ih f.largest (cf ++ [f]) (by omega)
      refine ⟨f :: chain, ?_, ?_⟩
      · show add_boundary_inputs_loop compareBytes level (cf ++ [f]) f.largest fuel =
          cf ++ f :: chain
        rw [hres2]
        simp
      · exact IsBoundaryChain.cons lk f chain hmem hb hmin hchain

/-- Claim C4: for every non-empty `compaction_files` and every
`level_files` list whose files are well-formed (`smallest <= largest`),
`add_boundary_inputs` appends to `compaction_files` exactly the greedy
boundary chain: starting from the largest key among `compaction_files`, it
repeatedly appends the internal-key-minimal file whose `smallest` exceeds
the current largest key with equal user key, continues from that file's
`largest`, and stops when no such file remains; nothing else is added or
removed. -/
theorem C4_add_boundary_inputs_spec (level cf : List FileMetaData)
    (hwf : ∀ f ∈ level, icmpBytes f.smallest f.largest ≠ .gt)
    (hcf : cf ≠ []) :
    ∃ lk chain,
      find_largest_key icmpBytes cf = some lk ∧
      (∃ f ∈ cf, f.largest = lk) ∧
      (∀ f ∈ cf, icmpBytes f.largest lk ≠ .gt) ∧
      add_boundary_inputs compareBytes level cf = cf ++ chain ∧
      IsBoundaryChain compareBytes level lk chain := by
  obtain ⟨lk, hlk, hlkmem, hlkmax⟩ := find_largest_key_spec cf hcf
  have hcount : level.countP (fun g => decide (icmpBytes lk g.smallest = .lt)) <
      level.length + 1 :=
    Nat.lt_succ_of_le (List.countP_le_length _)
  obtain ⟨chain, hloop, hchain⟩ :=
    add_boundary_inputs_loop_spec level hwf (level.length + 1) lk cf hcount
  refine ⟨lk, chain, hlk, hlkmem, hlkmax, ?_, hchain⟩
  rw [add_boundary_inputs]
  have : find_largest_key (icmp_compare compareBytes) cf = some lk := hlk
  rw [this]
  exact hloop

/-- Witness for C4: the two-boundary-files scenario — level files
(100@6-100@5), (100@2-300@1), (100@4-100@3); compaction starts with the
first. -/
theorem C4_add_boundary_inputs_spec_witness :
    (let f1 : FileMetaData :=
      { refs := 0, allowed_seeks := 0, number := 1, file_size := 0,
        smallest := mk_internal_key [49, 48, 48] 6 1,
        largest := mk_internal_key [49, 48, 48] 5 1 }
     let f2 : FileMetaData :=
      { refs := 0, allowed_seeks := 0, number := 2, file_size := 0,
        smallest := mk_internal_key [49, 48, 48] 2 1,
        largest := mk_internal_key [51, 48, 48] 1 1 }
     let f3 : FileMetaData :=
      { refs := 0, allowed_seeks := 0, number := 3, file_size := 0,
        smallest := mk_internal_key [49, 48, 48] 4 1,
        largest := mk_internal_key [49, 48, 48] 3 1 }
     let level := [f3, f2, f1]
     let cf := [f1]
     ∃ lk chain,
       find_largest_key icmpBytes cf = some lk ∧
       (∃ f ∈ cf, f.largest = lk) ∧
       (∀ f ∈ cf, icmpBytes f.largest lk ≠ .gt) ∧
       add_boundary_inputs compareBytes level cf = cf ++ chain ∧
       IsBoundaryChain compareBytes level lk chain) :=
  C4_add_boundary_inputs_spec _ _ (by decide) (by decide)

/-! ## MemTable entry parsing and ordering (C8) -/

theorem entryInternalKey_memEntry (seq t : Nat) (key value : List Nat)
    (hk : key.length + 8 < 2 ^ 32) :
    entryInternalKey (memEntry seq t key value) =
      mk_internal_key key seq t := by
  have hshape : memEntry seq t key value =
      encode_varint32 (key.length + 8) ++
        ((key ++ encode_fixed64 (pack_sequence_and_type seq t)) ++
          (encode_varint32 value.length ++ value)) := by
    simp [memEntry, List.append_assoc]
  simp only [entryInternalKey]
  rw [hshape, get_varint32_encode _ hk]
  simp only []
  rw [List.take_left' (by simp [encode_fixed64_length])]
  rfl

theorem entryInternalKey_lookup (k : List Nat) (s : Nat)
    (hk : k.length + 8 < 2 ^ 32) :
    entryInternalKey (LookupKey.memtable_key k s) =
      mk_internal_key k s VALUE_TYPE_FOR_SEEK := by
  have hshape : LookupKey.memtable_key k s =
      encode_varint32 (k.length + 8) ++
        (k ++ encode_fixed64 (pack_sequence_and_type s VALUE_TYPE_FOR_SEEK)) := by
    simp [LookupKey.memtable_key, List.append_assoc]
  simp only [entryInternalKey]
  rw [hshape, get_varint32_encode _ hk]
  simp only []
  rw [List.take_of_length_le (by simp [encode_fixed64_length])]
  rfl

theorem icmp_mk_eval (u1 u2 : List Nat) (q1 q2 t1 t2 : Nat)
    (h1 : q1 ≤ MAX_SEQUENCE_NUMBER) (ht1 : t1 < 256)
    (h2 : q2 ≤ MAX_SEQUENCE_NUMBER) (ht2 : t2 < 256) :
    icmpBytes (mk_internal_key u1 q1 t1) (mk_internal_key u2 q2 t2) =
      match compareBytes u1 u2 with
      | .eq => if 256 * q2 + t2 < 256 * q1 + t1 then Ordering.lt
        else if 256 * q1 + t1 < 256 * q2 + t2 then Ordering.gt else Ordering.eq
      | r => r := by
  simp only [icmpBytes, icmp_compare, mk_internal_key_user,
    mk_internal_key_tag u1 q1 t1 h1 ht1, mk_internal_key_tag u2 q2 t2 h2 ht2]

theorem icmp_mk_lt_iff (u1 u2 : List Nat) (q1 q2 t1 t2 : Nat)
    (h1 : q1 ≤ MAX_SEQUENCE_NUMBER) (ht1 : t1 < 256)
    (h2 : q2 ≤ MAX_SEQUENCE_NUMBER) (ht2 : t2 < 256) :
    icmpBytes (mk_internal_key u1 q1 t1) (mk_internal_key u2 q2 t2) =
        .lt ↔
      compareBytes u1 u2 = .lt ∨ (u1 = u2 ∧ 256 * q2 + t2 < 256 * q1 + t1) := by
  rw [icmp_mk_eval u1 u2 q1 q2 t1 t2 h1 ht1 h2 ht2]
  cases hbc : compareBytes u1 u2 with
  | lt => simp
  | eq =>
    have hu : u1 = u2 := compareBytes_eq_iff.mp hbc
    subst hu
    split_ifs with hlt hgt <;> simp_all
  | gt =>
    have hne : ¬(u1 = u2) := by
      intro h
      rw [h, compareBytes_self] at hbc
      cases hbc
    simp [hne]

theorem icmp_mk_eq_iff (u1 u2 : List Nat) (q1 q2 t1 t2 : Nat)
    (h1 : q1 ≤ MAX_SEQUENCE_NUMBER) (ht1 : t1 < 256)
    (h2 : q2 ≤ MAX_SEQUENCE_NUMBER) (ht2 : t2 < 256) :
    icmpBytes (mk_internal_key u1 q1 t1) (mk_internal_key u2 q2 t2) =
        .eq ↔
      u1 = u2 ∧ q1 = q2 ∧ t1 = t2 := by
  rw [icmp_mk_eval u1 u2 q1 q2 t1 t2 h1 ht1 h2 ht2]
  cases hbc : compareBytes u1 u2 with
  | lt =>
    have hne : ¬(u1 = u2) := by
      intro h
      rw [h, compareBytes_self] at hbc
      cases hbc
    simp [hne]
  | eq =>
    have hu : u1 = u2 := compareBytes_eq_iff.mp hbc
    subst hu
    split_ifs with hlt hgt
    · constructor
      · intro h; cases h
      · rintro ⟨_, hq, ht⟩
        omega
    · constructor
      · intro h; cases h
      · rintro ⟨_, hq, ht⟩
        omega
    · constructor
      · intro _
        exact ⟨rfl, by omega, by omega⟩
      · intro _
        rfl
  | gt =>
    have hne : ¬(u1 = u2) := by
      intro h
      rw [h, compareBytes_self] at hbc
      cases hbc
    simp [hne]

theorem tableInsert_mem (e x : List Nat) (l : List (List Nat)) :
    x ∈ tableInsert e l ↔ x = e ∨ x ∈ l := by
  induction l with
  | nil => simp [tableInsert]
  | cons y rest ih =>
    simp only [tableInsert]
    split_ifs
    · simp [List.mem_cons]
    · simp only [List.mem_cons, ih]
      tauto

theorem tableInsert_sorted (e : List Nat) (l : List (List Nat))
    (hs : l.Pairwise entryLt)
    (hne : ∀ x ∈ l,
      icmpBytes (entryInternalKey e) (entryInternalKey x) ≠ .eq) :
    (tableInsert e l).Pairwise entryLt := by
  induction l with
  | nil => simp [tableInsert, entryLt]
  | cons y rest ih =>
    rw [List.pairwise_cons] at hs
    obtain ⟨hy, hrest⟩ := hs
    simp only [tableInsert]
    split_ifs with hlt
    · refine List.Pairwise.cons ?_ (List.Pairwise.cons hy hrest)
      intro z hz
      rcases List.mem_cons.mp hz with rfl | hz2
      · exact hlt
      · exact icmpBytes_lt_trans hlt (hy z hz2)
    · have hygt : icmpBytes (entryInternalKey e) (entryInternalKey y) =
          .gt := by
        cases hv2 : icmpBytes (entryInternalKey e) (entryInternalKey y) with
        | lt => exact absurd hv2 hlt
        | eq => exact absurd hv2 (hne y (List.mem_cons_self _ _))
        | gt => rfl
      have hyl : entryLt y e := icmpBytes_gt_iff.mp hygt
      refine List.Pairwise.cons ?_
        (ih hrest (fun x hx => hne x (List.mem_cons_of_mem _ hx)))
      intro z hz
      rcases (tableInsert_mem e z rest).mp hz with rfl | hz2
      · exact hyl
      · exact hy z hz2

theorem tableSeek_first (table : List (List Nat)) (target m : List Nat)
    (hsort : table.Pairwise entryLt) (hm : m ∈ table)
    (hpred : ¬entryLt m target)
    (hmin : ∀ e ∈ table, ¬entryLt e target → m = e ∨ entryLt m e) :
    tableSeek table target = some m := by
  induction table with
  | nil => cases hm
  | cons x rest ih =>
    rw [List.pairwise_cons] at hsort
    obtain ⟨hx, hrest⟩ := hsort
    by_cases hpx : entryLt x target
    · have hmx : m ≠ x := by
        rintro rfl
        exact hpred hpx
      have hm2 : m ∈ rest := by
        rcases List.mem_cons.mp hm with h | h
        · exact absurd h hmx
        · exact h
      rw [tableSeek, List.find?_cons_of_neg]
      · exact ih hrest hm2 (fun e he hp => hmin e (List.mem_cons_of_mem _ he) hp)
      · simp only [entryLt] at hpx
        simp [hpx]
    · rw [tableSeek, List.find?_cons_of_pos]
      · rcases hmin x (List.mem_cons_self _ _) hpx with h | h
        · rw [h]
        · exfalso
          rcases List.mem_cons.mp hm with rfl | hm2
          · simp [entryLt, icmpBytes_self] at h
          · have h3 := icmpBytes_lt_trans h (hx m hm2)
            simp [icmpBytes_self] at h3
      · simp only [entryLt] at hpx
        simp [hpx]

theorem foldl_add_mem (ops : List MemOp) (init : List (List Nat))
    (x : List Nat) :
    x ∈ ops.foldl
        (fun t op => MemTable.add t op.seq op.vtype op.ukey op.val) init ↔
      x ∈ init ∨ ∃ op ∈ ops, x = memEntry op.seq op.vtype op.ukey op.val := by
  induction ops generalizing init with
  | nil => simp
  | cons op rest ih =>
    simp only [List.foldl_cons]
    rw [ih]
    simp only [MemTable.add, tableInsert_mem, List.mem_cons]
    constructor
    · rintro (⟨h | h⟩ | ⟨op2, hop2, h⟩)
      · exact Or.inr ⟨op, Or.inl rfl, h⟩
      · exact Or.inl h
      · exact Or.inr ⟨op2, Or.inr hop2, h⟩
    · rintro (h | ⟨op2, hop2 | hop2, h⟩)
      · exact Or.inl (Or.inr h)
      · subst hop2
        exact Or.inl (Or.inl h)
      · exact Or.inr ⟨op2, hop2, h⟩


theorem opDistinct_symm : Symmetric opDistinct :=
  fun _ _ h hc => h ⟨hc.1.symm, hc.2.symm⟩

theorem foldl_add_sorted (ops : List MemOp) (init : List (List Nat))
    (hinit : init.Pairwise entryLt)
    (hwf : ∀ op ∈ ops, op.WF)
    (hdist : ops.Pairwise opDistinct)
    (hsep : ∀ op ∈ ops, ∀ x ∈ init,
      icmpBytes (entryInternalKey (memEntry op.seq op.vtype op.ukey op.val))
        (entryInternalKey x) ≠ .eq) :
    (ops.foldl
      (fun t op => MemTable.add t op.seq op.vtype op.ukey op.val)
      init).Pairwise entryLt := by
  induction ops generalizing init with
  | nil => simpa using hinit
  | cons op rest ih =>
    simp only [List.foldl_cons]
    obtain ⟨hvt, hq, hkl, hvl⟩ := hwf op (List.mem_cons_self _ _)
    have hvlt : op.vtype < 256 := by
      rcases hvt with h | h <;> rw [h] <;>
        norm_num [type_deletion, type_value]
    apply ih
    · exact tableInsert_sorted _ _ hinit
        (fun x hx => hsep op (List.mem_cons_self _ _) x hx)
    · intro q hq2
      exact hwf q (List.mem_cons_of_mem _ hq2)
    · exact List.Pairwise.of_cons hdist
    · intro op2 hop2 x hx
      rcases (tableInsert_mem _ _ _).mp hx with rfl | hx2
      · obtain ⟨hvt2, hq2, hk2, hv2⟩ := hwf op2 (List.mem_cons_of_mem _ hop2)
        have hvlt2 : op2.vtype < 256 := by
          rcases hvt2 with h | h <;> rw [h] <;>
            norm_num [type_deletion, type_value]
        rw [entryInternalKey_memEntry _ _ _ _ hk2,
          entryInternalKey_memEntry _ _ _ _ hkl]
        rw [Ne, icmp_mk_eq_iff _ _ _ _ _ _ hq2 hvlt2 hq hvlt]
        have hd := (List.pairwise_cons.mp hdist).1 op2 hop2
        simp only [opDistinct] at hd
        rintro ⟨he1, he2, _⟩
        exact hd ⟨he1.symm, he2.symm⟩
      · exact hsep op2 (List.mem_cons_of_mem _ hop2) x hx2

theorem buildTable_sorted (ops : List MemOp) (hwf : ∀ op ∈ ops, op.WF)
    (hdist : ops.Pairwise opDistinct) :
    (buildTable ops).Pairwise entryLt :=
  foldl_add_sorted ops [] (by simp) hwf hdist (by simp)

theorem buildTable_mem (ops : List MemOp) (x : List Nat) :
    x ∈ buildTable ops ↔
      ∃ op ∈ ops, x = memEntry op.seq op.vtype op.ukey op.val := by
  rw [buildTable, foldl_add_mem]
  simp

theorem decode_fixed64_bytes_append (v : Nat) (X : List Nat) :
    decode_fixed64_bytes (encode_fixed64 v ++ X) =
      decode_fixed64_bytes (encode_fixed64 v) := rfl

/-- **C8.** For a memtable built by adds with pairwise-distinct
`(user key, sequence)` pairs, `get(LookupKey(k, s))` returns the stored
value when the newest entry for `k` with sequence at most `s` has type
`Value`, the deletion outcome when it has type `Deletion`, and `Missing`
when no entry for `k` has sequence at most `s`. -/
theorem C8_memtable_get (ops : List MemOp) (k : List Nat) (s : Nat)
    (hdist : ops.Pairwise opDistinct) (hwf : ∀ op ∈ ops, op.WF)
    (hs : s ≤ MAX_SEQUENCE_NUMBER) (hk : k.length + 8 < 2 ^ 32) :
    (∀ m ∈ ops, m.ukey = k → m.seq ≤ s →
      (∀ m2 ∈ ops, m2.ukey = k → m2.seq ≤ s → m2.seq ≤ m.seq) →
      MemTable.get (buildTable ops) k s =
        (if m.vtype = type_value then MemGet.found m.val
         else MemGet.deleted)) ∧
    ((∀ m ∈ ops, ¬(m.ukey = k ∧ m.seq ≤ s)) →
      MemTable.get (buildTable ops) k s = MemGet.missing) := by
  have hVT : (VALUE_TYPE_FOR_SEEK : Nat) < 256 := by
    norm_num [VALUE_TYPE_FOR_SEEK, type_value]
  have hVT1 : (VALUE_TYPE_FOR_SEEK : Nat) = 1 := rfl
  have htgt := entryInternalKey_lookup k s hk
  constructor
  · intro m hm hmk hms hmax
    obtain ⟨hvt, hq, hkl, hvl⟩ := hwf m hm
    have hvt01 : m.vtype = 0 ∨ m.vtype = 1 := by
      rcases hvt with h | h
      · exact Or.inl h
      · exact Or.inr h
    have hvlt : m.vtype < 256 := by omega
    set e := memEntry m.seq m.vtype m.ukey m.val with he
    have heik : entryInternalKey e = mk_internal_key m.ukey m.seq m.vtype :=
      entryInternalKey_memEntry _ _ _ _ hkl
    have hseek : tableSeek (buildTable ops) (LookupKey.memtable_key k s) =
        some e := by
      apply tableSeek_first
      · exact buildTable_sorted ops hwf hdist
      · exact (buildTable_mem ops e).mpr ⟨m, hm, he⟩
      · simp only [entryLt, heik, htgt]
        rw [icmp_mk_lt_iff _ _ _ _ _ _ hq hvlt hs hVT]
        rintro (hlt | ⟨_, hlt⟩)
        · rw [hmk, compareBytes_self] at hlt
          cases hlt
        · rw [hVT1] at hlt
          omega
      · intro e2 he2 hp2
        obtain ⟨op2, hop2, rfl⟩ := (buildTable_mem ops e2).mp he2
        obtain ⟨hvt2, hq2, hk2, hv2⟩ := hwf op2 hop2
        have hvt012 : op2.vtype = 0 ∨ op2.vtype = 1 := by
          rcases hvt2 with h | h
          · exact Or.inl h
          · exact Or.inr h
        have hvlt2 : op2.vtype < 256 := by omega
        have heik2 := entryInternalKey_memEntry op2.seq op2.vtype op2.ukey
          op2.val hk2
        simp only [entryLt, heik2, htgt] at hp2
        rw [icmp_mk_lt_iff _ _ _ _ _ _ hq2 hvlt2 hs hVT] at hp2
        push_neg at hp2
        obtain ⟨hnlt, himp⟩ := hp2
        by_cases hueq : op2.ukey = k
        · have hts := himp hueq
          rw [hVT1] at hts
          have hq2s : op2.seq ≤ s := by omega
          by_cases hmeq : m = op2
          · left
            rw [he, hmeq]
          · right
            have hdd : opDistinct m op2 :=
              hdist.forall opDistinct_symm hm hop2 hmeq
            simp only [opDistinct] at hdd
            have hqne : ¬(op2.seq = m.seq) := by
              intro hEq
              exact hdd ⟨by rw [hmk, hueq], hEq.symm⟩
            have hqlt : op2.seq < m.seq := by
              have := hmax op2 hop2 hueq hq2s
              omega
            simp only [entryLt, heik, heik2]
            rw [icmp_mk_lt_iff _ _ _ _ _ _ hq hvlt hq2 hvlt2]
            right
            refine ⟨by rw [hmk, hueq], by omega⟩
        · right
          simp only [entryLt, heik, heik2]
          rw [icmp_mk_lt_iff _ _ _ _ _ _ hq hvlt hq2 hvlt2]
          left
          have hgt : compareBytes op2.ukey k = .gt := by
            cases hc : compareBytes op2.ukey k with
            | lt => exact absurd hc hnlt
            | eq => exact absurd (compareBytes_eq_iff.mp hc) hueq
            | gt => rfl
          rw [hmk, compareBytes_swap op2.ukey k, hgt]
          rfl
    have hshape : e = encode_varint32 (m.ukey.length + 8) ++
        ((m.ukey ++ encode_fixed64 (pack_sequence_and_type m.seq m.vtype)) ++
          (encode_varint32 m.val.length ++ m.val)) := by
      rw [he]
      simp [memEntry, List.append_assoc]
    simp only [MemTable.get]
    rw [hseek]
    simp only []
    rw [hshape, get_varint32_encode _ hkl]
    simp only []
    have htake : ((m.ukey ++
        encode_fixed64 (pack_sequence_and_type m.seq m.vtype)) ++
          (encode_varint32 m.val.length ++ m.val)).take
        (m.ukey.length + 8 - 8) = m.ukey := by
      simp only [Nat.add_sub_cancel]
      rw [List.append_assoc, List.take_left]
    have hdrop8 : ((m.ukey ++
        encode_fixed64 (pack_sequence_and_type m.seq m.vtype)) ++
          (encode_varint32 m.val.length ++ m.val)).drop
        (m.ukey.length + 8 - 8) =
        encode_fixed64 (pack_sequence_and_type m.seq m.vtype) ++
          (encode_varint32 m.val.length ++ m.val) := by
      simp only [Nat.add_sub_cancel]
      rw [List.append_assoc, List.drop_left]
    have hdropn : ((m.ukey ++
        encode_fixed64 (pack_sequence_and_type m.seq m.vtype)) ++
          (encode_varint32 m.val.length ++ m.val)).drop
        (m.ukey.length + 8) = encode_varint32 m.val.length ++ m.val := by
      rw [List.drop_left' (by simp [encode_fixed64_length])]
    rw [htake, hdrop8, hdropn, hmk, compareBytes_self, if_pos rfl]
    have hpe : pack_sequence_and_type m.seq m.vtype =
        256 * m.seq + m.vtype := pack_sequence_and_type_eq _ _ hq hvlt
    have hplt : pack_sequence_and_type m.seq m.vtype < 2 ^ 64 := by
      rw [hpe]
      exact pack_lt _ _ hq hvlt
    rw [decode_fixed64_bytes_append, decode_encode_fixed64 _ hplt, hpe]
    have hmod : (256 * m.seq + m.vtype) % 256 = m.vtype := by omega
    rw [hmod]
    rcases hvt01 with h0 | h1
    · rw [h0]
      simp [type_value, type_deletion]
    · rw [h1]
      rw [get_varint32_encode _ hvl]
      simp [type_value, List.take_length]
  · intro hnone
    cases hseek : tableSeek (buildTable ops) (LookupKey.memtable_key k s) with
    | none => simp [MemTable.get, hseek]
    | some e2 =>
      have hfind := hseek
      simp only [tableSeek] at hfind
      have hmem := List.mem_of_find?_eq_some hfind
      have hp := List.find?_some hfind
      simp only [decide_eq_true_eq] at hp
      obtain ⟨op2, hop2, rfl⟩ := (buildTable_mem ops _).mp hmem
      obtain ⟨hvt2, hq2, hk2, hv2⟩ := hwf op2 hop2
      have hvt012 : op2.vtype = 0 ∨ op2.vtype = 1 := by
        rcases hvt2 with h | h
        · exact Or.inl h
        · exact Or.inr h
      have hvlt2 : op2.vtype < 256 := by omega
      have heik2 := entryInternalKey_memEntry op2.seq op2.vtype op2.ukey
        op2.val hk2
      rw [heik2, htgt] at hp
      rw [icmp_mk_lt_iff _ _ _ _ _ _ hq2 hvlt2 hs hVT] at hp
      push_neg at hp
      obtain ⟨hnlt, himp⟩ := hp
      have hune : ¬(op2.ukey = k) := by
        intro hueq
        have hts := himp hueq
        rw [hVT1] at hts
        exact hnone op2 hop2 ⟨hueq, by omega⟩
      simp only [MemTable.get]
      rw [hseek]
      simp only []
      have hshape2 : memEntry op2.seq op2.vtype op2.ukey op2.val =
          encode_varint32 (op2.ukey.length + 8) ++
            ((op2.ukey ++
              encode_fixed64 (pack_sequence_and_type op2.seq op2.vtype)) ++
              (encode_varint32 op2.val.length ++ op2.val)) := by
        simp [memEntry, List.append_assoc]
      rw [hshape2, get_varint32_encode _ hk2]
      simp only []
      have htake2 : ((op2.ukey ++
          encode_fixed64 (pack_sequence_and_type op2.seq op2.vtype)) ++
            (encode_varint32 op2.val.length ++ op2.val)).take
          (op2.ukey.length + 8 - 8) = op2.ukey := by
        simp only [Nat.add_sub_cancel]
        rw [List.append_assoc, List.take_left]
      rw [htake2]
      have hcne : ¬(compareBytes op2.ukey k = .eq) := by
        intro hc
        exact hune (compareBytes_eq_iff.mp hc)
      rw [if_neg hcne]

/-- Witness for C8: three adds (a live value, a newer-than-snapshot
value, and another key); the lookup sees the newest entry at or below
its sequence. -/
theorem C8_memtable_get_witness :
    (∀ m ∈ [MemOp.mk 5 1 [97] [120], MemOp.mk 7 0 [97] [],
        MemOp.mk 3 1 [98] [121]], m.ukey = [97] → m.seq ≤ 6 →
      (∀ m2 ∈ [MemOp.mk 5 1 [97] [120], MemOp.mk 7 0 [97] [],
          MemOp.mk 3 1 [98] [121]], m2.ukey = [97] → m2.seq ≤ 6 →
        m2.seq ≤ m.seq) →
      MemTable.get (buildTable [MemOp.mk 5 1 [97] [120],
          MemOp.mk 7 0 [97] [], MemOp.mk 3 1 [98] [121]]) [97] 6 =
        (if m.vtype = type_value then MemGet.found m.val
         else MemGet.deleted)) ∧
    ((∀ m ∈ [MemOp.mk 5 1 [97] [120], MemOp.mk 7 0 [97] [],
        MemOp.mk 3 1 [98] [121]], ¬(m.ukey = [97] ∧ m.seq ≤ 6)) →
      MemTable.get (buildTable [MemOp.mk 5 1 [97] [120],
          MemOp.mk 7 0 [97] [], MemOp.mk 3 1 [98] [121]]) [97] 6 =
        MemGet.missing) :=
  C8_memtable_get [MemOp.mk 5 1 [97] [120], MemOp.mk 7 0 [97] [],
      MemOp.mk 3 1 [98] [121]] [97] 6
    (by decide) (by decide) (by decide) (by decide)

/-! ## SkipList basics (C9) -/

theorem key_after_some_iff {K : Type} [LinearOrder K]
    (s : SkipListState K) (key : K) (t : Nat) :
    key_is_after_node s key (some t) = true ↔
      ∃ nd, s.nodes.get? t = some nd ∧ nd.key < key := by
  cases hg : s.nodes.get? t with
  | none =>
    simp only [key_is_after_node]
    rw [hg]
    simp
  | some nd =>
    simp only [key_is_after_node]
    rw [hg]
    simp

theorem key_after_false_of_some {K : Type} [LinearOrder K]
    {s : SkipListState K} {key : K} {t : Nat} {nd : SLNode K}
    (hg : s.nodes.get? t = some nd)
    (h : key_is_after_node s key (some t) = false) : ¬(nd.key < key) := by
  intro hlt
  rw [show key_is_after_node s key (some t) = true from
    (key_after_some_iff s key t).mpr ⟨nd, hg, hlt⟩] at h
  cases h

theorem random_height_loop_bounds : ∀ (fuel : Nat) (r : Random) (h : Nat),
    MAX_HEIGHT - h ≤ fuel → 1 ≤ h → h ≤ MAX_HEIGHT →
    1 ≤ (random_height_loop r h).1 ∧
      (random_height_loop r h).1 ≤ MAX_HEIGHT := by
  intro fuel
  induction fuel with
  | zero =>
    intro r h hf h1 h2
    rw [random_height_loop, dif_neg (by omega)]
    exact ⟨h1, h2⟩
  | succ fuel ih =>
    intro r h hf h1 h2
    rw [random_height_loop]
    by_cases hlt : h < MAX_HEIGHT
    · rw [dif_pos hlt]
      simp only []
      split_ifs with hd
      · exact ih _ _ (by omega) (by omega) (by omega)
      · exact ⟨h1, le_of_lt hlt⟩
    · rw [dif_neg hlt]
      exact ⟨h1, h2⟩

theorem random_height_bounds (r : Random) :
    1 ≤ (random_height r).1 ∧ (random_height r).1 ≤ MAX_HEIGHT :=
  random_height_loop_bounds MAX_HEIGHT r 1
    (by norm_num [MAX_HEIGHT]) (by norm_num) (by norm_num [MAX_HEIGHT])

theorem setPtr_struct {K : Type} (s : SkipListState K) (x : NodePtr)
    (l : Nat) (tgt : Option Nat) :
    (setPtr s x l tgt).nodes.length = s.nodes.length ∧
    (setPtr s x l tgt).headNext.length = s.headNext.length ∧
    (setPtr s x l tgt).max_height_ = s.max_height_ ∧
    ∀ j, ((setPtr s x l tgt).nodes.get? j).map SLNode.key =
        (s.nodes.get? j).map SLNode.key ∧
      ((setPtr s x l tgt).nodes.get? j).map (fun nd => nd.next_.length) =
        (s.nodes.get? j).map (fun nd => nd.next_.length) := by
  cases x with
  | head =>
    refine ⟨rfl, ?_, rfl, fun j => ⟨rfl, rfl⟩⟩
    show (s.headNext.set l tgt).length = s.headNext.length
    exact List.length_set s.headNext l tgt
  | node i =>
    cases hg : s.nodes.get? i with
    | none =>
      have hs : setPtr s (.node i) l tgt = s := by
        simp only [setPtr]
        rw [hg]
      rw [hs]
      exact ⟨rfl, rfl, rfl, fun j => ⟨rfl, rfl⟩⟩
    | some nd =>
      have hs : setPtr s (.node i) l tgt =
          { s with nodes :=
            s.nodes.set i { nd with next_ := nd.next_.set l tgt } } := by
        simp only [setPtr]
        rw [hg]
      rw [hs]
      refine ⟨List.length_set _ _ _, rfl, rfl, fun j => ?_⟩
      constructor
      · show ((s.nodes.set i { nd with next_ := nd.next_.set l tgt }).get?
            j).map SLNode.key = (s.nodes.get? j).map SLNode.key
        rw [List.get?_set]
        by_cases hj : i = j
        · subst hj
          rw [if_pos rfl, hg]
          rfl
        · rw [if_neg hj]
      · show ((s.nodes.set i { nd with next_ := nd.next_.set l tgt }).get?
            j).map (fun nd2 => nd2.next_.length) =
            (s.nodes.get? j).map (fun nd2 => nd2.next_.length)
        rw [List.get?_set]
        by_cases hj : i = j
        · subst hj
          rw [if_pos rfl, hg]
          show some (nd.next_.set l tgt).length = some nd.next_.length
          rw [List.length_set]
        · rw [if_neg hj]

theorem setPtr_ptrNext {K : Type} (s : SkipListState K) (x : NodePtr)
    (l : Nat) (tgt : Option Nat) (hx : SlotOK s x l) (y : NodePtr)
    (m : Nat) :
    ptrNext (setPtr s x l tgt) y m =
      if y = x ∧ m = l then tgt else ptrNext s y m := by
  cases x with
  | head =>
    have hlt : l < s.headNext.length := hx
    cases y with
    | head =>
      by_cases hm : m = l
      · subst hm
        rw [if_pos ⟨rfl, rfl⟩]
        show (s.headNext.set m tgt).getD m none = tgt
        rw [List.getD_eq_getD_get?, List.get?_set, if_pos rfl,
          List.get?_eq_get hlt]
        rfl
      · rw [if_neg (fun hc => hm hc.2)]
        show (s.headNext.set l tgt).getD m none = s.headNext.getD m none
        rw [List.getD_eq_getD_get?, List.getD_eq_getD_get?, List.get?_set,
          if_neg (by omega)]
    | node j =>
      rw [if_neg (fun hc => by cases hc.1)]
      rfl
  | node i =>
    obtain ⟨nd, hg, hlt⟩ := hx
    have hnodes : (setPtr s (.node i) l tgt).nodes =
        s.nodes.set i { nd with next_ := nd.next_.set l tgt } := by
      simp only [setPtr]
      rw [hg]
    have hhead : (setPtr s (.node i) l tgt).headNext = s.headNext := by
      simp only [setPtr]
      rw [hg]
    cases y with
    | head =>
      rw [if_neg (fun hc => by cases hc.1)]
      show (setPtr s (.node i) l tgt).headNext.getD m none =
        s.headNext.getD m none
      rw [hhead]
    | node j =>
      have hstep : ptrNext (setPtr s (.node i) l tgt) (.node j) m =
          match (s.nodes.set i { nd with next_ := nd.next_.set l tgt }).get?
            j with
          | some nd2 => nd2.next_.getD m none
          | none => none := by
        simp only [ptrNext, hnodes]
      rw [hstep]
      by_cases hij : j = i
      · subst hij
        rw [List.get?_set, if_pos rfl, hg]
        by_cases hm : m = l
        · subst hm
          rw [if_pos ⟨rfl, rfl⟩]
          show (nd.next_.set m tgt).getD m none = tgt
          rw [List.getD_eq_getD_get?, List.get?_set, if_pos rfl,
            List.get?_eq_get hlt]
          rfl
        · rw [if_neg (fun hc => hm hc.2)]
          have hR : ptrNext s (.node j) m = nd.next_.getD m none := by
            simp only [ptrNext]
            rw [hg]
          rw [hR]
          show (nd.next_.set l tgt).getD m none = nd.next_.getD m none
          rw [List.getD_eq_getD_get?, List.getD_eq_getD_get?, List.get?_set,
            if_neg (by omega)]
      · rw [List.get?_set, if_neg (fun hc => hij hc.symm)]
        rw [if_neg (fun hc => by injection hc.1 with h2; exact hij h2)]
        have hR : ptrNext s (.node j) m =
            match s.nodes.get? j with
            | some nd2 => nd2.next_.getD m none
            | none => none := by
          simp only [ptrNext]
        rw [hR]

theorem SlotOK_setPtr {K : Type} (s : SkipListState K) (x : NodePtr)
    (l : Nat) (tgt : Option Nat) (y : NodePtr) (m : Nat)
    (h : SlotOK s y m) : SlotOK (setPtr s x l tgt) y m := by
  obtain ⟨hn, hh, hmx, hfields⟩ := setPtr_struct s x l tgt
  cases y with
  | head =>
    have h2 : m < s.headNext.length := h
    show m < (setPtr s x l tgt).headNext.length
    omega
  | node j =>
    obtain ⟨nd, hg, hlt⟩ := h
    have hfj := (hfields j).2
    rw [hg] at hfj
    cases hg2 : (setPtr s x l tgt).nodes.get? j with
    | none =>
      rw [hg2] at hfj
      cases hfj
    | some nd2 =>
      rw [hg2] at hfj
      have hfj2 : nd2.next_.length = nd.next_.length := by simpa using hfj
      exact ⟨nd2, hg2, by omega⟩

theorem foldl_link_struct {K : Type} (f : Nat → NodePtr) (tgt : Option Nat)
    (L : List Nat) (base : SkipListState K) :
    (L.foldl (fun acc i => setPtr acc (f i) i tgt) base).nodes.length =
        base.nodes.length ∧
    (L.foldl (fun acc i => setPtr acc (f i) i tgt) base).headNext.length =
        base.headNext.length ∧
    (L.foldl (fun acc i => setPtr acc (f i) i tgt) base).max_height_ =
        base.max_height_ ∧
    ∀ j, ((L.foldl (fun acc i => setPtr acc (f i) i tgt) base).nodes.get?
          j).map SLNode.key = (base.nodes.get? j).map SLNode.key ∧
      ((L.foldl (fun acc i => setPtr acc (f i) i tgt) base).nodes.get?
          j).map (fun nd => nd.next_.length) =
        (base.nodes.get? j).map (fun nd => nd.next_.length) := by
  induction L generalizing base with
  | nil => exact ⟨rfl, rfl, rfl, fun j => ⟨rfl, rfl⟩⟩
  | cons l L ih =>
    simp only [List.foldl_cons]
    obtain ⟨h1, h2, h3, h4⟩ := ih (setPtr base (f l) l tgt)
    obtain ⟨g1, g2, g3, g4⟩ := setPtr_struct base (f l) l tgt
    refine ⟨by omega, by omega, by rw [h3, g3], fun j => ?_⟩
    obtain ⟨ha, hb⟩ := h4 j
    obtain ⟨ga, gb⟩ := g4 j
    exact ⟨by rw [ha, ga], by rw [hb, gb]⟩

theorem foldl_link_ptrNext {K : Type} (f : Nat → NodePtr)
    (tgt : Option Nat) (L : List Nat) (base : SkipListState K)
    (hslots : ∀ l ∈ L, SlotOK base (f l) l) (y : NodePtr) (m : Nat) :
    ptrNext (L.foldl (fun acc i => setPtr acc (f i) i tgt) base) y m =
      if m ∈ L ∧ y = f m then tgt else ptrNext base y m := by
  induction L generalizing base with
  | nil => simp
  | cons l L ih =>
    simp only [List.foldl_cons]
    rw [ih (setPtr base (f l) l tgt)
      (fun l2 hl2 => SlotOK_setPtr _ _ _ _ _ _ (hslots l2 (List.mem_cons_of_mem _ hl2)))]
    rw [setPtr_ptrNext base (f l) l tgt (hslots l (List.mem_cons_self _ _))]
    by_cases hA : m ∈ L ∧ y = f m
    · rw [if_pos hA, if_pos ⟨List.mem_cons_of_mem _ hA.1, hA.2⟩]
    · rw [if_neg hA]
      by_cases hB : y = f l ∧ m = l
      · rw [if_pos hB, if_pos ⟨by rw [hB.2]; exact List.mem_cons_self _ _,
          by rw [hB.2]; exact hB.1⟩]
      · rw [if_neg hB, if_neg]
        rintro ⟨hm, hy⟩
        rcases List.mem_cons.mp hm with rfl | hm2
        · exact hB ⟨hy, rfl⟩
        · exact hA ⟨hm2, hy⟩

theorem getD_replicate_self {A : Type} (d : A) :
    ∀ n l, (List.replicate n d).getD l d = d := by
  intro n
  induction n with
  | zero => intro l; rfl
  | succ n ih =>
    intro l
    cases l with
    | zero => rfl
    | succ l2 => exact ih l2

theorem findGE_loop_spec {K : Type} [LinearOrder K] (s : SkipListState K)
    (target : K) (hInv : SLInv s) :
    ∀ (fuel : Nat) (x : NodePtr) (level : Nat) (prev : List NodePtr),
    XOK s target x level → level < MAX_HEIGHT → prev.length = MAX_HEIGHT →
    (∀ l, level < l → l < MAX_HEIGHT →
      PrevOK s target (prev.getD l .head) l) →
    gtCount s x + level + 1 ≤ fuel →
    ∃ r prevF,
      find_greater_or_equal_loop s target fuel x level prev =
          some (r, prevF) ∧
      prevF.length = MAX_HEIGHT ∧
      (∀ l, l < MAX_HEIGHT → PrevOK s target (prevF.getD l .head) l) ∧
      r = ptrNext s (prevF.getD 0 .head) 0 ∧
      key_is_after_node s target r = false := by
  intro fuel
  induction fuel with
  | zero =>
    intro x level prev _ _ _ _ hf
    exact absurd hf (by omega)
  | succ fuel ih =>
    intro x level prev hx hlev hplen hpok hf
    rw [find_greater_or_equal_loop]
    by_cases hafter : key_is_after_node s target (ptrNext s x level) = true
    · rw [if_pos hafter]
      cases hnx : ptrNext s x level with
      | none =>
        rw [hnx] at hafter
        simp [key_is_after_node] at hafter
      | some t =>
        rw [hnx] at hafter
        obtain ⟨ndt, hgdt, hltt⟩ := (key_after_some_iff s target t).mp hafter
        have hxok2 : XOK s target (.node t) level :=
          ⟨ndt, hgdt, hltt, hInv.hlink x level t ndt hnx hgdt⟩
        have h1 : gtCount s (.node t) =
            s.nodes.countP (fun nd2 => decide (ndt.key < nd2.key)) := by
          simp only [gtCount]
          rw [hgdt]
        have hcount : gtCount s (.node t) < gtCount s x := by
          cases x with
          | head =>
            rw [h1]
            have hw := @countP_lt_of_witness (SLNode K)
              (fun nd2 => decide (ndt.key < nd2.key)) (fun _ => true)
              s.nodes (fun a _ _ => rfl) ndt (List.get?_mem hgdt) rfl
              (by simp)
            rw [List.countP_true] at hw
            exact hw
          | node i =>
            obtain ⟨nd, hg, hklt, _⟩ := hx
            have h2 : gtCount s (.node i) =
                s.nodes.countP (fun nd2 => decide (nd.key < nd2.key)) := by
              simp only [gtCount]
              rw [hg]
            rw [h1, h2]
            have hik : nd.key < ndt.key :=
              hInv.hgrow i nd level t ndt hg hnx hgdt
            exact countP_lt_of_witness s.nodes
              (fun a _ ha => by
                simp only [decide_eq_true_eq] at ha ⊢
                exact lt_trans hik ha)
              ndt (List.get?_mem hgdt)
              (by simp only [decide_eq_true_eq]; exact hik)
              (by simp)
        obtain ⟨r, prevF, hrun, hlen2, hpok2, hr, hafter2⟩ :=
          ih (.node t) level prev hxok2 hlev hplen hpok (by omega)
        exact ⟨r, prevF, hrun, hlen2, hpok2, hr, hafter2⟩
    · rw [if_neg hafter]
      have hafterF : key_is_after_node s target (ptrNext s x level) =
          false := by
        cases h : key_is_after_node s target (ptrNext s x level)
        · rfl
        · exact absurd h hafter
      by_cases hlev0 : level = 0
      · subst hlev0
        rw [if_pos rfl]
        have hget0 : (prev.set 0 x).getD 0 .head = x := by
          rw [List.getD_eq_getD_get?, List.get?_set, if_pos rfl,
            List.get?_eq_get (show 0 < prev.length by
              rw [hplen]; norm_num [MAX_HEIGHT])]
          rfl
        refine ⟨ptrNext s x 0, prev.set 0 x, rfl, ?_, ?_, ?_, hafterF⟩
        · rw [List.length_set]
          exact hplen
        · intro l hl
          by_cases hl0 : l = 0
          · subst hl0
            rw [hget0]
            exact ⟨hx, hafterF⟩
          · have heq : (prev.set 0 x).getD l .head = prev.getD l .head := by
              rw [List.getD_eq_getD_get?, List.getD_eq_getD_get?,
                List.get?_set, if_neg (by omega)]
            rw [heq]
            exact hpok l (by omega) hl
        · rw [hget0]
      · rw [if_neg hlev0]
        have hxok2 : XOK s target x (level - 1) := by
          cases x with
          | head => trivial
          | node i =>
            obtain ⟨nd, hg, hk, hh⟩ := hx
            exact ⟨nd, hg, hk, by omega⟩
        have hpok2 : ∀ l, level - 1 < l → l < MAX_HEIGHT →
            PrevOK s target ((prev.set level x).getD l .head) l := by
          intro l hl1 hl2
          by_cases hll : l = level
          · subst hll
            have heq : (prev.set l x).getD l .head = x := by
              rw [List.getD_eq_getD_get?, List.get?_set, if_pos rfl,
                List.get?_eq_get (show l < prev.length by
                  rw [hplen]; exact hlev)]
              rfl
            rw [heq]
            exact ⟨hx, hafterF⟩
          · have heq : (prev.set level x).getD l .head =
                prev.getD l .head := by
              rw [List.getD_eq_getD_get?, List.getD_eq_getD_get?,
                List.get?_set, if_neg (by omega)]
            rw [heq]
            exact hpok l (by omega) hl2
        obtain ⟨r, prevF, hrun, hlen2, hpok3, hr, hafter2⟩ :=
          ih x (level - 1) (prev.set level x) hxok2 (by omega)
            (by rw [List.length_set]; exact hplen) hpok2 (by omega)
        exact ⟨r, prevF, hrun, hlen2, hpok3, hr, hafter2⟩

theorem find_greater_or_equal_spec {K : Type} [LinearOrder K]
    (s : SkipListState K) (target : K) (hInv : SLInv s) :
    ∃ r prevF, find_greater_or_equal s target = some (r, prevF) ∧
      prevF.length = MAX_HEIGHT ∧
      (∀ l, l < MAX_HEIGHT → PrevOK s target (prevF.getD l .head) l) ∧
      r = ptrNext s (prevF.getD 0 .head) 0 ∧
      key_is_after_node s target r = false := by
  have h1 := hInv.hmax1
  have h12 := hInv.hmax12
  have h12n : s.max_height_ ≤ 12 := by
    simpa [MAX_HEIGHT] using h12
  simp only [find_greater_or_equal]
  apply findGE_loop_spec s target hInv
  · trivial
  · simp only [MAX_HEIGHT]
    omega
  · simp
  · intro l hl1 hl2
    rw [getD_replicate_self]
    refine ⟨trivial, ?_⟩
    rw [hInv.hhigh l (by omega)]
    rfl
  · show s.nodes.length + (s.max_height_ - 1) + 1 ≤ s.nodes.length + 13
    omega

theorem get?_some_lt {A : Type} {l : List A} {i : Nat} {a : A}
    (h : l.get? i = some a) : i < l.length := by
  by_contra hc
  rw [List.get?_eq_none.mpr (by omega)] at h
  cases h

theorem range_map_getD {A : Type} (n : Nat) (g : Nat → A) (m : Nat)
    (d : A) :
    ((List.range n).map g).getD m d = if m < n then g m else d := by
  rw [List.getD_eq_getD_get?, List.get?_map]
  by_cases h : m < n
  · rw [List.get?_range h, if_pos h]
    rfl
  · rw [List.get?_eq_none.mpr (by rw [List.length_range]; omega), if_neg h]
    rfl

theorem foldl_condSet_length {A : Type} (v : A) (cond : Nat → Prop)
    [DecidablePred cond] :
    ∀ (L : List Nat) (p : List A),
    (L.foldl (fun q i => if cond i then q.set i v else q) p).length =
      p.length := by
  intro L
  induction L with
  | nil => intro p; rfl
  | cons a L ih =>
    intro p
    rw [List.foldl_cons, ih]
    split_ifs
    · exact List.length_set p a v
    · rfl

theorem foldl_condSet_get? {A : Type} (v : A) (cond : Nat → Prop)
    [DecidablePred cond] :
    ∀ (L : List Nat) (p : List A) (l : Nat),
    (L.foldl (fun q i => if cond i then q.set i v else q) p).get? l =
      if l ∈ L ∧ cond l ∧ l < p.length then some v else p.get? l := by
  intro L
  induction L with
  | nil =>
    intro p l
    rw [List.foldl_nil, if_neg (fun h => (List.not_mem_nil l) h.1)]
  | cons a L ih =>
    intro p l
    rw [List.foldl_cons, ih]
    have hlen : (if cond a then p.set a v else p).length = p.length := by
      split_ifs
      · exact List.length_set p a v
      · rfl
    by_cases h1 : l ∈ L ∧ cond l ∧ l < p.length
    · rw [if_pos (by rw [hlen]; exact h1),
        if_pos ⟨List.mem_cons_of_mem a h1.1, h1.2⟩]
    · rw [if_neg (by rw [hlen]; exact h1)]
      by_cases hca : cond a
      · rw [if_pos hca, List.get?_set]
        by_cases h2 : a = l
        · subst h2
          by_cases h3 : a < p.length
          · rw [if_pos rfl, List.get?_eq_get h3,
              if_pos ⟨List.mem_cons_self a L, hca, h3⟩]
            rfl
          · rw [if_pos rfl, List.get?_eq_none.mpr (by omega),
              if_neg (fun hc => h3 hc.2.2)]
            rfl
        · have hneg : ¬(l ∈ a :: L ∧ cond l ∧ l < p.length) := by
            rintro ⟨hmem, hcl, hlp⟩
            rcases List.mem_cons.mp hmem with h | h
            · exact h2 h.symm
            · exact h1 ⟨h, hcl, hlp⟩
          rw [if_neg h2, if_neg hneg]
      · have hneg : ¬(l ∈ a :: L ∧ cond l ∧ l < p.length) := by
          rintro ⟨hmem, hcl, hlp⟩
          rcases List.mem_cons.mp hmem with h | h
          · exact hca (h ▸ hcl)
          · exact h1 ⟨h, hcl, hlp⟩
        rw [if_neg hca, if_neg hneg]

theorem insPrev2_length {K : Type} (s : SkipListState K)
    (prevF : List NodePtr) : (insPrev2 s prevF).length = prevF.length :=
  foldl_condSet_length NodePtr.head
    (fun i => s.max_height_ ≤ i ∧ i < insH s) (List.range MAX_HEIGHT) prevF

theorem insPrev2_get? {K : Type} (s : SkipListState K)
    (prevF : List NodePtr) (l : Nat) :
    (insPrev2 s prevF).get? l =
      if l ∈ List.range MAX_HEIGHT ∧ (s.max_height_ ≤ l ∧ l < insH s) ∧
          l < prevF.length
      then some NodePtr.head else prevF.get? l :=
  foldl_condSet_get? NodePtr.head
    (fun i => s.max_height_ ≤ i ∧ i < insH s) (List.range MAX_HEIGHT)
    prevF l

theorem insPrev2_getD {K : Type} (s : SkipListState K)
    (prevF : List NodePtr) (hlenF : prevF.length = MAX_HEIGHT) (l : Nat)
    (hl : l < MAX_HEIGHT) :
    (insPrev2 s prevF).getD l .head =
      if s.max_height_ ≤ l ∧ l < insH s then NodePtr.head
      else prevF.getD l NodePtr.head := by
  rw [List.getD_eq_getD_get?, List.getD_eq_getD_get?, insPrev2_get?]
  by_cases hc : s.max_height_ ≤ l ∧ l < insH s
  · rw [if_pos ⟨List.mem_range.mpr hl, hc, by omega⟩, if_pos hc]
    rfl
  · rw [if_neg (fun h => hc h.2.1), if_neg hc]

theorem insert_eq {K : Type} [LinearOrder K] (s : SkipListState K)
    (key : K) {r : Option Nat} {prevF : List NodePtr}
    (hrun : find_greater_or_equal s key = some (r, prevF)) :
    SkipList.insert s key = insResult s key prevF := by
  simp only [SkipList.insert]
  rw [hrun]
  rfl

theorem SLInv_new (K : Type) [LinearOrder K] : SLInv (SkipList.new K) :=
  { hlen := by simp [SkipList.new]
    hmax1 := le_refl 1
    hmax12 := by
      show (1 : Nat) ≤ MAX_HEIGHT
      norm_num [MAX_HEIGHT]
    hhigh := fun j _ => getD_replicate_self none MAX_HEIGHT j
    hheight := fun i nd hg => Option.noConfusion hg
    hvalid := by
      intro x j t h
      cases x with
      | head =>
        exact Option.noConfusion
          ((getD_replicate_self none MAX_HEIGHT j).symm.trans h)
      | node i => exact Option.noConfusion h
    hgrow := fun i nd j t ndt hg _ _ => Option.noConfusion hg
    hlink := fun x j t ndt _ hg => Option.noConfusion hg
    hnodup := List.nodup_nil
    hsh0 := fun _ => rfl
    hsh1 := fun t ndt h => Option.noConfusion h
    hsn0 := fun i nd hg _ => Option.noConfusion hg
    hsn1 := fun i nd t ndt hg _ _ => Option.noConfusion hg }

theorem skiplist_contains_iff {K : Type} [LinearOrder K]
    (s : SkipListState K) (hInv : SLInv s) (key : K) :
    SkipList.contains s key = true ↔ ∃ nd ∈ s.nodes, nd.key = key := by
  obtain ⟨r, prevF, hrun, hlenF, hpok, hr, hafterF⟩ :=
    find_greater_or_equal_spec s key hInv
  cases r with
  | none =>
    have hC : SkipList.contains s key = false := by
      simp only [SkipList.contains]
      rw [hrun]
    rw [hC]
    constructor
    · intro h
      exact absurd h (by simp)
    · rintro ⟨nd2, hmem, hkey⟩
      exfalso
      have hnone : ptrNext s (prevF.getD 0 .head) 0 = none := hr.symm
      cases hx0 : prevF.getD 0 NodePtr.head with
      | head =>
        rw [hx0] at hnone
        rw [hInv.hsh0 hnone] at hmem
        cases hmem
      | node i =>
        rw [hx0] at hnone
        have hxok := (hpok 0 (by decide)).1
        rw [hx0] at hxok
        obtain ⟨nd, hg, hklt, _⟩ := hxok
        exact hInv.hsn0 i nd hg hnone nd2 hmem (by rw [hkey]; exact hklt)
  | some t =>
    have hsome : ptrNext s (prevF.getD 0 .head) 0 = some t := hr.symm
    have hlt : t < s.nodes.length := hInv.hvalid _ 0 t hsome
    obtain ⟨ndt, hgt⟩ : ∃ nd, s.nodes.get? t = some nd := by
      rw [List.get?_eq_get hlt]
      exact ⟨_, rfl⟩
    have hC : SkipList.contains s key = decide (ndt.key = key) := by
      simp only [SkipList.contains]
      rw [hrun]
      show (match s.nodes.get? t with
        | some nd => decide (nd.key = key)
        | _ => false) = decide (ndt.key = key)
      rw [hgt]
    rw [hC]
    have hntlt : ¬(ndt.key < key) := key_after_false_of_some hgt hafterF
    constructor
    · intro h
      exact ⟨ndt, List.get?_mem hgt, of_decide_eq_true h⟩
    · rintro ⟨nd2, hmem, hkey⟩
      have hklt2 : ¬(key < ndt.key) := by
        cases hx0 : prevF.getD 0 NodePtr.head with
        | head =>
          rw [hx0] at hsome
          have h2 := hInv.hsh1 t ndt hsome hgt nd2 hmem
          rw [hkey] at h2
          exact h2
        | node i =>
          rw [hx0] at hsome
          have hxok := (hpok 0 (by decide)).1
          rw [hx0] at hxok
          obtain ⟨nd, hg, hklt, _⟩ := hxok
          have h2 := hInv.hsn1 i nd t ndt hg hsome hgt nd2 hmem
            (by rw [hkey]; exact hklt)
          rw [hkey] at h2
          exact h2
      exact decide_eq_true
        (le_antisymm (not_lt.mp hklt2) (not_lt.mp hntlt))

theorem splice_upper {K : Type} [LinearOrder K] {s : SkipListState K}
    (hInv : SLInv s) {key : K} {x0 : NodePtr}
    (hok : PrevOK s key x0 0) :
    ∀ nd2 ∈ s.nodes, nd2.key < key →
      ∃ i ndi, x0 = NodePtr.node i ∧ s.nodes.get? i = some ndi ∧
        ¬(ndi.key < nd2.key) := by
  intro nd2 hm2 hlt2
  obtain ⟨hx, haf⟩ := hok
  cases x0 with
  | head =>
    exfalso
    cases hps : ptrNext s .head 0 with
    | none =>
      have hemp := hInv.hsh0 hps
      rw [hemp] at hm2
      cases hm2
    | some m0 =>
      have hm0lt : m0 < s.nodes.length := hInv.hvalid _ 0 m0 hps
      obtain ⟨ndm0, hgm0⟩ : ∃ nd, s.nodes.get? m0 = some nd := by
        rw [List.get?_eq_get hm0lt]
        exact ⟨_, rfl⟩
      rw [hps] at haf
      have h1 : ¬(ndm0.key < key) := key_after_false_of_some hgm0 haf
      have h2 := hInv.hsh1 m0 ndm0 hps hgm0 nd2 hm2
      exact absurd hlt2
        (not_lt.mpr (le_trans (not_lt.mp h1) (not_lt.mp h2)))
  | node i =>
    obtain ⟨ndi, hgi, hki, _⟩ := hx
    refine ⟨i, ndi, rfl, hgi, ?_⟩
    intro hlt
    cases hps : ptrNext s (.node i) 0 with
    | none =>
      exact hInv.hsn0 i ndi hgi hps nd2 hm2 hlt
    | some t0 =>
      have ht0lt := hInv.hvalid _ 0 t0 hps
      obtain ⟨ndt0, hgt0⟩ : ∃ nd, s.nodes.get? t0 = some nd := by
        rw [List.get?_eq_get ht0lt]
        exact ⟨_, rfl⟩
      rw [hps] at haf
      have h1 : ¬(ndt0.key < key) := key_after_false_of_some hgt0 haf
      have h2 := hInv.hsn1 i ndi t0 ndt0 hgi hps hgt0 nd2 hm2 hlt
      exact h1 (lt_of_le_of_lt (not_lt.mp h2) hlt2)

theorem splice_min {K : Type} [LinearOrder K] {s : SkipListState K}
    (hInv : SLInv s) {key : K} {x0 : NodePtr}
    (hok : PrevOK s key x0 0) {t : Nat} {ndt : SLNode K}
    (hps : ptrNext s x0 0 = some t) (hgt : s.nodes.get? t = some ndt) :
    ∀ nd2 ∈ s.nodes, key < nd2.key → ¬(nd2.key < ndt.key) := by
  intro nd2 hm2 hgt2
  obtain ⟨hx, haf⟩ := hok
  cases x0 with
  | head => exact hInv.hsh1 t ndt hps hgt nd2 hm2
  | node i =>
    obtain ⟨ndi, hgi, hki, _⟩ := hx
    exact hInv.hsn1 i ndi t ndt hgi hps hgt nd2 hm2 (lt_trans hki hgt2)

theorem insert_spec {K : Type} [LinearOrder K] (s : SkipListState K)
    (hInv : SLInv s) (key : K)
    (hfresh : ∀ nd ∈ s.nodes, nd.key ≠ key) :
    SLInv (SkipList.insert s key) ∧
    (SkipList.insert s key).nodes.map SLNode.key =
      s.nodes.map SLNode.key ++ [key] := by
  obtain ⟨r, prevF, hrun, hlenF, hpok, hr, hafterF⟩ :=
    find_greater_or_equal_spec s key hInv
  rw [insert_eq s key hrun]
  have hH1 : 1 ≤ insH s := (random_height_bounds s.rnd_).1
  have hH12 : insH s ≤ MAX_HEIGHT := (random_height_bounds s.rnd_).2
  have hM1 := hInv.hmax1
  have hM12 := hInv.hmax12
  have hP2 : ∀ l, l < MAX_HEIGHT → (insPrev2 s prevF).getD l .head =
      if s.max_height_ ≤ l ∧ l < insH s then NodePtr.head
      else prevF.getD l NodePtr.head := insPrev2_getD s prevF hlenF
  have hP20 : (insPrev2 s prevF).getD 0 .head =
      prevF.getD 0 NodePtr.head := by
    rw [hP2 0 (by decide), if_neg (by omega)]
  have hPOK2 : ∀ l, l < MAX_HEIGHT →
      PrevOK s key ((insPrev2 s prevF).getD l .head) l := by
    intro l hl
    rw [hP2 l hl]
    by_cases hc : s.max_height_ ≤ l ∧ l < insH s
    · rw [if_pos hc]
      refine ⟨trivial, ?_⟩
      rw [hInv.hhigh l hc.1]
      rfl
    · rw [if_neg hc]
      exact hpok l hl
  have hS1nodes : (insS1 s key prevF).nodes = s.nodes ++
      [{ key := key,
         next_ := (List.range (insH s)).map
           (fun i => ptrNext s ((insPrev2 s prevF).getD i .head) i) }] := rfl
  have hS1len : (insS1 s key prevF).nodes.length =
      s.nodes.length + 1 := by
    rw [hS1nodes, List.length_append]
    rfl
  have hS1max : (insS1 s key prevF).max_height_ =
      if s.max_height_ < insH s then insH s else s.max_height_ := rfl
  have hS1get_old : ∀ j nd, s.nodes.get? j = some nd →
      (insS1 s key prevF).nodes.get? j = some nd := by
    intro j nd hg
    rw [hS1nodes, List.get?_append (get?_some_lt hg)]
    exact hg
  have hS1get_new : (insS1 s key prevF).nodes.get? s.nodes.length =
      some { key := key,
             next_ := (List.range (insH s)).map
               (fun i => ptrNext s ((insPrev2 s prevF).getD i .head) i) }
      := by
    rw [hS1nodes]
    exact List.get?_concat_length s.nodes _
  have hS1get_hi : ∀ j, s.nodes.length + 1 ≤ j →
      (insS1 s key prevF).nodes.get? j = none := by
    intro j hj
    rw [List.get?_eq_none.mpr (by rw [hS1len]; omega)]
  have hS1get_oldr : ∀ j nd, j < s.nodes.length →
      (insS1 s key prevF).nodes.get? j = some nd →
      s.nodes.get? j = some nd := by
    intro j nd hj hg
    rw [hS1nodes, List.get?_append hj] at hg
    exact hg
  have hptr1_head : ∀ m, ptrNext (insS1 s key prevF) .head m =
      ptrNext s .head m := fun m => rfl
  have hptr1_old : ∀ j nd m, s.nodes.get? j = some nd →
      ptrNext (insS1 s key prevF) (.node j) m =
        ptrNext s (.node j) m := by
    intro j nd m hg
    simp only [ptrNext]
    rw [hS1get_old j nd hg, hg]
  have hptr1_new : ∀ m, ptrNext (insS1 s key prevF)
        (.node s.nodes.length) m =
      if m < insH s
      then ptrNext s ((insPrev2 s prevF).getD m .head) m else none := by
    intro m
    simp only [ptrNext]
    rw [hS1get_new]
    exact range_map_getD (insH s) _ m none
  have hptr1_hi : ∀ j m, s.nodes.length + 1 ≤ j →
      ptrNext (insS1 s key prevF) (.node j) m = none := by
    intro j m hj
    simp only [ptrNext]
    rw [hS1get_hi j hj]
  have hslots : ∀ l ∈ List.range (insH s),
      SlotOK (insS1 s key prevF) ((insPrev2 s prevF).getD l .head) l := by
    intro l hl
    have hlH := List.mem_range.mp hl
    have hok := hPOK2 l (by omega)
    cases hx : (insPrev2 s prevF).getD l .head with
    | head =>
      show l < (insS1 s key prevF).headNext.length
      have hh : (insS1 s key prevF).headNext = s.headNext := rfl
      rw [hh, hInv.hlen]
      omega
    | node j =>
      rw [hx] at hok
      obtain ⟨nd, hg, _, hlt⟩ := hok.1
      exact ⟨nd, hS1get_old j nd hg, hlt⟩
  have hres : ∀ y m, ptrNext (insResult s key prevF) y m =
      if m < insH s ∧ y = (insPrev2 s prevF).getD m .head
      then some s.nodes.length
      else ptrNext (insS1 s key prevF) y m := by
    intro y m
    have h0 := foldl_link_ptrNext
      (fun i => (insPrev2 s prevF).getD i .head) (some s.nodes.length)
      (List.range (insH s)) (insS1 s key prevF) hslots y m
    by_cases hc : m < insH s ∧ y = (insPrev2 s prevF).getD m .head
    · rw [if_pos hc]
      rw [if_pos ⟨List.mem_range.mpr hc.1, hc.2⟩] at h0
      exact h0
    · rw [if_neg hc]
      rw [if_neg (fun h => hc ⟨List.mem_range.mp h.1, h.2⟩)] at h0
      exact h0
  obtain ⟨hRlen, hRhlen, hRmax, hRfields⟩ :=
    foldl_link_struct (fun i => (insPrev2 s prevF).getD i .head)
      (some s.nodes.length) (List.range (insH s)) (insS1 s key prevF)
  have hRlen2 : (insResult s key prevF).nodes.length =
      (insS1 s key prevF).nodes.length := hRlen
  have hRhlen2 : (insResult s key prevF).headNext.length =
      (insS1 s key prevF).headNext.length := hRhlen
  have hRmax2 : (insResult s key prevF).max_height_ =
      (insS1 s key prevF).max_height_ := hRmax
  have hRkey : ∀ j, ((insResult s key prevF).nodes.get? j).map
        SLNode.key =
      ((insS1 s key prevF).nodes.get? j).map SLNode.key :=
    fun j => (hRfields j).1
  have hRnl : ∀ j, ((insResult s key prevF).nodes.get? j).map
        (fun nd => nd.next_.length) =
      ((insS1 s key prevF).nodes.get? j).map
        (fun nd => nd.next_.length) :=
    fun j => (hRfields j).2
  have hRget : ∀ j nd2, (insResult s key prevF).nodes.get? j = some nd2 →
      ∃ nd, (insS1 s key prevF).nodes.get? j = some nd ∧
        nd2.key = nd.key ∧ nd2.next_.length = nd.next_.length := by
    intro j nd2 hg
    have h1 := hRkey j
    have h2 := hRnl j
    rw [hg] at h1 h2
    cases hg2 : (insS1 s key prevF).nodes.get? j with
    | none =>
      rw [hg2] at h1
      simp at h1
    | some nd =>
      rw [hg2] at h1 h2
      exact ⟨nd, rfl, by simpa using h1, by simpa using h2⟩
  have hkeys : (insResult s key prevF).nodes.map SLNode.key =
      s.nodes.map SLNode.key ++ [key] := by
    apply List.ext_get?
    intro n
    rw [List.get?_map, hRkey n, ← List.get?_map, hS1nodes,
      List.map_append]
    rfl
  have hmem_char : ∀ nd2 ∈ (insResult s key prevF).nodes,
      nd2.key = key ∨ ∃ ndo ∈ s.nodes, ndo.key = nd2.key := by
    intro nd2 hm
    have h1 : nd2.key ∈ (insResult s key prevF).nodes.map SLNode.key :=
      List.mem_map_of_mem _ hm
    rw [hkeys] at h1
    rcases List.mem_append.mp h1 with h | h
    · right
      obtain ⟨ndo, hmo, heq⟩ := List.mem_map.mp h
      exact ⟨ndo, hmo, heq⟩
    · left
      simpa using h
  have hkey_inj : ∀ a b nda ndb, s.nodes.get? a = some nda →
      s.nodes.get? b = some ndb → nda.key = ndb.key → a = b := by
    intro a b nda ndb hga hgb hk
    have h1 : (s.nodes.map SLNode.key).get? a = some nda.key := by
      rw [List.get?_map, hga]
      rfl
    have h2 : (s.nodes.map SLNode.key).get? b = some ndb.key := by
      rw [List.get?_map, hgb]
      rfl
    refine List.get?_inj ?_ hInv.hnodup ?_
    · rw [List.length_map]
      exact get?_some_lt hga
    · rw [h1, h2, hk]
  have hx0ok : PrevOK s key (prevF.getD 0 NodePtr.head) 0 :=
    hpok 0 (by decide)
  refine ⟨⟨?_, ?_, ?_, ?_, ?_, ?_, ?_, ?_, ?_, ?_, ?_, ?_, ?_⟩, hkeys⟩
  · rw [hRhlen2]
    show s.headNext.length = MAX_HEIGHT
    exact hInv.hlen
  · rw [hRmax2, hS1max]
    split_ifs <;> omega
  · rw [hRmax2, hS1max]
    split_ifs <;> omega
  · intro j hj
    rw [hRmax2, hS1max] at hj
    have hjH : insH s ≤ j := by split_ifs at hj <;> omega
    have hjM : s.max_height_ ≤ j := by split_ifs at hj <;> omega
    rw [hres .head j, if_neg (fun hc => absurd hc.1 (by omega)),
      hptr1_head j]
    exact hInv.hhigh j hjM
  · intro i nd2 hg2
    obtain ⟨nd, hg1, hk, hnl⟩ := hRget i nd2 hg2
    rw [hRmax2, hS1max]
    rcases Nat.lt_trichotomy i s.nodes.length with hi | hi | hi
    · have hgold := hS1get_oldr i nd hi hg1
      have hh := hInv.hheight i nd hgold
      rw [hnl]
      split_ifs <;> omega
    · subst hi
      have hnd := Option.some.inj (hg1.symm.trans hS1get_new)
      have hlen2 : nd2.next_.length = insH s := by
        rw [hnl, hnd]
        simp
      rw [hlen2]
      refine ⟨hH1, ?_⟩
      split_ifs <;> omega
    · rw [hS1get_hi i (by omega)] at hg1
      cases hg1
  · intro x j t h
    rw [hres x j] at h
    by_cases hc : j < insH s ∧ x = (insPrev2 s prevF).getD j .head
    · rw [if_pos hc] at h
      have ht := Option.some.inj h
      rw [hRlen2, hS1len]
      omega
    · rw [if_neg hc] at h
      have hb : t < s.nodes.length := by
        cases x with
        | head =>
          rw [hptr1_head j] at h
          exact hInv.hvalid _ j t h
        | node i =>
          rcases Nat.lt_trichotomy i s.nodes.length with hi | hi | hi
          · obtain ⟨nd, hg⟩ : ∃ nd, s.nodes.get? i = some nd := by
              rw [List.get?_eq_get hi]
              exact ⟨_, rfl⟩
            rw [hptr1_old i nd j hg] at h
            exact hInv.hvalid _ j t h
          · subst hi
            rw [hptr1_new j] at h
            split_ifs at h with hjH
            exact hInv.hvalid _ j t h
          · rw [hptr1_hi i j (by omega)] at h
            cases h
      rw [hRlen2, hS1len]
      omega
  · intro i nd2 j t ndt2 hgi2 hptr hgt2
    obtain ⟨ndiS, hgi1, hki, _⟩ := hRget i nd2 hgi2
    obtain ⟨ndtS, hgt1, hkt, _⟩ := hRget t ndt2 hgt2
    rw [hki, hkt]
    rw [hres (NodePtr.node i) j] at hptr
    by_cases hc : j < insH s ∧
        NodePtr.node i = (insPrev2 s prevF).getD j .head
    · rw [if_pos hc] at hptr
      have ht := (Option.some.inj hptr).symm
      subst ht
      have hndt := Option.some.inj (hgt1.symm.trans hS1get_new)
      have hok := hPOK2 j (by omega)
      rw [← hc.2] at hok
      obtain ⟨ndo, hgo, hko, _⟩ := hok.1
      have hio : ndiS = ndo := by
        have h3 := hS1get_old i ndo hgo
        exact Option.some.inj (hgi1.symm.trans h3)
      rw [hio, hndt]
      exact hko
    · rw [if_neg hc] at hptr
      rcases Nat.lt_trichotomy i s.nodes.length with hi | hi | hi
      · have hgold := hS1get_oldr i ndiS hi hgi1
        rw [hptr1_old i ndiS j hgold] at hptr
        have htl := hInv.hvalid _ j t hptr
        have hgtold := hS1get_oldr t ndtS htl hgt1
        exact hInv.hgrow i ndiS j t ndtS hgold hptr hgtold
      · subst hi
        have hndi := Option.some.inj (hgi1.symm.trans hS1get_new)
        rw [hptr1_new j] at hptr
        split_ifs at hptr with hjH
        · have htl := hInv.hvalid _ j t hptr
          have hgtold := hS1get_oldr t ndtS htl hgt1
          have hok := hPOK2 j (by omega)
          have hnltk : ¬(ndtS.key < key) := by
            have haf2 := hok.2
            rw [hptr] at haf2
            exact key_after_false_of_some hgtold haf2
          have hne : ndtS.key ≠ key := hfresh ndtS (List.get?_mem hgtold)
          rw [hndi]
          exact lt_of_le_of_ne (not_lt.mp hnltk) (Ne.symm hne)
      · rw [hS1get_hi i (by omega)] at hgi1
        cases hgi1
  · intro x j t ndt2 hptr hgt2
    obtain ⟨ndtS, hgt1, _, hnlt⟩ := hRget t ndt2 hgt2
    rw [hnlt]
    rw [hres x j] at hptr
    by_cases hc : j < insH s ∧ x = (insPrev2 s prevF).getD j .head
    · rw [if_pos hc] at hptr
      have ht := (Option.some.inj hptr).symm
      subst ht
      have hndt := Option.some.inj (hgt1.symm.trans hS1get_new)
      rw [hndt]
      simpa using hc.1
    · rw [if_neg hc] at hptr
      cases x with
      | head =>
        rw [hptr1_head j] at hptr
        have htl := hInv.hvalid _ j t hptr
        have hgtold := hS1get_oldr t ndtS htl hgt1
        exact hInv.hlink _ j t ndtS hptr hgtold
      | node i =>
        rcases Nat.lt_trichotomy i s.nodes.length with hi | hi | hi
        · obtain ⟨nd, hg⟩ : ∃ nd, s.nodes.get? i = some nd := by
            rw [List.get?_eq_get hi]
            exact ⟨_, rfl⟩
          rw [hptr1_old i nd j hg] at hptr
          have htl := hInv.hvalid _ j t hptr
          have hgtold := hS1get_oldr t ndtS htl hgt1
          exact hInv.hlink _ j t ndtS hptr hgtold
        · subst hi
          rw [hptr1_new j] at hptr
          split_ifs at hptr with hjH
          have htl := hInv.hvalid _ j t hptr
          have hgtold := hS1get_oldr t ndtS htl hgt1
          exact hInv.hlink _ j t ndtS hptr hgtold
        · rw [hptr1_hi i j (by omega)] at hptr
          cases hptr
  · rw [hkeys, List.nodup_append]
    refine ⟨hInv.hnodup, List.nodup_singleton key, ?_⟩
    intro a ha hb
    rw [List.mem_singleton] at hb
    subst hb
    obtain ⟨ndo, hmo, heq⟩ := List.mem_map.mp ha
    exact hfresh ndo hmo heq
  · intro h0
    exfalso
    rw [hres .head 0] at h0
    by_cases hc : 0 < insH s ∧
        NodePtr.head = (insPrev2 s prevF).getD 0 .head
    · rw [if_pos hc] at h0
      cases h0
    · rw [if_neg hc] at h0
      rw [hptr1_head 0] at h0
      have hemp := hInv.hsh0 h0
      cases hx0 : prevF.getD 0 NodePtr.head with
      | head =>
        exact hc ⟨by omega, by rw [hP20, hx0]⟩
      | node i =>
        have hxok := hx0ok.1
        rw [hx0] at hxok
        obtain ⟨nd, hg, _, _⟩ := hxok
        rw [hemp] at hg
        exact Option.noConfusion hg
  · intro t ndt2 hptr hgt2 nd2 hm2 hlt2
    obtain ⟨ndtS, hgt1, hkt, _⟩ := hRget t ndt2 hgt2
    rw [hkt] at hlt2
    rw [hres .head 0] at hptr
    by_cases hc : 0 < insH s ∧
        NodePtr.head = (insPrev2 s prevF).getD 0 .head
    · rw [if_pos hc] at hptr
      have ht := (Option.some.inj hptr).symm
      subst ht
      have hndt := Option.some.inj (hgt1.symm.trans hS1get_new)
      rw [hndt] at hlt2
      have hlt3 : nd2.key < key := hlt2
      have hx0h : prevF.getD 0 NodePtr.head = NodePtr.head := by
        rw [hP20] at hc
        exact hc.2.symm
      rcases hmem_char nd2 hm2 with hk2 | ⟨ndo2, hmo2, hko2⟩
      · rw [hk2] at hlt3
        exact lt_irrefl _ hlt3
      · obtain ⟨i2, ndi2, hx0eq, _, _⟩ :=
          splice_upper hInv hx0ok ndo2 hmo2 (by rw [hko2]; exact hlt3)
        rw [hx0h] at hx0eq
        exact NodePtr.noConfusion hx0eq
    · rw [if_neg hc] at hptr
      rw [hptr1_head 0] at hptr
      have htl := hInv.hvalid _ 0 t hptr
      have hgtold := hS1get_oldr t ndtS htl hgt1
      rcases hmem_char nd2 hm2 with hk2 | ⟨ndo2, hmo2, hko2⟩
      · rw [hk2] at hlt2
        have hx0n : ∃ i, prevF.getD 0 NodePtr.head = NodePtr.node i := by
          cases hx0 : prevF.getD 0 NodePtr.head with
          | head =>
            exfalso
            exact hc ⟨by omega, by rw [hP20, hx0]⟩
          | node i => exact ⟨i, rfl⟩
        obtain ⟨i, hx0⟩ := hx0n
        have hxok := hx0ok.1
        rw [hx0] at hxok
        obtain ⟨ndi, hgi, hki2, _⟩ := hxok
        have h2 := hInv.hsh1 t ndtS hptr hgtold ndi (List.get?_mem hgi)
        exact h2 (lt_trans hki2 hlt2)
      · have h2 := hInv.hsh1 t ndtS hptr hgtold ndo2 hmo2
        rw [hko2] at h2
        exact h2 hlt2
  · intro i nd2i hgi2 hptr0 nd2 hm2 hlt2
    obtain ⟨ndiS, hgi1, hki, _⟩ := hRget i nd2i hgi2
    rw [hki] at hlt2
    rw [hres (NodePtr.node i) 0] at hptr0
    by_cases hc : 0 < insH s ∧
        NodePtr.node i = (insPrev2 s prevF).getD 0 .head
    · rw [if_pos hc] at hptr0
      cases hptr0
    · rw [if_neg hc] at hptr0
      have hiP2 : NodePtr.node i ≠ prevF.getD 0 NodePtr.head := by
        intro he
        exact hc ⟨by omega, by rw [hP20]; exact he⟩
      rcases Nat.lt_trichotomy i s.nodes.length with hi2 | hi2 | hi2
      · have hgold := hS1get_oldr i ndiS hi2 hgi1
        rw [hptr1_old i ndiS 0 hgold] at hptr0
        have hmax0 := hInv.hsn0 i ndiS hgold hptr0
        rcases hmem_char nd2 hm2 with hk2 | ⟨ndo2, hmo2, hko2⟩
        · rw [hk2] at hlt2
          obtain ⟨j2, ndj, hx0eq, hgj, hle⟩ :=
            splice_upper hInv hx0ok ndiS (List.get?_mem hgold) hlt2
          have hij : i ≠ j2 := by
            intro he
            rw [← he] at hx0eq
            exact hiP2 hx0eq.symm
          have hle2 := hmax0 ndj (List.get?_mem hgj)
          have hkeq : ndiS.key = ndj.key :=
            le_antisymm (not_lt.mp hle) (not_lt.mp hle2)
          exact hij (hkey_inj i j2 ndiS ndj hgold hgj hkeq)
        · have h2 := hmax0 ndo2 hmo2
          rw [hko2] at h2
          exact h2 hlt2
      · subst hi2
        have hndi := Option.some.inj (hgi1.symm.trans hS1get_new)
        rw [hptr1_new 0] at hptr0
        rw [if_pos (by omega)] at hptr0
        rw [hP20] at hptr0
        have hkiv : ndiS.key = key := by rw [hndi]
        rw [hkiv] at hlt2
        cases hx0 : prevF.getD 0 NodePtr.head with
        | head =>
          rw [hx0] at hptr0
          have hemp := hInv.hsh0 hptr0
          rcases hmem_char nd2 hm2 with hk2 | ⟨ndo2, hmo2, hko2⟩
          · rw [hk2] at hlt2
            exact lt_irrefl _ hlt2
          · rw [hemp] at hmo2
            cases hmo2
        | node j2 =>
          rw [hx0] at hptr0
          have hxok := hx0ok.1
          rw [hx0] at hxok
          obtain ⟨ndj, hgj, hkj, _⟩ := hxok
          have hmaxj := hInv.hsn0 j2 ndj hgj hptr0
          rcases hmem_char nd2 hm2 with hk2 | ⟨ndo2, hmo2, hko2⟩
          · rw [hk2] at hlt2
            exact lt_irrefl _ hlt2
          · have h2 := hmaxj ndo2 hmo2
            rw [hko2] at h2
            exact h2 (lt_trans hkj hlt2)
      · rw [hS1get_hi i (by omega)] at hgi1
        cases hgi1
  · intro i nd2i t ndt2 hgi2 hptr0 hgt2 nd2 hm2 hgt3 hlt2
    obtain ⟨ndiS, hgi1, hki, _⟩ := hRget i nd2i hgi2
    obtain ⟨ndtS, hgt1, hkt, _⟩ := hRget t ndt2 hgt2
    rw [hki] at hgt3
    rw [hkt] at hlt2
    rw [hres (NodePtr.node i) 0] at hptr0
    by_cases hc : 0 < insH s ∧
        NodePtr.node i = (insPrev2 s prevF).getD 0 .head
    · rw [if_pos hc] at hptr0
      have ht := (Option.some.inj hptr0).symm
      subst ht
      have hndt := Option.some.inj (hgt1.symm.trans hS1get_new)
      have hktv : ndtS.key = key := by rw [hndt]
      rw [hktv] at hlt2
      have hx0eq : prevF.getD 0 NodePtr.head = NodePtr.node i := by
        rw [hP20] at hc
        exact hc.2.symm
      have hxok := hx0ok.1
      rw [hx0eq] at hxok
      obtain ⟨ndo, hgo, hko, _⟩ := hxok
      have hio : ndiS = ndo := by
        have h3 := hS1get_old i ndo hgo
        exact Option.some.inj (hgi1.symm.trans h3)
      rw [hio] at hgt3
      have haf := hx0ok.2
      rw [hx0eq] at haf
      rcases hmem_char nd2 hm2 with hk2 | ⟨ndo2, hmo2, hko2⟩
      · rw [hk2] at hlt2
        exact lt_irrefl _ hlt2
      · cases hps : ptrNext s (.node i) 0 with
        | none =>
          have h2 := hInv.hsn0 i ndo hgo hps ndo2 hmo2
          rw [hko2] at h2
          exact h2 hgt3
        | some t0 =>
          have ht0l := hInv.hvalid _ 0 t0 hps
          obtain ⟨ndt0, hgt0⟩ : ∃ nd, s.nodes.get? t0 = some nd := by
            rw [List.get?_eq_get ht0l]
            exact ⟨_, rfl⟩
          rw [hps] at haf
          have h1 : ¬(ndt0.key < key) := key_after_false_of_some hgt0 haf
          have h2 := hInv.hsn1 i ndo t0 ndt0 hgo hps hgt0 ndo2 hmo2
            (by rw [hko2]; exact hgt3)
          rw [hko2] at h2
          exact h1 (lt_of_le_of_lt (not_lt.mp h2) hlt2)
    · rw [if_neg hc] at hptr0
      have hiP2 : NodePtr.node i ≠ prevF.getD 0 NodePtr.head := by
        intro he
        exact hc ⟨by omega, by rw [hP20]; exact he⟩
      rcases Nat.lt_trichotomy i s.nodes.length with hi2 | hi2 | hi2
      · have hgold := hS1get_oldr i ndiS hi2 hgi1
        rw [hptr1_old i ndiS 0 hgold] at hptr0
        have htl := hInv.hvalid _ 0 t hptr0
        have hgtold := hS1get_oldr t ndtS htl hgt1
        rcases hmem_char nd2 hm2 with hk2 | ⟨ndo2, hmo2, hko2⟩
        · rw [hk2] at hgt3 hlt2
          obtain ⟨j2, ndj, hx0eq, hgj, hle⟩ :=
            splice_upper hInv hx0ok ndiS (List.get?_mem hgold) hgt3
          have hij : i ≠ j2 := by
            intro he
            rw [← he] at hx0eq
            exact hiP2 hx0eq.symm
          have hlt4 : ndiS.key < ndj.key := by
            rcases lt_or_eq_of_le (not_lt.mp hle) with h | h
            · exact h
            · exact absurd (hkey_inj i j2 ndiS ndj hgold hgj h) hij
          have h2 := hInv.hsn1 i ndiS t ndtS hgold hptr0 hgtold ndj
            (List.get?_mem hgj) hlt4
          have hxok := hx0ok.1
          rw [hx0eq] at hxok
          obtain ⟨ndj2, hgj2, hkj2, _⟩ := hxok
          have hjj : ndj2 = ndj := Option.some.inj (hgj2.symm.trans hgj)
          rw [hjj] at hkj2
          exact absurd hlt2
            (not_lt.mpr (le_of_lt (lt_of_le_of_lt (not_lt.mp h2) hkj2)))
        · have h2 := hInv.hsn1 i ndiS t ndtS hgold hptr0 hgtold ndo2 hmo2
            (by rw [hko2]; exact hgt3)
          rw [hko2] at h2
          exact h2 hlt2
      · subst hi2
        have hndi := Option.some.inj (hgi1.symm.trans hS1get_new)
        have hkiv : ndiS.key = key := by rw [hndi]
        rw [hkiv] at hgt3
        rw [hptr1_new 0] at hptr0
        rw [if_pos (by omega)] at hptr0
        rw [hP20] at hptr0
        have htl := hInv.hvalid _ 0 t hptr0
        have hgtold := hS1get_oldr t ndtS htl hgt1
        rcases hmem_char nd2 hm2 with hk2 | ⟨ndo2, hmo2, hko2⟩
        · rw [hk2] at hgt3
          exact lt_irrefl _ hgt3
        · have h2 := splice_min hInv hx0ok hptr0 hgtold ndo2 hmo2
            (by rw [hko2]; exact hgt3)
          rw [hko2] at h2
          exact h2 hlt2
      · rw [hS1get_hi i (by omega)] at hgi1
        cases hgi1

theorem foldl_insert_spec {K : Type} [LinearOrder K] :
    ∀ (ks : List K) (s : SkipListState K), SLInv s →
      (∀ k ∈ ks, k ∉ s.nodes.map SLNode.key) → ks.Nodup →
      SLInv (ks.foldl SkipList.insert s) ∧
      (ks.foldl SkipList.insert s).nodes.map SLNode.key =
        s.nodes.map SLNode.key ++ ks := by
  intro ks
  induction ks with
  | nil =>
    intro s hInv _ _
    exact ⟨hInv, by simp⟩
  | cons k ks ih =>
    intro s hInv hnotin hnd
    rw [List.foldl_cons]
    have hfresh : ∀ nd ∈ s.nodes, nd.key ≠ k := by
      intro nd hm he
      exact hnotin k (List.mem_cons_self k ks)
        (he ▸ List.mem_map_of_mem _ hm)
    obtain ⟨hInv2, hkeys2⟩ := insert_spec s hInv k hfresh
    have hnd2 := (List.nodup_cons.mp hnd).2
    have hkni := (List.nodup_cons.mp hnd).1
    have hnotin2 : ∀ k2 ∈ ks,
        k2 ∉ (SkipList.insert s k).nodes.map SLNode.key := by
      intro k2 hk2 hmem
      rw [hkeys2] at hmem
      rcases List.mem_append.mp hmem with h | h
      · exact hnotin k2 (List.mem_cons_of_mem k hk2) h
      · rw [List.mem_singleton] at h
        exact hkni (h ▸ hk2)
    obtain ⟨hI3, hk3⟩ := ih (SkipList.insert s k) hInv2 hnotin2 hnd2
    refine ⟨hI3, ?_⟩
    rw [hk3, hkeys2, List.append_assoc]
    rfl

theorem insertAll_spec {K : Type} [LinearOrder K] (ks : List K)
    (hnd : ks.Nodup) :
    SLInv (insertAll ks) ∧
    (insertAll ks).nodes.map SLNode.key = ks := by
  obtain ⟨h1, h2⟩ := foldl_insert_spec ks (SkipList.new K) (SLInv_new K)
    (by
      intro k _ hmem
      simp [SkipList.new] at hmem) hnd
  refine ⟨h1, ?_⟩
  have h3 : (insertAll ks).nodes.map SLNode.key =
      (SkipList.new K).nodes.map SLNode.key ++ ks := h2
  simpa [SkipList.new] using h3

/-- Claim C9: for every finite sequence of `SkipList::insert` calls with
pairwise distinct keys (sequentially, no concurrency) and every key `k`,
`contains(k)` returns true if and only if `k` was one of the inserted
keys. -/
theorem C9_skiplist_contains {K : Type} [LinearOrder K] (ks : List K)
    (hnd : ks.Nodup) (key : K) :
    SkipList.contains (insertAll ks) key = true ↔ key ∈ ks := by
  obtain ⟨hInv, hkeys⟩ := insertAll_spec ks hnd
  rw [skiplist_contains_iff (insertAll ks) hInv key]
  constructor
  · rintro ⟨nd, hm, hk⟩
    have h1 := List.mem_map_of_mem SLNode.key hm
    rw [hkeys, hk] at h1
    exact h1
  · intro hk
    rw [← hkeys] at hk
    obtain ⟨nd, hm, he⟩ := List.mem_map.mp hk
    exact ⟨nd, hm, he⟩

/-- Witness for C9 at a concrete instance: inserting `[2, 1]` (distinct
keys) and looking up `1`. -/
theorem C9_skiplist_contains_witness :
    ([2, 1] : List Nat).Nodup ∧
    (SkipList.contains (insertAll ([2, 1] : List Nat)) 1 = true ↔
      1 ∈ ([2, 1] : List Nat)) :=
  ⟨by decide, C9_skiplist_contains [2, 1] (by decide) 1⟩

/-- Claim C1 (failing input): `DB::recover` returns `InvalidArgument`
whenever CURRENT exists, even with `error_if_exists = false`, while the
CURRENT-absent branches behave as claimed. -/
theorem C1_recover_decision_eval :
    recoverDecision true false false =
      .invalidArgument "exists (error_if_exists is true)" ∧
    recoverDecision true true false =
      .invalidArgument "exists (error_if_exists is true)" ∧
    recoverDecision false true false = .createNew ∧
    recoverDecision false false false =
      .invalidArgument "does not exist (create_if_missing is false)" :=
  ⟨rfl, rfl, rfl, rfl⟩

end RucksDB
